import Mathlib

/-!
# HSS demo over the 2^k-th power residue cryptosystem

Shallow embedding of `src/lib/lib-2k-prs.c` (key generation, encryption,
decryption) and of `src/demo.c` (sharing, evaluation, decoding).

Conventions of the embedding

* An `mpz_t` is a `Nat` wherever the program only ever stores non-negative
  integers in it (keys, plaintexts after `mpz_mod`, ciphertexts), and an `Int`
  inside `random_split`, where the last share is negative before reduction.
* `unsigned int` subtraction wraps modulo `2^32` (`uint_sub`).
* The random generator `prng` is a stream of raw outputs and a read position.
  `mpz_urandomb` and `mpz_urandomm` reduce the raw output into their range, so
  quantifying over all streams quantifies over all outcomes of the draws.
* A run that aborts (a failed `assert`, a GMP division by zero, an access past
  the end of an array) yields a `Fault`; the generator state at that moment is
  still part of the result.
* Unbounded `do ... while` loops take a fuel argument.
* `server_number` is the parameter `N` (10 in the source); `input_number` is 3.
-/

namespace HSS

/-! ## Faults, generator state, programs -/

/-- Ways in which a run can stop without returning. -/
inductive Fault where
  | assertion
  | div_by_zero
  | out_of_bounds
  | out_of_fuel
  deriving DecidableEq, Repr

/-- State of `gmp_randstate_t`: the raw outputs still to come and how many were consumed.
A call that reads the generator consumes one element of the stream, the outcome of that
call before it is reduced to the range asked for; a call that asks for nothing (0 bits, or
a range of one value) leaves the generator as it is. -/
structure gmp_randstate where
  stream : Nat → Nat
  pos : Nat

/-- A computation that may read the generator: it returns a value or a fault, and the
generator state it leaves behind. -/
def Prog (α : Type) : Type := gmp_randstate → Except Fault α × gmp_randstate

/-- Sequencing of programs: a fault stops the run and keeps the state reached. -/
def Prog.bind {α β : Type} (m : Prog α) (f : α → Prog β) : Prog β := fun st =>
  match m st with
  | (Except.ok a, st1) => f a st1
  | (Except.error e, st1) => (Except.error e, st1)

instance : Monad Prog where
  pure a := fun st => (Except.ok a, st)
  bind := Prog.bind

/-- A pure fallible step run as a program: the generator is not touched. -/
def liftE {α : Type} (r : Except Fault α) : Prog α := fun st => (r, st)

/-- C `assert(c)`. -/
def c_assert (c : Prop) [Decidable c] : Prog Unit := fun st =>
  if c then (Except.ok (), st) else (Except.error Fault.assertion, st)

/-- The loop `for (i = lo; i < lo + n; i++) s = body(i, s)`. -/
def forLoop {m : Type → Type} [Monad m] {σ : Type} (body : Nat → σ → m σ) :
    Nat → Nat → σ → m σ
  | 0, _, s => pure s
  | n + 1, i, s => body i s >>= fun s1 => forLoop body n (i + 1) s1

/-! ## GMP primitives -/

/-- `unsigned int` subtraction. -/
def uint_sub (a b : Nat) : Nat := (a + (2 ^ 32 - b % 2 ^ 32)) % 2 ^ 32

/-- `mpz_mod` on non-negative operands; GMP raises a division by zero for modulus 0. -/
def mpz_mod (a d : Nat) : Except Fault Nat :=
  if d = 0 then Except.error Fault.div_by_zero else Except.ok (a % d)

/-- `mpz_mod` on an integer operand: the result is the non-negative residue. -/
def mpz_mod_int (a : Int) (d : Nat) : Except Fault Int :=
  if d = 0 then Except.error Fault.div_by_zero else Except.ok (a % (d : Int))

/-- `mpz_powm` with a non-negative exponent. -/
def mpz_powm (base exp mod : Nat) : Except Fault Nat :=
  if mod = 0 then Except.error Fault.div_by_zero else Except.ok (base ^ exp % mod)

/-- `mpz_invert(rop, op, mod)` with `rop` aliased to `op`: the inverse in `[0, mod)` when
there is one; otherwise GMP returns 0 and leaves `rop` as it was. -/
def mpz_invert (a mod : Nat) : Except Fault Nat :=
  if mod = 0 then Except.error Fault.div_by_zero
  else
    match (List.range mod).find? (fun x => decide (a * x % mod = 1 % mod)) with
    | some x => Except.ok x
    | none => Except.ok a

/-- Number of binary digits of `x` (0 for `x = 0`), counted by halving; `fuel ≥ x` is enough. -/
def bit_length : Nat → Nat → Nat
  | 0, _ => 0
  | fuel + 1, x => if x = 0 then 0 else bit_length fuel (x / 2) + 1

/-- `mpz_sizeinbase(x, 2)`: the bit length, 1 for `x = 0`. -/
def mpz_sizeinbase2 (x : Nat) : Nat := if x = 0 then 1 else bit_length x x

/-- `mpz_jacobi`. -/
def mpz_jacobi (a b : Nat) : Int := jacobiSym (a : Int) b

/-- `mpz_urandomb(rop, prng, bits)`: uniform in `[0, 2^bits)`. For `bits = 0` GMP sets
`rop` to 0 (here `x % 2^0 = 0`) and does not read the generator. -/
def mpz_urandomb (bits : Nat) : Prog Nat := fun st =>
  (Except.ok (st.stream st.pos % 2 ^ bits),
    { st with pos := st.pos + (if bits = 0 then 0 else 1) })

/-- `mpz_urandomm(rop, prng, n)`: uniform in `[0, n)`; GMP raises a division by zero for
`n = 0`, before it reads the generator, and for `n = 1` it sets `rop` to 0 (here
`x % 1 = 0`) without reading the generator. -/
def mpz_urandomm (n : Nat) : Prog Nat := fun st =>
  if n = 0 then (Except.error Fault.div_by_zero, st)
  else (Except.ok (st.stream st.pos % n),
    { st with pos := st.pos + (if n = 1 then 0 else 1) })

/-- Read `a[i]` of a heap array. -/
def array_read (a : List Nat) (i : Nat) : Except Fault Nat :=
  match a[i]? with
  | some v => Except.ok v
  | none => Except.error Fault.out_of_bounds

/-- Write `a[i] = v` of a heap array. -/
def array_write (a : List Nat) (i v : Nat) : Except Fault (List Nat) :=
  if i < a.length then Except.ok (a.set i v) else Except.error Fault.out_of_bounds

/-- Assign one cell of a two-dimensional array. -/
def set2 (a : Nat → Nat → Nat) (i j v : Nat) : Nat → Nat → Nat :=
  Function.update a i (Function.update (a i) j v)

/-! ## lib-2k-prs.c -/

/-- The struct `prs_keys_t`. -/
structure prs_keys where
  n_bits : Nat
  p : Nat
  q : Nat
  n : Nat
  y : Nat
  k : Nat
  k_2 : Nat
  d : List Nat

/-- First `do ... while` of `prs_generate_keys` (lines 87-91): the search for `p`. -/
def gen_p (probab_prime : Nat → Nat → Nat) (reps k p_bits : Nat) : Nat → Prog Nat
  | 0 => liftE (Except.error Fault.out_of_fuel)
  | fuel + 1 => do
    let r ← mpz_urandomb (uint_sub p_bits k)
    let p := (r * 2 ^ k) ||| 1
    if mpz_sizeinbase2 p < p_bits ∨ probab_prime p reps = 0 then
      gen_p probab_prime reps k p_bits fuel
    else pure p

/-- Second `do ... while` of `prs_generate_keys` (lines 95-100): the search for `q`. -/
def gen_q (probab_prime : Nat → Nat → Nat) (reps p_bits q_bits : Nat) : Nat → Prog Nat
  | 0 => liftE (Except.error Fault.out_of_fuel)
  | fuel + 1 => do
    let r ← mpz_urandomb (uint_sub p_bits 2)
    let q := ((r * 2 ^ 2) ||| 1) ||| 2
    if mpz_sizeinbase2 q < q_bits ∨ probab_prime q reps = 0 then
      gen_q probab_prime reps p_bits q_bits fuel
    else pure q

/-- Third `do ... while` of `prs_generate_keys` (lines 117-123): the search for `y`.
The `continue` taken when `gcd(y, n) != 1` jumps to the loop condition, which is
evaluated in either case. -/
def gen_y (n_bits p q n : Nat) : Nat → Prog Nat
  | 0 => liftE (Except.error Fault.out_of_fuel)
  | fuel + 1 => do
    let y ← mpz_urandomb n_bits
    let tmp := Nat.gcd y n
    let _skip := decide (tmp ≠ 1)
    if mpz_jacobi y p ≠ -1 ∨ mpz_jacobi y q ≠ -1 then
      gen_y n_bits p q n fuel
    else pure y

/-- Lines 125-136 of `prs_generate_keys`: the decryption ladder `d`. -/
def prs_ladder (y p k : Nat) : Except Fault (List Nat) := do
  let p_m_1 := p - 1
  let p_m_1_k := p_m_1 / 2 ^ k
  let d ← mpz_powm y p_m_1_k p
  let d ← mpz_invert d p
  let arr := List.replicate (uint_sub k 1) 0
  let arr ← array_write arr 0 d
  forLoop (fun i arr => do
      let prev ← array_read arr (i - 1)
      let v ← mpz_powm prev 2 p
      array_write arr i v)
    (uint_sub k 1 - 1) 1 arr

/-- `prs_generate_keys`; `probab_prime` is `mpz_probab_prime_p` and `reps` is
`PRS_MR_ITERATIONS`, both declared outside the two source files. -/
def prs_generate_keys (probab_prime : Nat → Nat → Nat) (reps fuel : Nat)
    (k n_bits : Nat) : Prog prs_keys := do
  c_assert (1 < n_bits)
  let p_bits := n_bits >>> 1
  let k_2 := 2 ^ k
  let p ← gen_p probab_prime reps k p_bits fuel
  let q_bits := mpz_sizeinbase2 p
  let q ← gen_q probab_prime reps p_bits q_bits fuel
  let n := p * q
  let y ← gen_y n_bits p q n fuel
  let d ← liftE (prs_ladder y p k)
  pure { n_bits := n_bits, p := p, q := q, n := n, y := y, k := k, k_2 := k_2, d := d }

/-- `prs_encrypt`: returns the ciphertext `c`. -/
def prs_encrypt (keys : prs_keys) (m : Nat) (base_size : Nat) : Prog Nat := do
  c_assert (0 < base_size)
  c_assert (base_size ≤ keys.k)
  let x ← mpz_urandomb base_size
  let y_m ← liftE (mpz_powm keys.y m keys.n)
  let x ← liftE (mpz_powm x keys.k_2 keys.n)
  liftE (mpz_mod (x * y_m) keys.n)

/-- Body of the loop of `prs_decrypt` (lines 192-199) on the triple `(m, c, b)`. -/
def prs_decrypt_step (keys : prs_keys) (i : Nat) (s : Nat × Nat × Nat) :
    Except Fault (Nat × Nat × Nat) := do
  let k_j := 2 ^ (keys.k - i)
  let z ← mpz_powm s.2.1 k_j keys.p
  if z ≠ 1 then
    let di ← array_read keys.d (i - 1)
    let c ← mpz_mod (s.2.1 * di) keys.p
    pure (s.1 + s.2.2, c, s.2.2 * 2)
  else pure (s.1, s.2.1, s.2.2 * 2)

/-- `prs_decrypt`: returns the plaintext `m`. -/
def prs_decrypt (keys : prs_keys) (ct : Nat) : Except Fault Nat := do
  let p_m_1 := keys.p - 1
  let p_m_1_k := p_m_1 / 2 ^ keys.k
  let c ← mpz_powm ct p_m_1_k keys.p
  let s ← forLoop (prs_decrypt_step keys) (keys.k - 1) 1 (0, c, 1)
  pure (if s.2.1 ≠ 1 then s.1 + s.2.2 else s.1)

/-- `mpz_powm` on an integer base (GMP returns the non-negative residue). -/
def mpz_powm_int (base : Int) (exp mod : Nat) : Except Fault Nat :=
  if mod = 0 then Except.error Fault.div_by_zero
  else Except.ok (base ^ exp % (mod : Int)).toNat

/-- `prs_decrypt` on an arbitrary integer in `ciphertext->c`: the same statements as
`prs_decrypt`, the first `mpz_powm` reading a possibly negative base. -/
def prs_decrypt_int (keys : prs_keys) (ct : Int) : Except Fault Nat := do
  let p_m_1 := keys.p - 1
  let p_m_1_k := p_m_1 / 2 ^ keys.k
  let c ← mpz_powm_int ct p_m_1_k keys.p
  let s ← forLoop (prs_decrypt_step keys) (keys.k - 1) 1 (0, c, 1)
  pure (if s.2.1 ≠ 1 then s.1 + s.2.2 else s.1)

/-! ## demo.c -/

/-- `get_outcome`. -/
def get_outcome (input : Nat → Nat) (keys : prs_keys) : Except Fault Nat := do
  let res ← mpz_mod (input 0 * input 1) keys.k_2
  mpz_mod (res * input 2) keys.k_2

/-- `random_split`: returns the row `parts` after the call. -/
def random_split (N : Nat) (input : Nat) (parts : Nat → Nat) (keys : prs_keys) :
    Prog (Nat → Nat) := do
  let init : (Nat → Int) × Int := (fun i => (parts i : Int), 0)
  let s ← forLoop (fun i (s : (Nat → Int) × Int) => do
      let r ← mpz_urandomm input
      pure (Function.update s.1 i (r : Int), s.2 + (r : Int)))
    (N - 1) 0 init
  let parts1 := Function.update s.1 (N - 1) ((input : Int) - s.2)
  let parts2 ← forLoop (fun i (ps : Nat → Int) => do
      let v ← liftE (mpz_mod_int (ps i) keys.k_2)
      pure (Function.update ps i v))
    N 0 parts1
  pure (fun i => (parts2 i).toNat)

/-- `share`: returns the arrays `(enc_s, ss)` after the call. -/
def share (N : Nat) (input : Nat → Nat) (keys : prs_keys)
    (enc_s ss : Nat → Nat → Nat) : Prog ((Nat → Nat → Nat) × (Nat → Nat → Nat)) :=
  forLoop (fun i (s : (Nat → Nat → Nat) × (Nat → Nat → Nat)) => do
      let row ← random_split N (input i) (s.2 i) keys
      let ss1 := Function.update s.2 i row
      let enc1 ← forLoop (fun j (e : Nat → Nat → Nat) => do
          let c ← prs_encrypt keys (ss1 i j) 512
          pure (set2 e i j c))
        N 0 s.1
      pure (enc1, ss1))
    3 0 (enc_s, ss)

/-- `sub_eval`: returns `res->c` after the call. -/
def sub_eval (a b e : Nat) (res : Nat) (kk : prs_keys) : Except Fault Nat := do
  let t ← mpz_mod (a * b) kk.k_2
  let t ← mpz_powm e t kk.n
  mpz_mod (res * t) kk.n

/-- `plain_eval`: returns `res->c` after the call. -/
def plain_eval (a b e : Nat) (res : Nat) (kk : prs_keys) : Prog Nat := do
  let t ← liftE (mpz_mod (a * b) kk.k_2)
  let t ← liftE (mpz_mod (t * e) kk.k_2)
  let ct ← prs_encrypt kk t 512
  liftE (mpz_mod (res * ct) kk.n)

/-- Lines 124-154 of `evaluate`: the calls to `plain_eval` and `sub_eval`, each given the
(row, column) coordinates in `eval_parts` of its three operands, in program order. -/
def evaluate_calls {m : Type → Type} [Monad m] {σ : Type} (N index : Nat)
    (plain sub : Nat × Nat → Nat × Nat → Nat × Nat → σ → m σ) (s : σ) : m σ := do
  let s ← if index = 0 then do
      let s ← forLoop (fun i s =>
          forLoop (fun j s =>
            forLoop (fun k s => plain (0, i) (1, j) (2, k) s) (N - 1) 1 s)
            (N - 1) 1 s)
          (N - 1) 1 s
      forLoop (fun i s =>
          let t1 := (i + 1) % 3
          let t2 := (i + 2) % 3
          forLoop (fun j s =>
            forLoop (fun k s => sub (t1, j) (t2, k) (i, 0) s) (N - 1) 1 s)
            (N - 1) 1 s)
        3 0 s
    else pure s
  if index = 1 then do
      let s ← plain (0, 0) (1, 0) (2, 0) s
      forLoop (fun i s => do
          let t1 := (i + 1) % 3
          let t2 := (i + 2) % 3
          let s ← sub (t1, 0) (t2, 0) (i, 1) s
          forLoop (fun j s => plain (t1, 0) (t2, 0) (i, j) s) (N - 2) 2 s)
        3 0 s
    else pure s

/-- Lines 110-123 of `evaluate`: `eval_parts` after the copy loops. The write to column
`index` is past the end of a row when `index ≥ N`. -/
def evaluate_fill (N : Nat) (eval_parts : Nat → Nat → Nat) (index : Nat)
    (ss enc_share : Nat → Nat → Nat) : Except Fault (Nat → Nat → Nat) := do
  let ep ← forLoop (fun i ep =>
      forLoop (fun j (ep : Nat → Nat → Nat) =>
        pure (if j ≠ index then set2 ep i j (ss i j) else ep)) N 0 ep)
    3 0 eval_parts
  if index < N then
    forLoop (fun i (ep : Nat → Nat → Nat) => pure (set2 ep i index (enc_share i index))) 3 0 ep
  else Except.error Fault.out_of_bounds

/-- `evaluate`: returns the global `eval_parts` and `s->c` after the call. -/
def evaluate (N : Nat) (eval_parts : Nat → Nat → Nat) (s : Nat) (keys : prs_keys)
    (index : Nat) (ss enc_share : Nat → Nat → Nat) : Prog ((Nat → Nat → Nat) × Nat) := do
  let ep ← liftE (evaluate_fill N eval_parts index ss enc_share)
  let s ← evaluate_calls N index
    (fun e1 e2 e3 s => plain_eval (ep e1.1 e1.2) (ep e2.1 e2.2) (ep e3.1 e3.2) s keys)
    (fun e1 e2 e3 s => liftE (sub_eval (ep e1.1 e1.2) (ep e2.1 e2.2) (ep e3.1 e3.2) s keys))
    s
  pure (ep, s)

/-- `decode`: returns `dec_res->m`. -/
def decode (N : Nat) (s : Nat → Nat) (keys : prs_keys) : Except Fault Nat := do
  let res ← forLoop (fun i res => mpz_mod (res * s i) keys.n) N 0 1
  prs_decrypt keys res

/-- Lines 208-211 and 239-272 of `main`, from the drawn inputs on: the direct computation,
sharing, one `evaluate` per server on `s[j] = 1`, decoding, and the final
`assert(mpz_cmp(plain_res, dec_res->m) == 0)`. Returns `(plain_res, dec_res)`. -/
def main_run (N : Nat) (keys : prs_keys) (input : Nat → Nat)
    (eval_parts enc_share ss : Nat → Nat → Nat) : Prog (Nat × Nat) := do
  let plain_res ← liftE (get_outcome input keys)
  let sh ← share N input keys enc_share ss
  let s0 : Nat → Nat := fun _ => 1
  let r ← forLoop (fun i (r : (Nat → Nat → Nat) × (Nat → Nat)) => do
      let e ← evaluate N r.1 (r.2 i) keys i sh.2 sh.1
      pure (e.1, Function.update r.2 i e.2))
    N 0 (eval_parts, s0)
  let dec_res ← liftE (decode N r.2 keys)
  c_assert (plain_res = dec_res)
  pure (plain_res, dec_res)

/-- The index triple `(a, b, c)` of a call whose three operands are the entries `[0][a]`,
`[1][b]`, `[2][c]` of `eval_parts`, in whichever order they are passed: the columns of the
operands of row 0, of row 1 and of row 2. A call whose operands are not one from each of
the three rows is no triple (`none`). -/
def triple_of (e1 e2 e3 : Nat × Nat) : Option (Nat × Nat × Nat) :=
  let cols := fun (r : Nat) => ([e1, e2, e3].filter (fun e => e.1 = r)).map Prod.snd
  match cols 0, cols 1, cols 2 with
  | [a], [b], [c] => some (a, b, c)
  | _, _, _ => none

/-- The step substituted for `plain_eval` and `sub_eval` to record a call: it appends the
triple of the call to the log. -/
def log_call (e1 e2 e3 : Nat × Nat) (log : List (Option (Nat × Nat × Nat))) :
    Id (List (Option (Nat × Nat × Nat))) :=
  pure (log ++ [triple_of e1 e2 e3])

/-- The triples folded by `evaluate` for server `index`, in program order: the call
sequence of `evaluate` run with both primitives replaced by logging. -/
def folded_triples (N index : Nat) : List (Option (Nat × Nat × Nat)) :=
  Id.run (evaluate_calls N index log_call log_call [])

/-! ## Concrete inputs used below -/

/-- A small key pair `prs_generate_keys` can return for `k = 2`, `n_bits = 6`. -/
def K1 : prs_keys :=
  { n_bits := 6, p := 5, q := 7, n := 35, y := 3, k := 2, k_2 := 4, d := [2] }

/-- A primality test that accepts exactly 5 and 7 (enough to run `prs_generate_keys` on
a small example). -/
def small_prime_test (x _reps : Nat) : Nat := if x = 5 ∨ x = 7 then 1 else 0

/-- Generator whose raw outputs are 1, 1, 3, 1, 1, ... -/
def st_keygen : gmp_randstate := ⟨fun i => if i = 2 then 3 else 1, 0⟩

/-! ## Predicates used in the statements -/

/-- The exponent `(p - 1) / 2^k` computed by `prs_generate_keys` and `prs_decrypt`. -/
def prs_exp (keys : prs_keys) : Nat := (keys.p - 1) / 2 ^ keys.k

/-- The ladder of a key pair has the values `prs_generate_keys` gives it: `k - 1` entries,
entry `i` being `D^(2^i) mod p` for `D` the inverse of `y^((p-1)/2^k) mod p`. -/
def LadderOK (keys : prs_keys) : Prop :=
  keys.d.length + 1 = keys.k ∧
    ∃ D, mpz_invert (keys.y ^ prs_exp keys % keys.p) keys.p = Except.ok D ∧
      ∀ i, i + 1 < keys.k → keys.d[i]? = some (D ^ 2 ^ i % keys.p)

/-- A valid key pair: `k ≥ 1`, `p` prime with `p ≡ 1 (mod 2^k)`, `n = p·q`, `k_2 = 2^k`,
`J(y/p) = J(y/q) = -1`, and the ladder as `prs_generate_keys` builds it. -/
structure ValidKeys (keys : prs_keys) : Prop where
  k_pos : 1 ≤ keys.k
  p_prime : Nat.Prime keys.p
  p_mod : keys.p % 2 ^ keys.k = 1
  n_eq : keys.n = keys.p * keys.q
  k_2_eq : keys.k_2 = 2 ^ keys.k
  jac_p : mpz_jacobi keys.y keys.p = -1
  jac_q : mpz_jacobi keys.y keys.q = -1
  ladder : LadderOK keys

/-- The ciphertext `c` carries the exponent `M`: modulo `p`, `c^((p-1)/2^k)` is the `M`-th
power of `y^((p-1)/2^k)`. -/
def Enc (keys : prs_keys) (c M : Nat) : Prop :=
  (c : ZMod keys.p) ^ prs_exp keys = ((keys.y : ZMod keys.p) ^ prs_exp keys) ^ M

/-- The ciphertext `c` carries an exponent whose residue modulo `2^k` is `z`. -/
def EncZ (keys : prs_keys) (c : Nat) (z : ZMod (2 ^ keys.k)) : Prop :=
  ∃ M, Enc keys c M ∧ (M : ZMod (2 ^ keys.k)) = z

/-- Number of times `random_split` reads the generator on a non-zero input: once for each
of the `N - 1` calls of `mpz_urandomm`, which reads nothing when the input is 1. -/
def split_reads (N input : Nat) : Nat := if input = 1 then 0 else N - 1

/-- Number of times `share` has read the generator when it starts on input `i`: for each
earlier input, the reads of `random_split` and the `N` draws of `x`. -/
def share_reads (N : Nat) (input : Nat → Nat) : Nat → Nat
  | 0 => 0
  | i + 1 => share_reads N input i + (split_reads N (input i) + N)

/-- Every `x` that `prs_encrypt` draws during `main_run` on the inputs `input`, started
in state `st`, is non-zero. `share` makes, for each of the 3 inputs, the reads of
`random_split` followed by `N` draws of `x`; every later draw is an `x` drawn by
`plain_eval`. -/
def EncDrawsNonzero (N : Nat) (input : Nat → Nat) (st : gmp_randstate) : Prop :=
  (∀ i j, i < 3 → j < N →
      st.stream (st.pos + share_reads N input i + split_reads N (input i) + j) % 2 ^ 512
        ≠ 0) ∧
    (∀ t, st.pos + share_reads N input 3 ≤ t → st.stream t % 2 ^ 512 ≠ 0)

/-- The step `m` on a partial result succeeds and adds `v` to the exponent it carries,
for every generator state that reads the stream `σ` from position `p0` or later. -/
def Adds (keys : prs_keys) (σ : Nat → Nat) (p0 : Nat) (m : Nat → Prog Nat)
    (v : ZMod (2 ^ keys.k)) : Prop :=
  ∀ s st z, st.stream = σ → p0 ≤ st.pos → EncZ keys s z →
    ∃ s1 st1, m s st = (Except.ok s1, st1) ∧ st1.stream = σ ∧ p0 ≤ st1.pos ∧
      EncZ keys s1 (z + v)

/-- Sum of the exponents server 0 folds, for shares `S r j` (row `r`, server `j`). -/
def server0_sum {R : Type} [CommSemiring R] (N : Nat) (S : Nat → Nat → R) : R :=
  (∑ i in Finset.range (N - 1), ∑ j in Finset.range (N - 1), ∑ k in Finset.range (N - 1),
      S 0 (1 + i) * S 1 (1 + j) * S 2 (1 + k)) +
    ∑ i in Finset.range 3, ∑ j in Finset.range (N - 1), ∑ k in Finset.range (N - 1),
      S ((i + 1) % 3) (1 + j) * S ((i + 2) % 3) (1 + k) * S i 0

/-- Sum of the exponents server 1 folds. -/
def server1_sum {R : Type} [CommSemiring R] (N : Nat) (S : Nat → Nat → R) : R :=
  S 0 0 * S 1 0 * S 2 0 +
    ∑ i in Finset.range 3, (S ((i + 1) % 3) 0 * S ((i + 2) % 3) 0 * S i 1 +
      ∑ j in Finset.range (N - 2), S ((i + 1) % 3) 0 * S ((i + 2) % 3) 0 * S i (2 + j))

/-- What server `idx` adds to the exponent of its partial result. -/
def server_term {R : Type} [CommSemiring R] (N : Nat) (S : Nat → Nat → R) (idx : Nat) : R :=
  if idx = 0 then server0_sum N S else if idx = 1 then server1_sum N S else 0

/-! ## A key pair with `k = 512` -/

/-- The map `x ↦ x^2 mod p` applied `n` times to `x mod p`. -/
def sq_iter : Nat → Nat → Nat → Nat
  | 0, x, p => x % p
  | n + 1, x, p => sq_iter n (x * x % p) p

/-- The ladder `[D, D^2, D^4, ...]` modulo `p` with `k - 1` entries. -/
def ladder_values (D p k : Nat) : List Nat :=
  (List.range (k - 1)).map (fun i => D ^ 2 ^ i % p)

/-- The value `mpz_invert` leaves in `rop`. -/
def invert_value (a m : Nat) : Nat :=
  match mpz_invert a m with
  | Except.ok D => D
  | Except.error _ => 0

/-- The key pair `keys` with its ladder replaced by the values `prs_generate_keys` stores:
`d[i] = D^(2^i) mod p` for `i < k - 1`, `D` being the inverse of `y^((p-1)/2^k) mod p`. -/
def with_ladder (keys : prs_keys) : prs_keys :=
  { keys with
    d := ladder_values (invert_value (keys.y ^ prs_exp keys % keys.p) keys.p) keys.p keys.k }

/-- A key pair for `k = 512`, `n_bits = 1072`: `p = 3·2^534 + 1`, `q = 2^535 + 83`,
`y = 10`, and the ladder computed from them. -/
def K512 : prs_keys :=
  with_ladder
    { n_bits := 1072
      p := 3 * 2 ^ 534 + 1
      q := 2 ^ 535 + 83
      n := (3 * 2 ^ 534 + 1) * (2 ^ 535 + 83)
      y := 10
      k := 512
      k_2 := 2 ^ 512
      d := [] }

/-- The inputs of the spec's scenario: 12345, 54321, 1111. -/
def scenario_input (i : Nat) : Nat := if i = 0 then 12345 else if i = 1 then 54321 else 1111

/-- A key pair for the spec's scenario `k = 16`, `n_bits = 512`:
`p = (2^239 + 19)·2^16 + 1`, `q = 2^255 + 95`, `y = 5`. -/
def K16 : prs_keys :=
  with_ladder
    { n_bits := 512
      p := (2 ^ 239 + 19) * 2 ^ 16 + 1
      q := 2 ^ 255 + 95
      n := ((2 ^ 239 + 19) * 2 ^ 16 + 1) * (2 ^ 255 + 95)
      y := 5
      k := 16
      k_2 := 2 ^ 16
      d := [] }

/-- An array of zeros (the state of `eval_parts`, `ss`, `enc_share` after `mpz_init`). -/
def zeros2 : Nat → Nat → Nat := fun _ _ => 0

/-- Generator whose raw outputs are all 1. -/
def st_ones : gmp_randstate := ⟨fun _ => 1, 0⟩

/-- Inputs 0, 1, 1. -/
def input_with_zero (i : Nat) : Nat := if i = 0 then 0 else 1

/-- The step `m` always returns. -/
def Total {σ : Type} (m : σ → Prog σ) : Prop :=
  ∀ s st, ∃ s1 st1, m s st = (Except.ok s1, st1)

/-! ## Counting folded triples -/

/-- Total weight of a log of calls. -/
def weight (w : Option (Nat × Nat × Nat) → Nat) (l : List (Option (Nat × Nat × Nat))) :
    Nat := (l.map w).sum

/-- The logging step `m` adds the weight `c` to the log. -/
def AddsW (w : Option (Nat × Nat × Nat) → Nat)
    (m : List (Option (Nat × Nat × Nat)) → Id (List (Option (Nat × Nat × Nat))))
    (c : Nat) : Prop :=
  ∀ s, weight w (m s) = weight w s + c

/-- Indicator of the component of the triple `t` in row `r`. -/
def indicator (t : Nat × Nat × Nat) (r x : Nat) : Nat :=
  if x = (if r = 0 then t.1 else if r = 1 then t.2.1 else t.2.2) then 1 else 0

/-- Generator whose raw outputs are 2, 1, 3, 1, 1, ... -/
def st_keygen1 : gmp_randstate := ⟨fun i => if i = 0 then 2 else if i = 2 then 3 else 1, 0⟩


/-! ## Stepping through programs -/

theorem Prog.bind_apply {α β : Type} (m : Prog α) (f : α → Prog β) (st : gmp_randstate) :
    (m >>= f) st =
      match m st with
      | (Except.ok a, st1) => f a st1
      | (Except.error e, st1) => (Except.error e, st1) := rfl

theorem Prog.pure_apply {α : Type} (a : α) (st : gmp_randstate) :
    (pure a : Prog α) st = (Except.ok a, st) := rfl

theorem Prog.bind_ok {α β : Type} {m : Prog α} {f : α → Prog β} {st st1 : gmp_randstate}
    {a : α} (h : m st = (Except.ok a, st1)) : (m >>= f) st = f a st1 := by
  rw [Prog.bind_apply, h]

theorem Prog.bind_err {α β : Type} {m : Prog α} {f : α → Prog β} {st st1 : gmp_randstate}
    {e : Fault} (h : m st = (Except.error e, st1)) :
    (m >>= f) st = (Except.error e, st1) := by
  rw [Prog.bind_apply, h]

theorem Except.bind_ok_eq {α β : Type} (a : α) (f : α → Except Fault β) :
    (Except.ok a >>= f) = f a := rfl

theorem Except.bind_err_eq {α β : Type} (e : Fault) (f : α → Except Fault β) :
    ((Except.error e : Except Fault α) >>= f) = Except.error e := rfl

theorem liftE_apply {α : Type} (r : Except Fault α) (st : gmp_randstate) :
    liftE r st = (r, st) := rfl

theorem c_assert_true {c : Prop} [Decidable c] (h : c) (st : gmp_randstate) :
    c_assert c st = (Except.ok (), st) := by simp [c_assert, h]

theorem c_assert_false {c : Prop} [Decidable c] (h : ¬ c) (st : gmp_randstate) :
    c_assert c st = (Except.error Fault.assertion, st) := by simp [c_assert, h]

theorem mpz_mod_pos {d : Nat} (a : Nat) (h : 0 < d) : mpz_mod a d = Except.ok (a % d) := by
  simp [mpz_mod, Nat.pos_iff_ne_zero.mp h]

theorem mpz_powm_pos {m : Nat} (b e : Nat) (h : 0 < m) :
    mpz_powm b e m = Except.ok (b ^ e % m) := by
  simp [mpz_powm, Nat.pos_iff_ne_zero.mp h]

theorem mpz_urandomb_apply (bits : Nat) (st : gmp_randstate) :
    mpz_urandomb bits st =
      (Except.ok (st.stream st.pos % 2 ^ bits),
        { st with pos := st.pos + (if bits = 0 then 0 else 1) }) := rfl

theorem mpz_urandomb_pos {bits : Nat} (h : 0 < bits) (st : gmp_randstate) :
    mpz_urandomb bits st =
      (Except.ok (st.stream st.pos % 2 ^ bits), { st with pos := st.pos + 1 }) := by
  unfold mpz_urandomb
  rw [if_neg (by omega)]

/-- The value `prs_encrypt` computes from the drawn `x`. -/
theorem prs_encrypt_ok (keys : prs_keys) (m b : Nat) (st : gmp_randstate)
    (hb0 : 0 < b) (hbk : b ≤ keys.k) (hn : 0 < keys.n) :
    prs_encrypt keys m b st =
      (Except.ok (((st.stream st.pos % 2 ^ b) ^ keys.k_2 % keys.n * (keys.y ^ m % keys.n))
          % keys.n),
        { st with pos := st.pos + 1 }) := by
  unfold prs_encrypt
  rw [Prog.bind_ok (c_assert_true hb0 st), Prog.bind_ok (c_assert_true hbk st),
    Prog.bind_ok (mpz_urandomb_pos hb0 st), mpz_powm_pos _ _ hn,
    Prog.bind_ok (liftE_apply _ _), mpz_powm_pos _ _ hn, Prog.bind_ok (liftE_apply _ _),
    mpz_mod_pos _ hn, liftE_apply]

theorem prs_encrypt_reject (keys : prs_keys) (m b : Nat) (st : gmp_randstate)
    (h : b = 0 ∨ keys.k < b) :
    prs_encrypt keys m b st = (Except.error Fault.assertion, st) := by
  unfold prs_encrypt
  by_cases hb0 : 0 < b
  · have hbk : ¬ b ≤ keys.k := by omega
    rw [Prog.bind_ok (c_assert_true hb0 st), Prog.bind_err (c_assert_false hbk st)]
  · rw [Prog.bind_err (c_assert_false hb0 st)]


/-- C10. `prs_encrypt` checks `base_size` before it reads the generator: with
`base_size = 0` or `base_size > k` the call stops on the assertion and the generator state
is the one it was given; with `0 < base_size ≤ k` (and a modulus `n = p·q > 0`) it returns
a ciphertext. -/
theorem prs_encrypt_checks_base_size_first (keys : prs_keys) (m base_size : Nat)
    (st : gmp_randstate) (hn : 0 < keys.n) :
    ((base_size = 0 ∨ keys.k < base_size) →
        prs_encrypt keys m base_size st = (Except.error Fault.assertion, st)) ∧
      ((0 < base_size ∧ base_size ≤ keys.k) →
        ∃ c, (prs_encrypt keys m base_size st).1 = Except.ok c) := by
  refine ⟨prs_encrypt_reject keys m base_size st, fun h => ?_⟩
  rw [prs_encrypt_ok keys m base_size st h.1 h.2 hn]
  exact ⟨_, rfl⟩

theorem prs_encrypt_checks_base_size_first_witness :
    0 < K1.n ∧
      (((3 = 0 ∨ K1.k < 3) →
          prs_encrypt K1 1 3 ⟨fun i => i + 1, 0⟩
            = (Except.error Fault.assertion, ⟨fun i => i + 1, 0⟩)) ∧
        ((0 < 3 ∧ 3 ≤ K1.k) → ∃ c, (prs_encrypt K1 1 3 ⟨fun i => i + 1, 0⟩).1 = Except.ok c)) :=
  ⟨by decide, prs_encrypt_checks_base_size_first K1 1 3 ⟨fun i => i + 1, 0⟩ (by decide)⟩


/-! ## Loops -/

theorem forLoop_zero {m : Type → Type} [Monad m] {σ : Type} (body : Nat → σ → m σ)
    (i : Nat) (s : σ) : forLoop body 0 i s = pure s := rfl

theorem forLoop_succ {m : Type → Type} [Monad m] {σ : Type} (body : Nat → σ → m σ)
    (n i : Nat) (s : σ) :
    forLoop body (n + 1) i s = body i s >>= fun s1 => forLoop body n (i + 1) s1 := rfl

/-- Invariant rule for a loop of pure fallible steps. -/
theorem forLoop_inv_E {σ : Type} (body : Nat → σ → Except Fault σ) (P : Nat → σ → Prop) :
    ∀ (n lo : Nat) (s : σ), P lo s →
      (∀ i s, lo ≤ i → i < lo + n → P i s → ∃ s1, body i s = Except.ok s1 ∧ P (i + 1) s1) →
      ∃ s1, forLoop body n lo s = Except.ok s1 ∧ P (lo + n) s1 := by
  intro n
  induction n with
  | zero => intro lo s h0 _; exact ⟨s, rfl, h0⟩
  | succ n ih =>
    intro lo s h0 hstep
    obtain ⟨s1, hb, hP⟩ := hstep lo s (le_refl _) (by omega) h0
    obtain ⟨s2, hl, hP2⟩ := ih (lo + 1) s1 hP
      (fun i s hi hi2 hPi => hstep i s (by omega) (by omega) hPi)
    refine ⟨s2, ?_, ?_⟩
    · rw [forLoop_succ, hb]; exact hl
    · have : lo + (n + 1) = lo + 1 + n := by omega
      rw [this]; exact hP2

/-- Invariant rule for a loop of programs; the invariant also speaks of the generator. -/
theorem forLoop_inv_P {σ : Type} (body : Nat → σ → Prog σ)
    (P : Nat → σ → gmp_randstate → Prop) :
    ∀ (n lo : Nat) (s : σ) (st : gmp_randstate), P lo s st →
      (∀ i s st, lo ≤ i → i < lo + n → P i s st →
        ∃ s1 st1, body i s st = (Except.ok s1, st1) ∧ P (i + 1) s1 st1) →
      ∃ s1 st1, forLoop body n lo s st = (Except.ok s1, st1) ∧ P (lo + n) s1 st1 := by
  intro n
  induction n with
  | zero => intro lo s st h0 _; exact ⟨s, st, rfl, h0⟩
  | succ n ih =>
    intro lo s st h0 hstep
    obtain ⟨s1, st1, hb, hP⟩ := hstep lo s st (le_refl _) (by omega) h0
    obtain ⟨s2, st2, hl, hP2⟩ := ih (lo + 1) s1 st1 hP
      (fun i s st hi hi2 hPi => hstep i s st (by omega) (by omega) hPi)
    refine ⟨s2, st2, ?_, ?_⟩
    · rw [forLoop_succ, Prog.bind_ok hb]; exact hl
    · have : lo + (n + 1) = lo + 1 + n := by omega
      rw [this]; exact hP2

theorem Prog.bind_inv {α β : Type} {m : Prog α} {f : α → Prog β} {st st2 : gmp_randstate}
    {b : β} (h : (m >>= f) st = (Except.ok b, st2)) :
    ∃ a st1, m st = (Except.ok a, st1) ∧ f a st1 = (Except.ok b, st2) := by
  rw [Prog.bind_apply] at h
  rcases hm : m st with ⟨r, st1⟩
  rw [hm] at h
  cases r with
  | error e => simp at h
  | ok a => exact ⟨a, st1, rfl, h⟩

/-! ## C6: `random_split` on the input 0 -/

/-- C6, at the failing input. With `server_number = 10` and `input = 0` the first
`mpz_urandomm(parts[0], prng, input)` divides by zero: `random_split` does not complete,
whatever the row, the keys and the generator state. -/
theorem random_split_zero_input (parts : Nat → Nat) (keys : prs_keys) (st : gmp_randstate) :
    random_split 10 0 parts keys st = (Except.error Fault.div_by_zero, st) := rfl

/-! ## C8: the share at the server's own index is not read -/

theorem evaluate_fill_congr (N : Nat) (ep : Nat → Nat → Nat) (idx : Nat)
    (ss ss1 enc : Nat → Nat → Nat) (h : ∀ i j, j ≠ idx → ss i j = ss1 i j) :
    evaluate_fill N ep idx ss enc = evaluate_fill N ep idx ss1 enc := by
  have hb : (fun (i : Nat) (ep : Nat → Nat → Nat) =>
        forLoop (fun j (ep : Nat → Nat → Nat) =>
          (pure (if j ≠ idx then set2 ep i j (ss i j) else ep) :
            Except Fault (Nat → Nat → Nat))) N 0 ep)
      = (fun (i : Nat) (ep : Nat → Nat → Nat) =>
        forLoop (fun j (ep : Nat → Nat → Nat) =>
          (pure (if j ≠ idx then set2 ep i j (ss1 i j) else ep) :
            Except Fault (Nat → Nat → Nat))) N 0 ep) := by
    funext i ep
    congr 1
    funext j ep
    by_cases hj : j = idx
    · simp [hj]
    · simp [hj, h i j hj]
  unfold evaluate_fill
  rw [hb]

/-- C8. Two runs of `evaluate` for server `idx` on share arrays that agree everywhere
except in column `idx` give the same result: the same partial result `s`, the same
`eval_parts`, the same generator state (and the same fault, if any). -/
theorem evaluate_ignores_own_share (N : Nat) (ep : Nat → Nat → Nat) (s : Nat)
    (keys : prs_keys) (idx : Nat) (ss ss1 enc : Nat → Nat → Nat) (st : gmp_randstate)
    (h : ∀ i j, j ≠ idx → ss i j = ss1 i j) :
    evaluate N ep s keys idx ss enc st = evaluate N ep s keys idx ss1 enc st := by
  unfold evaluate
  rw [evaluate_fill_congr N ep idx ss ss1 enc h]


/-! ## C7: what `prs_generate_keys` stores -/

theorem lor_one_of_shift (r k : Nat) (hk : 1 ≤ k) : (r * 2 ^ k) ||| 1 = r * 2 ^ k + 1 := by
  have h1 : 1 < 2 ^ k := Nat.one_lt_two_pow (by omega)
  have := Nat.mul_add_lt_is_or h1 r
  rw [Nat.mul_comm] at this
  exact this.symm

theorem gen_p_spec (pp : Nat → Nat → Nat) (reps k p_bits : Nat) (hk : 1 ≤ k) :
    ∀ (fuel : Nat) (st st1 : gmp_randstate) (p : Nat),
      gen_p pp reps k p_bits fuel st = (Except.ok p, st1) →
      p % 2 ^ k = 1 ∧ pp p reps ≠ 0 ∧ p_bits ≤ mpz_sizeinbase2 p := by
  intro fuel
  induction fuel with
  | zero => intro st st1 p h; simp [gen_p, liftE] at h
  | succ fuel ih =>
    intro st st1 p h
    unfold gen_p at h
    rw [Prog.bind_ok (mpz_urandomb_apply _ st)] at h
    split at h
    · exact ih _ _ _ h
    · rename_i hc
      rw [Prog.pure_apply] at h
      have hp : (st.stream st.pos % 2 ^ uint_sub p_bits k * 2 ^ k) ||| 1 = p := by
        have := congrArg Prod.fst h
        simpa using this
      rw [← hp]
      rw [not_or] at hc
      refine ⟨?_, hc.2, by omega⟩
      rw [lor_one_of_shift _ _ hk, Nat.add_mod, Nat.mul_mod_left]
      have h1 : 1 < 2 ^ k := Nat.one_lt_two_pow (by omega)
      simp [Nat.mod_eq_of_lt h1]

theorem gen_y_spec (n_bits p q n : Nat) :
    ∀ (fuel : Nat) (st st1 : gmp_randstate) (y : Nat),
      gen_y n_bits p q n fuel st = (Except.ok y, st1) →
      mpz_jacobi y p = -1 ∧ mpz_jacobi y q = -1 := by
  intro fuel
  induction fuel with
  | zero => intro st st1 y h; simp [gen_y, liftE] at h
  | succ fuel ih =>
    intro st st1 y h
    unfold gen_y at h
    rw [Prog.bind_ok (mpz_urandomb_apply _ st)] at h
    split at h
    · exact ih _ _ _ h
    · rename_i hc
      rw [Prog.pure_apply] at h
      have hy : st.stream st.pos % 2 ^ n_bits = y := by
        have := congrArg Prod.fst h
        simpa using this
      rw [← hy]
      rw [not_or, not_not, not_not] at hc
      exact hc

/-- The fields `prs_generate_keys` stores are the values its three searches returned. -/
theorem prs_generate_keys_inv (pp : Nat → Nat → Nat) (reps fuel k n_bits : Nat)
    (st st1 : gmp_randstate) (keys : prs_keys)
    (h : prs_generate_keys pp reps fuel k n_bits st = (Except.ok keys, st1)) :
    ∃ sa sb sc sd,
      gen_p pp reps k (n_bits >>> 1) fuel sa = (Except.ok keys.p, sb) ∧
      gen_q pp reps (n_bits >>> 1) (mpz_sizeinbase2 keys.p) fuel sb = (Except.ok keys.q, sc) ∧
      gen_y n_bits keys.p keys.q (keys.p * keys.q) fuel sc = (Except.ok keys.y, sd) ∧
      prs_ladder keys.y keys.p k = Except.ok keys.d ∧
      keys.n = keys.p * keys.q ∧ keys.k = k ∧ keys.k_2 = 2 ^ k ∧ keys.n_bits = n_bits ∧
      1 < n_bits ∧ sa = st ∧ sd = st1 := by
  unfold prs_generate_keys at h
  obtain ⟨u, s0, h0, h⟩ := Prog.bind_inv h
  obtain ⟨p, sb, hp, h⟩ := Prog.bind_inv h
  obtain ⟨q, sc, hq, h⟩ := Prog.bind_inv h
  obtain ⟨y, sd, hy, h⟩ := Prog.bind_inv h
  obtain ⟨d, se, hd, h⟩ := Prog.bind_inv h
  rw [Prog.pure_apply] at h
  have hk := (Prod.mk.inj h).1
  have hs := (Prod.mk.inj h).2
  have hk2 : keys = _ := (Except.ok.inj hk).symm
  rw [liftE_apply] at hd
  have hd1 := (Prod.mk.inj hd).1
  have hd2 := (Prod.mk.inj hd).2
  have hn : 1 < n_bits := by
    by_contra hc
    rw [c_assert_false hc] at h0
    simp at h0
  rw [c_assert_true hn] at h0
  have hs0 := (Prod.mk.inj h0).2
  subst hk2
  exact ⟨s0, sb, sc, sd, hp, hq, hy, hd1, rfl, rfl, rfl, rfl, hn, hs0.symm, by rw [hd2, hs]⟩

/-- C7. Whenever `prs_generate_keys` returns for `k ≥ 1` and `n_bits/2 > k`, the stored
`p` is congruent to 1 modulo `2^k` and was accepted by the primality test (a non-zero
answer of `mpz_probab_prime_p`), and the stored `y` has Jacobi symbol `-1` with respect
to `p` and with respect to `q`. -/
theorem prs_generate_keys_valid (pp : Nat → Nat → Nat) (reps fuel k n_bits : Nat)
    (st st1 : gmp_randstate) (keys : prs_keys) (hk : 1 ≤ k) (_hbits : k < n_bits / 2)
    (h : prs_generate_keys pp reps fuel k n_bits st = (Except.ok keys, st1)) :
    keys.p % 2 ^ k = 1 ∧ pp keys.p reps ≠ 0 ∧
      mpz_jacobi keys.y keys.p = -1 ∧ mpz_jacobi keys.y keys.q = -1 := by
  obtain ⟨sa, sb, sc, sd, hp, _, hy, _⟩ := prs_generate_keys_inv pp reps fuel k n_bits st st1 keys h
  have h1 := gen_p_spec pp reps k (n_bits >>> 1) hk fuel sa sb keys.p hp
  have h2 := gen_y_spec n_bits keys.p keys.q (keys.p * keys.q) fuel sc sd keys.y hy
  exact ⟨h1.1, h1.2.1, h2.1, h2.2⟩

theorem mpz_jacobi_3_5 : mpz_jacobi 3 5 = -1 := by
  unfold mpz_jacobi; norm_num

theorem mpz_jacobi_3_7 : mpz_jacobi 3 7 = -1 := by
  unfold mpz_jacobi; norm_num

theorem prs_ladder_K1 : prs_ladder 3 5 2 = Except.ok [2] := rfl

theorem prs_generate_keys_K1 :
    prs_generate_keys small_prime_test 0 1 2 6 st_keygen
      = (Except.ok K1, ⟨fun i => if i = 2 then 3 else 1, 3⟩) := by
  have hp : gen_p small_prime_test 0 2 (6 >>> 1) 1 st_keygen
      = (Except.ok 5, ⟨fun i => if i = 2 then 3 else 1, 1⟩) := rfl
  have hq : gen_q small_prime_test 0 (6 >>> 1) (mpz_sizeinbase2 5) 1
      ⟨fun i => if i = 2 then 3 else 1, 1⟩
      = (Except.ok 7, ⟨fun i => if i = 2 then 3 else 1, 2⟩) := rfl
  have hy : gen_y 6 5 7 (5 * 7) 1 ⟨fun i => if i = 2 then 3 else 1, 2⟩
      = (Except.ok 3, ⟨fun i => if i = 2 then 3 else 1, 3⟩) := by
    unfold gen_y
    rw [Prog.bind_ok (mpz_urandomb_apply _ _)]
    show (if mpz_jacobi 3 5 ≠ -1 ∨ mpz_jacobi 3 7 ≠ -1 then gen_y 6 5 7 (5 * 7) 0 else pure 3)
        ⟨fun i => if i = 2 then 3 else 1, 3⟩ = _
    rw [if_neg (by rw [mpz_jacobi_3_5, mpz_jacobi_3_7]; simp)]
    rfl
  unfold prs_generate_keys
  rw [Prog.bind_ok (c_assert_true (by decide) _), Prog.bind_ok hp, Prog.bind_ok hq,
    Prog.bind_ok hy, prs_ladder_K1, Prog.bind_ok (liftE_apply _ _)]
  rfl

theorem prs_generate_keys_valid_witness :
    (1 ≤ 2 ∧ 2 < 6 / 2 ∧
        prs_generate_keys small_prime_test 0 1 2 6 st_keygen
          = (Except.ok K1, ⟨fun i => if i = 2 then 3 else 1, 3⟩)) ∧
      (K1.p % 2 ^ 2 = 1 ∧ small_prime_test K1.p 0 ≠ 0 ∧
        mpz_jacobi K1.y K1.p = -1 ∧ mpz_jacobi K1.y K1.q = -1) :=
  ⟨⟨by decide, by decide, prs_generate_keys_K1⟩,
    prs_generate_keys_valid small_prime_test 0 1 2 6 st_keygen _ K1 (by decide) (by decide)
      prs_generate_keys_K1⟩

/-! ## `random_split` on a non-zero input -/

theorem mpz_urandomm_pos {n : Nat} (h : 0 < n) (st : gmp_randstate) :
    mpz_urandomm n st = (Except.ok (st.stream st.pos % n),
      { st with pos := st.pos + (if n = 1 then 0 else 1) }) := by
  unfold mpz_urandomm
  rw [if_neg (by omega)]

theorem mpz_mod_int_pos {d : Nat} (a : Int) (h : 0 < d) :
    mpz_mod_int a d = Except.ok (a % (d : Int)) := by
  simp [mpz_mod_int, Nat.pos_iff_ne_zero.mp h]

/-- For a non-zero input and a non-zero `k_2`, `random_split` completes after
`split_reads N input` reads of the generator; every share it writes is below `k_2` and
the `N` shares sum to the input modulo `k_2`. -/
theorem random_split_spec (N input : Nat) (parts : Nat → Nat) (keys : prs_keys)
    (st : gmp_randstate) (hN : 1 ≤ N) (hin : 0 < input) (hk2 : 0 < keys.k_2) :
    ∃ row st1, random_split N input parts keys st = (Except.ok row, st1) ∧
      st1.stream = st.stream ∧ st1.pos = st.pos + split_reads N input ∧
      (∀ j, j < N → row j < keys.k_2) ∧
      (∑ j in Finset.range N, row j) % keys.k_2 = input % keys.k_2 := by
  obtain ⟨s, st1, hl1, hs1, hp1, hsum⟩ := forLoop_inv_P
    (fun i (s : (Nat → Int) × Int) => do
      let r ← mpz_urandomm input
      pure (Function.update s.1 i (r : Int), s.2 + (r : Int)))
    (fun i s st1 => st1.stream = st.stream ∧
      st1.pos = st.pos + i * (if input = 1 then 0 else 1) ∧
      s.2 = ∑ j in Finset.range i, s.1 j)
    (N - 1) 0 ((fun i => (parts i : Int)), 0) st ⟨rfl, by simp, by simp⟩
    (by
      intro i s sa _ _ hP
      obtain ⟨h1, h2, h3⟩ := hP
      refine ⟨(Function.update s.1 i ((sa.stream sa.pos % input : Nat) : Int),
          s.2 + ((sa.stream sa.pos % input : Nat) : Int)),
        { sa with pos := sa.pos + (if input = 1 then 0 else 1) }, ?_, ?_⟩
      · show ((mpz_urandomm input) >>= _) sa = _
        rw [Prog.bind_ok (mpz_urandomm_pos hin sa), Prog.pure_apply]
      · refine ⟨h1, by show sa.pos + _ = _; rw [h2, Nat.add_mul, Nat.one_mul]; omega, ?_⟩
        rw [Finset.sum_range_succ]
        simp only [Function.update_same]
        rw [h3]
        congr 1
        apply Finset.sum_congr rfl
        intro j hj
        have : j ≠ i := by
          have := Finset.mem_range.mp hj
          omega
        simp [Function.update_noteq this])
  simp only [Nat.zero_add] at hp1 hsum
  obtain ⟨ps, st2, hl2, hst2, hq1, hq2⟩ := forLoop_inv_P
    (fun i (ps : Nat → Int) => do
      let v ← liftE (mpz_mod_int (ps i) keys.k_2)
      pure (Function.update ps i v))
    (fun i ps sa => sa = st1 ∧ (∀ j, j < i →
        ps j = (Function.update s.1 (N - 1) ((input : Int) - s.2)) j % (keys.k_2 : Int)) ∧
      (∀ j, i ≤ j → ps j = (Function.update s.1 (N - 1) ((input : Int) - s.2)) j))
    N 0 (Function.update s.1 (N - 1) ((input : Int) - s.2)) st1
    ⟨rfl, fun j hj => by omega, fun j _ => rfl⟩
    (by
      intro i ps sa _ _ hP
      refine ⟨Function.update ps i (ps i % (keys.k_2 : Int)), sa, ?_, hP.1, ?_, ?_⟩
      · show (liftE (mpz_mod_int (ps i) keys.k_2) >>= _) sa = _
        rw [mpz_mod_int_pos _ hk2, Prog.bind_ok (liftE_apply _ _), Prog.pure_apply]
      · intro j hj
        by_cases hji : j = i
        · subst hji
          simp [hP.2.2 j (le_refl _)]
        · rw [Function.update_noteq hji]
          exact hP.2.1 j (by omega)
      · intro j hj
        have hji : j ≠ i := by omega
        rw [Function.update_noteq hji]
        exact hP.2.2 j (by omega))
  simp only [Nat.zero_add] at hq1
  subst hst2
  have hK : (0 : Int) < (keys.k_2 : Int) := by exact_mod_cast hk2
  have hrow : ∀ j, j < N → ((ps j).toNat : Int) = ps j := by
    intro j hj
    apply Int.toNat_of_nonneg
    rw [hq1 j hj]
    exact Int.emod_nonneg _ (ne_of_gt hK)
  have hp2 : st2.pos = st.pos + split_reads N input := by
    rw [hp1]
    unfold split_reads
    split_ifs <;> simp
  refine ⟨fun i => (ps i).toNat, st2, ?_, hs1, hp2, ?_, ?_⟩
  · unfold random_split
    rw [Prog.bind_ok hl1, Prog.bind_ok hl2, Prog.pure_apply]
  · intro j hj
    have h1 := hrow j hj
    have h2 : ps j < (keys.k_2 : Int) := by
      rw [hq1 j hj]
      exact Int.emod_lt_of_pos _ hK
    show (ps j).toNat < keys.k_2
    omega
  · have hsumI : (∑ j in Finset.range N, ((ps j).toNat : Int)) % (keys.k_2 : Int)
        = (input : Int) % (keys.k_2 : Int) := by
      have e1 : ∑ j in Finset.range N, ((ps j).toNat : Int)
          = ∑ j in Finset.range N,
            (Function.update s.1 (N - 1) ((input : Int) - s.2)) j % (keys.k_2 : Int) := by
        apply Finset.sum_congr rfl
        intro j hj
        have hj1 := Finset.mem_range.mp hj
        rw [hrow j hj1, hq1 j hj1]
      rw [e1, ← Finset.sum_int_mod]
      have e2 : ∑ j in Finset.range N, (Function.update s.1 (N - 1) ((input : Int) - s.2)) j
          = (input : Int) := by
        obtain ⟨M, rfl⟩ : ∃ M, N = M + 1 := ⟨N - 1, by omega⟩
        rw [Finset.sum_range_succ]
        have hM : M + 1 - 1 = M := by omega
        rw [hM] at hsum ⊢
        simp only [Function.update_same]
        have e3 : ∑ j in Finset.range M, Function.update s.1 M ((input : Int) - s.2) j
            = ∑ j in Finset.range M, s.1 j := by
          apply Finset.sum_congr rfl
          intro j hj
          have : j ≠ M := by
            have := Finset.mem_range.mp hj
            omega
          rw [Function.update_noteq this]
        rw [e3, ← hsum]
        ring
      rw [e2]
    have := congrArg Int.toNat hsumI
    have hc : ((∑ j in Finset.range N, (ps j).toNat : Nat) : Int)
        = ∑ j in Finset.range N, ((ps j).toNat : Int) := by
      push_cast
      rfl
    rw [← hc] at hsumI
    exact_mod_cast hsumI

/-! ## Number theory behind `prs_decrypt` -/

section decrypt

variable {keys : prs_keys}

theorem ValidKeys.two_pow_mul_exp (hv : ValidKeys keys) :
    2 ^ keys.k * prs_exp keys = keys.p - 1 := by
  have h := Nat.div_add_mod keys.p (2 ^ keys.k)
  rw [hv.p_mod] at h
  have h2 : keys.p - 1 = 2 ^ keys.k * (keys.p / 2 ^ keys.k) := by omega
  unfold prs_exp
  rw [h2, Nat.mul_div_cancel_left _ (Nat.two_pow_pos _)]

theorem ValidKeys.p_odd (hv : ValidKeys keys) : keys.p % 2 = 1 := by
  have h := hv.p_mod
  obtain ⟨j, hj⟩ : ∃ j, keys.k = j + 1 := ⟨keys.k - 1, by have := hv.k_pos; omega⟩
  rw [hj, pow_succ] at h
  have := Nat.mod_mul_left_mod keys.p (2 ^ j) 2
  rw [h] at this
  omega

theorem ValidKeys.p_gt_two (hv : ValidKeys keys) : 2 < keys.p := by
  have h1 := hv.p_prime.two_le
  have h2 := hv.p_odd
  omega

theorem ValidKeys.half (hv : ValidKeys keys) :
    keys.p / 2 = 2 ^ (keys.k - 1) * prs_exp keys := by
  have h := hv.two_pow_mul_exp
  obtain ⟨j, hj⟩ : ∃ j, keys.k = j + 1 := ⟨keys.k - 1, by have := hv.k_pos; omega⟩
  rw [hj] at h ⊢
  rw [pow_succ] at h
  have h2 := hv.p_odd
  simp only [Nat.add_sub_cancel]
  have h3 : 2 * (2 ^ j * prs_exp keys) = keys.p - 1 := by rw [← h]; ring
  omega

theorem ValidKeys.two_pow_lt (hv : ValidKeys keys) : 2 ^ keys.k < keys.p := by
  have h := hv.two_pow_mul_exp
  have hp := hv.p_gt_two
  have he : 0 < prs_exp keys := by
    rcases Nat.eq_zero_or_pos (prs_exp keys) with h0 | h0
    · rw [h0] at h; omega
    · exact h0
  have : 2 ^ keys.k ≤ 2 ^ keys.k * prs_exp keys := Nat.le_mul_of_pos_right _ he
  omega

/-- Euler's criterion for `y`: `Y = y^((p-1)/2^k)` has `Y^(2^(k-1)) = -1` modulo `p`. -/
theorem ValidKeys.Y_half (hv : ValidKeys keys) :
    ((keys.y : ZMod keys.p) ^ prs_exp keys) ^ 2 ^ (keys.k - 1) = -1 := by
  haveI : Fact (Nat.Prime keys.p) := ⟨hv.p_prime⟩
  have h1 := legendreSym.eq_pow keys.p (keys.y : Int)
  rw [jacobiSym.legendreSym.to_jacobiSym] at h1
  have h2 : jacobiSym (keys.y : Int) keys.p = -1 := hv.jac_p
  rw [h2, hv.half] at h1
  rw [← pow_mul, Nat.mul_comm]
  push_cast at h1
  exact h1.symm

theorem ValidKeys.neg_one_ne_one (hv : ValidKeys keys) : (-1 : ZMod keys.p) ≠ 1 := by
  haveI : Fact (2 < keys.p) := ⟨hv.p_gt_two⟩
  exact ZMod.neg_one_ne_one

/-- The parity test of the decryption loop. -/
theorem ValidKeys.Y_pow_eq_one_iff (hv : ValidKeys keys) (j : Nat) :
    ((keys.y : ZMod keys.p) ^ prs_exp keys) ^ (2 ^ (keys.k - 1) * j) = 1 ↔ j % 2 = 0 := by
  rw [pow_mul, hv.Y_half]
  rcases Nat.even_or_odd j with he | ho
  · rw [he.neg_one_pow]
    simp [Nat.even_iff.mp he]
  · rw [ho.neg_one_pow]
    have := Nat.odd_iff.mp ho
    simp [hv.neg_one_ne_one, this]

theorem natCast_eq_one_iff (hv : ValidKeys keys) (z : Nat) (hz : z < keys.p) :
    (z : ZMod keys.p) = 1 ↔ z = 1 := by
  haveI : Fact (1 < keys.p) := ⟨by have := hv.p_gt_two; omega⟩
  constructor
  · intro h
    have := congrArg ZMod.val h
    rwa [ZMod.val_natCast, ZMod.val_one, Nat.mod_eq_of_lt hz] at this
  · intro h; rw [h]; simp

theorem mpz_invert_spec {a m D : Nat} (hex : ∃ x, x < m ∧ a * x % m = 1 % m)
    (h : mpz_invert a m = Except.ok D) : a * D % m = 1 % m := by
  unfold mpz_invert at h
  obtain ⟨x, hx, hax⟩ := hex
  have hm : m ≠ 0 := by omega
  rw [if_neg hm] at h
  split at h
  · rename_i y hy
    have := List.find?_some hy
    have hD : y = D := Except.ok.inj h
    rw [← hD]
    simpa using this
  · rename_i hnone
    have := List.find?_eq_none.mp hnone x (List.mem_range.mpr hx)
    simp [hax] at this

/-- The ladder entry `d[i]` inverts `Y^(2^i)` modulo `p`. -/
theorem ValidKeys.ladder_entry (hv : ValidKeys keys) (i : Nat) (hi : i + 1 < keys.k) :
    ∃ v, keys.d[i]? = some v ∧
      (v : ZMod keys.p) * ((keys.y : ZMod keys.p) ^ prs_exp keys) ^ 2 ^ i = 1 := by
  haveI : Fact (Nat.Prime keys.p) := ⟨hv.p_prime⟩
  obtain ⟨_, D, hD, hd⟩ := hv.ladder
  refine ⟨_, hd i hi, ?_⟩
  have hY0 : ((keys.y : ZMod keys.p) ^ prs_exp keys) ≠ 0 := by
    intro h0
    have := hv.Y_half
    rw [h0, zero_pow (by positivity)] at this
    exact (neg_ne_zero.mpr one_ne_zero) this.symm
  have hinv : (keys.y ^ prs_exp keys % keys.p) * D % keys.p = 1 % keys.p := by
    apply mpz_invert_spec _ hD
    refine ⟨(((keys.y : ZMod keys.p) ^ prs_exp keys)⁻¹).val, ZMod.val_lt _, ?_⟩
    rw [← ZMod.natCast_eq_natCast_iff']
    push_cast
    rw [ZMod.natCast_val, ZMod.cast_id', id_eq, ZMod.natCast_mod]
    push_cast
    exact mul_inv_cancel₀ hY0
  have hDY : (D : ZMod keys.p) * ((keys.y : ZMod keys.p) ^ prs_exp keys) = 1 := by
    have := (ZMod.natCast_eq_natCast_iff' _ _ _).mpr hinv
    rw [Nat.cast_mul, ZMod.natCast_mod] at this
    push_cast at this
    rw [mul_comm]
    exact this
  rw [ZMod.natCast_mod]
  push_cast
  rw [← mul_pow, hDY, one_pow]

theorem array_read_of_getElem? {a : List Nat} {i v : Nat} (h : a[i]? = some v) :
    array_read a i = Except.ok v := by
  unfold array_read
  rw [h]

/-- One round of the decryption loop: round `j + 1` recovers bit `j` of the exponent. -/
theorem prs_decrypt_step_spec (hv : ValidKeys keys) (M j C : Nat) (hj : j + 1 < keys.k)
    (hC : C < keys.p)
    (hCY : (C : ZMod keys.p) = ((keys.y : ZMod keys.p) ^ prs_exp keys) ^ (2 ^ j * (M / 2 ^ j))) :
    ∃ C1, prs_decrypt_step keys (j + 1) (M % 2 ^ j, C, 2 ^ j)
        = Except.ok (M % 2 ^ (j + 1), C1, 2 ^ (j + 1)) ∧ C1 < keys.p ∧
      (C1 : ZMod keys.p)
        = ((keys.y : ZMod keys.p) ^ prs_exp keys) ^ (2 ^ (j + 1) * (M / 2 ^ (j + 1))) := by
  have hp : 0 < keys.p := by have := hv.p_gt_two; omega
  have hzlt : C ^ 2 ^ (keys.k - (j + 1)) % keys.p < keys.p := Nat.mod_lt _ hp
  have hzY : ((C ^ 2 ^ (keys.k - (j + 1)) % keys.p : Nat) : ZMod keys.p)
      = ((keys.y : ZMod keys.p) ^ prs_exp keys) ^ (2 ^ (keys.k - 1) * (M / 2 ^ j)) := by
    rw [ZMod.natCast_mod]
    push_cast
    rw [hCY, ← pow_mul]
    congr 1
    have e : 2 ^ (keys.k - 1) = 2 ^ j * 2 ^ (keys.k - (j + 1)) := by
      rw [← pow_add]
      congr 1
      omega
    rw [e]
    ring
  have hz1 : C ^ 2 ^ (keys.k - (j + 1)) % keys.p = 1 ↔ M / 2 ^ j % 2 = 0 := by
    rw [← natCast_eq_one_iff hv _ hzlt, hzY, hv.Y_pow_eq_one_iff]
  have hdiv : M / 2 ^ (j + 1) = M / 2 ^ j / 2 := by
    rw [pow_succ, Nat.div_div_eq_div_mul]
  have hmod : M % 2 ^ (j + 1) = M % 2 ^ j + 2 ^ j * (M / 2 ^ j % 2) := Nat.mod_pow_succ
  unfold prs_decrypt_step
  simp only [mpz_powm_pos _ _ hp, Except.bind_ok_eq, Nat.add_sub_cancel]
  rcases Nat.mod_two_eq_zero_or_one (M / 2 ^ j) with h0 | h1
  · have hz := hz1.mpr h0
    refine ⟨C, ?_, hC, ?_⟩
    · rw [hz]
      simp only [ne_eq, not_true_eq_false, if_false]
      rw [hmod, h0, pow_succ]
      rfl
    · rw [hCY]
      congr 1
      rw [hdiv, pow_succ]
      have : M / 2 ^ j = 2 * (M / 2 ^ j / 2) := by omega
      rw [mul_assoc, ← this]
  · have hz : C ^ 2 ^ (keys.k - (j + 1)) % keys.p ≠ 1 := by
      intro h
      have := hz1.mp h
      omega
    obtain ⟨v, hv1, hv2⟩ := hv.ladder_entry j hj
    refine ⟨C * v % keys.p, ?_, Nat.mod_lt _ hp, ?_⟩
    · rw [if_pos hz, array_read_of_getElem? hv1]
      simp only [Except.bind_ok_eq, mpz_mod_pos _ hp]
      rw [hmod, h1, pow_succ, Nat.mul_one]
      rfl
    · rw [ZMod.natCast_mod]
      push_cast
      rw [hCY]
      have e : 2 ^ j * (M / 2 ^ j) = 2 ^ (j + 1) * (M / 2 ^ (j + 1)) + 2 ^ j := by
        rw [hdiv, pow_succ]
        have : M / 2 ^ j = 2 * (M / 2 ^ j / 2) + 1 := by omega
        nth_rewrite 1 [this]
        ring
      rw [e, pow_add, mul_assoc, mul_comm _ (v : ZMod keys.p), hv2, mul_one]

/-- Decryption recovers the exponent carried by a ciphertext, modulo `2^k`. -/
theorem prs_decrypt_of_Enc (hv : ValidKeys keys) (c M : Nat) (h : Enc keys c M) :
    prs_decrypt keys c = Except.ok (M % 2 ^ keys.k) := by
  have hp : 0 < keys.p := by have := hv.p_gt_two; omega
  obtain ⟨j, hj⟩ : ∃ j, keys.k = j + 1 := ⟨keys.k - 1, by have := hv.k_pos; omega⟩
  obtain ⟨s, hl, hI⟩ := forLoop_inv_E (prs_decrypt_step keys)
    (fun i s => ∃ t C, i = t + 1 ∧ t + 1 ≤ keys.k ∧ s = (M % 2 ^ t, C, 2 ^ t) ∧ C < keys.p ∧
      (C : ZMod keys.p) = ((keys.y : ZMod keys.p) ^ prs_exp keys) ^ (2 ^ t * (M / 2 ^ t)))
    (keys.k - 1) 1 (0, c ^ prs_exp keys % keys.p, 1)
    ⟨0, c ^ prs_exp keys % keys.p, rfl, hv.k_pos, by simp [Nat.mod_one], Nat.mod_lt _ hp, by
      rw [ZMod.natCast_mod]
      push_cast
      simpa using h⟩
    (by
      intro i s _ hi hP
      obtain ⟨t, C, rfl, _, rfl, hC, hCY⟩ := hP
      obtain ⟨C1, h1, h2, h3⟩ := prs_decrypt_step_spec hv M t C (by omega) hC hCY
      exact ⟨_, h1, t + 1, C1, rfl, by omega, rfl, h2, h3⟩)
  obtain ⟨t, C, ht, _, rfl, hC, hCY⟩ := hI
  have htj : t = j := by omega
  subst htj
  unfold prs_decrypt
  have e0 : (keys.p - 1) / 2 ^ keys.k = prs_exp keys := rfl
  simp only [e0, mpz_powm_pos _ _ hp, Except.bind_ok_eq, hl]
  have hk1 : keys.k - 1 = t := by omega
  have hC1 : C = 1 ↔ M / 2 ^ t % 2 = 0 := by
    rw [← natCast_eq_one_iff hv _ hC, hCY, ← hk1, hv.Y_pow_eq_one_iff]
  have hmod : M % 2 ^ (t + 1) = M % 2 ^ t + 2 ^ t * (M / 2 ^ t % 2) := Nat.mod_pow_succ
  rw [hj, hmod]
  rcases Nat.mod_two_eq_zero_or_one (M / 2 ^ t) with h0 | h1
  · have := hC1.mpr h0
    simp [this, h0]
    rfl
  · have : C ≠ 1 := by
      intro hc
      have := hC1.mp hc
      omega
    simp [this, h1]
    rfl

end decrypt

/-! ## Ciphertexts and the exponents they carry -/

section homomorphism

variable {keys : prs_keys}

theorem ValidKeys.p_pos (hv : ValidKeys keys) : 0 < keys.p := by
  have := hv.p_gt_two; omega

theorem ValidKeys.n_pos (hv : ValidKeys keys) : 0 < keys.n := by
  rw [hv.n_eq]
  apply Nat.mul_pos hv.p_pos
  rcases Nat.eq_zero_or_pos keys.q with h0 | h0
  · have h := hv.jac_q
    unfold mpz_jacobi at h
    rw [h0, jacobiSym.zero_right] at h
    omega
  · exact h0

theorem ValidKeys.k_2_pos (hv : ValidKeys keys) : 0 < keys.k_2 := by
  rw [hv.k_2_eq]; exact Nat.two_pow_pos _

theorem ValidKeys.cast_mod_n (hv : ValidKeys keys) (a : Nat) :
    ((a % keys.n : Nat) : ZMod keys.p) = (a : ZMod keys.p) := by
  rw [← ZMod.natCast_mod (a % keys.n) keys.p, hv.n_eq, Nat.mod_mul_right_mod,
    ZMod.natCast_mod]

theorem ValidKeys.Y_pow_two_pow (hv : ValidKeys keys) :
    ((keys.y : ZMod keys.p) ^ prs_exp keys) ^ 2 ^ keys.k = 1 := by
  obtain ⟨j, hj⟩ : ∃ j, keys.k = j + 1 := ⟨keys.k - 1, by have := hv.k_pos; omega⟩
  have h := hv.Y_half
  rw [hj] at h ⊢
  simp only [Nat.add_sub_cancel] at h
  rw [pow_succ, pow_mul, h]
  norm_num

theorem Enc_one (keys : prs_keys) : Enc keys 1 0 := by
  unfold Enc; simp

theorem Enc_mul (hv : ValidKeys keys) {c1 c2 M1 M2 : Nat} (h1 : Enc keys c1 M1)
    (h2 : Enc keys c2 M2) : Enc keys (c1 * c2 % keys.n) (M1 + M2) := by
  unfold Enc at *
  rw [hv.cast_mod_n]
  push_cast
  rw [mul_pow, h1, h2, pow_add]

theorem Enc_pow (hv : ValidKeys keys) {c M : Nat} (a : Nat) (h : Enc keys c M) :
    Enc keys (c ^ a % keys.n) (a * M) := by
  unfold Enc at *
  rw [hv.cast_mod_n]
  push_cast
  rw [← pow_mul, mul_comm a, pow_mul, h, ← pow_mul, ← pow_mul, ← pow_mul]
  congr 1
  ring

/-- The exponent carried by a ciphertext only matters modulo `2^k`. -/
theorem Enc_congr (hv : ValidKeys keys) {c M M1 : Nat} (h : Enc keys c M)
    (hM : M % 2 ^ keys.k = M1 % 2 ^ keys.k) : Enc keys c M1 := by
  unfold Enc at *
  rw [h, ← Nat.div_add_mod M (2 ^ keys.k), ← Nat.div_add_mod M1 (2 ^ keys.k), hM]
  simp only [pow_add, pow_mul, hv.Y_pow_two_pow, one_pow]

/-- A fresh ciphertext `y^m · x^(2^k) mod n` carries `m` as soon as `p` does not divide `x`. -/
theorem Enc_fresh (hv : ValidKeys keys) (m x : Nat) (hx : x % keys.p ≠ 0) :
    Enc keys ((x ^ keys.k_2 % keys.n * (keys.y ^ m % keys.n)) % keys.n) m := by
  haveI : Fact (Nat.Prime keys.p) := ⟨hv.p_prime⟩
  have hx0 : (x : ZMod keys.p) ≠ 0 := by
    intro h0
    rw [ZMod.natCast_zmod_eq_zero_iff_dvd] at h0
    exact hx (Nat.mod_eq_zero_of_dvd h0)
  unfold Enc
  rw [hv.cast_mod_n]
  push_cast
  rw [hv.cast_mod_n, hv.cast_mod_n]
  push_cast
  rw [mul_pow, ← pow_mul, hv.k_2_eq, hv.two_pow_mul_exp, ZMod.pow_card_sub_one_eq_one hx0,
    one_mul, ← pow_mul, mul_comm, pow_mul]

/-- With `0 < b ≤ k`, a drawn `x < 2^b` is divisible by `p` only when it is 0. -/
theorem ValidKeys.draw_mod_p (hv : ValidKeys keys) {b : Nat} (hb : b ≤ keys.k) (r : Nat)
    (hx : r % 2 ^ b ≠ 0) : r % 2 ^ b % keys.p ≠ 0 := by
  have h1 : r % 2 ^ b < 2 ^ b := Nat.mod_lt _ (Nat.two_pow_pos _)
  have h2 : 2 ^ b ≤ 2 ^ keys.k := Nat.pow_le_pow_right (by decide) hb
  have h3 := hv.two_pow_lt
  rw [Nat.mod_eq_of_lt (by omega)]
  exact hx

/-- `prs_encrypt` with a non-zero draw returns a ciphertext that carries `m`. -/
theorem prs_encrypt_spec (hv : ValidKeys keys) (m b : Nat) (st : gmp_randstate)
    (hb0 : 0 < b) (hbk : b ≤ keys.k) (hx : st.stream st.pos % 2 ^ b ≠ 0) :
    ∃ c, prs_encrypt keys m b st = (Except.ok c, { st with pos := st.pos + 1 }) ∧
      Enc keys c m :=
  ⟨_, prs_encrypt_ok keys m b st hb0 hbk hv.n_pos,
    Enc_fresh hv m _ (hv.draw_mod_p hbk _ hx)⟩

/-- Round trip for a non-zero draw: decryption returns the plaintext. -/
theorem prs_roundtrip_of_nonzero_draw (hv : ValidKeys keys) (m b : Nat) (st : gmp_randstate)
    (hm : m < 2 ^ keys.k) (hb0 : 0 < b) (hbk : b ≤ keys.k)
    (hx : st.stream st.pos % 2 ^ b ≠ 0) :
    ∃ c st1, prs_encrypt keys m b st = (Except.ok c, st1) ∧
      prs_decrypt keys c = Except.ok m := by
  obtain ⟨c, hc, he⟩ := prs_encrypt_spec hv m b st hb0 hbk hx
  refine ⟨c, _, hc, ?_⟩
  rw [prs_decrypt_of_Enc hv c m he, Nat.mod_eq_of_lt hm]

/-- Product of two ciphertexts from non-zero draws: decryption returns the sum. -/
theorem prs_additive_of_nonzero_draws (hv : ValidKeys keys) (m1 m2 b1 b2 : Nat)
    (sa sb : gmp_randstate) (hb1 : 0 < b1 ∧ b1 ≤ keys.k) (hb2 : 0 < b2 ∧ b2 ≤ keys.k)
    (hx1 : sa.stream sa.pos % 2 ^ b1 ≠ 0) (hx2 : sb.stream sb.pos % 2 ^ b2 ≠ 0) :
    ∃ c1 c2 sa1 sb1, prs_encrypt keys m1 b1 sa = (Except.ok c1, sa1) ∧
      prs_encrypt keys m2 b2 sb = (Except.ok c2, sb1) ∧
      prs_decrypt keys (c1 * c2 % keys.n) = Except.ok ((m1 + m2) % 2 ^ keys.k) := by
  obtain ⟨c1, hc1, he1⟩ := prs_encrypt_spec hv m1 b1 sa hb1.1 hb1.2 hx1
  obtain ⟨c2, hc2, he2⟩ := prs_encrypt_spec hv m2 b2 sb hb2.1 hb2.2 hx2
  exact ⟨c1, c2, _, _, hc1, hc2, prs_decrypt_of_Enc hv _ _ (Enc_mul hv he1 he2)⟩

/-- Power of a ciphertext from a non-zero draw: decryption returns the scalar multiple. -/
theorem prs_scalar_of_nonzero_draw (hv : ValidKeys keys) (m a b : Nat) (st : gmp_randstate)
    (hb0 : 0 < b) (hbk : b ≤ keys.k) (hx : st.stream st.pos % 2 ^ b ≠ 0) :
    ∃ c st1, prs_encrypt keys m b st = (Except.ok c, st1) ∧
      prs_decrypt keys (c ^ a % keys.n) = Except.ok (a * m % 2 ^ keys.k) := by
  obtain ⟨c, hc, he⟩ := prs_encrypt_spec hv m b st hb0 hbk hx
  exact ⟨c, _, hc, prs_decrypt_of_Enc hv _ _ (Enc_pow hv a he)⟩

/-- `sub_eval` on a partial result carrying `r` and a ciphertext carrying `m` returns a
partial result carrying `r + (a·b mod 2^k)·m`. -/
theorem sub_eval_spec (hv : ValidKeys keys) (a b e res r m : Nat) (hres : Enc keys res r)
    (he : Enc keys e m) :
    ∃ res1, sub_eval a b e res keys = Except.ok res1 ∧
      Enc keys res1 (r + a * b % keys.k_2 * m) := by
  refine ⟨res * (e ^ (a * b % keys.k_2) % keys.n) % keys.n, ?_, ?_⟩
  · unfold sub_eval
    simp only [mpz_mod_pos _ hv.k_2_pos, Except.bind_ok_eq, mpz_powm_pos _ _ hv.n_pos,
      mpz_mod_pos _ hv.n_pos]
  · exact Enc_mul hv hres (Enc_pow hv _ he)

/-- `plain_eval` with a non-zero draw multiplies a fresh ciphertext of `a·b·e mod 2^k`
into the partial result. -/
theorem plain_eval_spec (hv : ValidKeys keys) (hk : 512 ≤ keys.k) (a b e res r : Nat)
    (st : gmp_randstate) (hres : Enc keys res r) (hx : st.stream st.pos % 2 ^ 512 ≠ 0) :
    ∃ res1, plain_eval a b e res keys st = (Except.ok res1, { st with pos := st.pos + 1 }) ∧
      Enc keys res1 (r + a * b % keys.k_2 * e % keys.k_2) := by
  obtain ⟨c, hc, hec⟩ := prs_encrypt_spec hv (a * b % keys.k_2 * e % keys.k_2) 512 st
    (by decide) hk hx
  refine ⟨res * c % keys.n, ?_, Enc_mul hv hres hec⟩
  unfold plain_eval
  rw [mpz_mod_pos _ hv.k_2_pos, Prog.bind_ok (liftE_apply _ _), mpz_mod_pos _ hv.k_2_pos,
    Prog.bind_ok (liftE_apply _ _), Prog.bind_ok hc, mpz_mod_pos _ hv.n_pos, liftE_apply]

end homomorphism

/-! ## The small key pair `K1` -/

theorem K1_valid : ValidKeys K1 where
  k_pos := by decide
  p_prime := by norm_num [K1]
  p_mod := by decide
  n_eq := by decide
  k_2_eq := by decide
  jac_p := mpz_jacobi_3_5
  jac_q := mpz_jacobi_3_7
  ladder := ⟨by decide, 2, rfl, fun i hi => by
    have : i = 0 := by simp [K1] at hi; omega
    subst this; rfl⟩

/-! ## C2, C3, C4: the draw `x = 0` -/

/-- C2, at the failing input. For the valid key pair `K1` (`k = 2`, `p = 5`, `q = 7`,
`y = 3`), `base_size = 2` and the plaintext 1, the draw `x = 0` makes `prs_encrypt` return
the ciphertext 0, and `prs_decrypt` returns 3 for it, not 1. -/
theorem roundtrip_zero_draw :
    ValidKeys K1 ∧ prs_encrypt K1 1 2 ⟨fun _ => 0, 0⟩ = (Except.ok 0, ⟨fun _ => 0, 1⟩) ∧
      prs_decrypt K1 0 = Except.ok 3 :=
  ⟨K1_valid, rfl, rfl⟩

/-- C3, at the failing input. For `K1`, `c1` encrypts 1 with the draw `x = 0` and `c2`
encrypts 1 with the draw `x = 1`; `c1 = 0`, `c2 = 3`, and `c1·c2 mod n = 0` decrypts to 3,
not to `(1 + 1) mod 4 = 2`. -/
theorem additive_zero_draw :
    ValidKeys K1 ∧ prs_encrypt K1 1 2 ⟨fun _ => 0, 0⟩ = (Except.ok 0, ⟨fun _ => 0, 1⟩) ∧
      prs_encrypt K1 1 2 ⟨fun _ => 1, 0⟩ = (Except.ok 3, ⟨fun _ => 1, 1⟩) ∧
      prs_decrypt K1 (0 * 3 % K1.n) = Except.ok 3 ∧ (1 + 1) % 2 ^ K1.k = 2 :=
  ⟨K1_valid, rfl, rfl, rfl, rfl⟩

/-- C4, at the failing input. For `K1`, the plaintext 1 encrypted with the draw `x = 0`
gives `c = 0`; `c^2 mod n = 0` decrypts to 3, not to `(2·1) mod 4 = 2`; and `sub_eval` on
`a = 1`, `b = 2`, `e = c` and the partial result 1 (which carries 0) returns 0, which
decrypts to 3 as well. -/
theorem scalar_zero_draw :
    ValidKeys K1 ∧ prs_encrypt K1 1 2 ⟨fun _ => 0, 0⟩ = (Except.ok 0, ⟨fun _ => 0, 1⟩) ∧
      prs_decrypt K1 (0 ^ 2 % K1.n) = Except.ok 3 ∧ 2 * 1 % 2 ^ K1.k = 2 ∧
      sub_eval 1 2 0 1 K1 = Except.ok 0 :=
  ⟨K1_valid, rfl, rfl, rfl, rfl⟩

/-! ## `share` -/

theorem set2_apply (a : Nat → Nat → Nat) (i j v i1 j1 : Nat) :
    set2 a i j v i1 j1 = if i1 = i ∧ j1 = j then v else a i1 j1 := by
  unfold set2
  by_cases hi : i1 = i
  · subst hi
    by_cases hj : j1 = j
    · subst hj; simp
    · simp [Function.update_noteq hj, hj]
  · simp [Function.update_noteq hi, hi]

/-- `share` on non-zero inputs, with non-zero draws of `x`: it completes after
`share_reads N input 3` reads of the generator; each row of shares sums to its input
modulo `k_2`, and each ciphertext carries the share at the same place. -/
theorem share_spec {keys : prs_keys} (hv : ValidKeys keys) (hk : 512 ≤ keys.k) (N : Nat)
    (hN : 1 ≤ N) (input : Nat → Nat) (hin : ∀ i, i < 3 → 0 < input i)
    (enc ss : Nat → Nat → Nat) (st : gmp_randstate)
    (hx : ∀ i j, i < 3 → j < N →
      st.stream (st.pos + share_reads N input i + split_reads N (input i) + j) % 2 ^ 512
        ≠ 0) :
    ∃ enc1 ss1 st1, share N input keys enc ss st = (Except.ok (enc1, ss1), st1) ∧
      st1.stream = st.stream ∧ st1.pos = st.pos + share_reads N input 3 ∧
      ∀ i, i < 3 → (∑ j in Finset.range N, ss1 i j) % keys.k_2 = input i % keys.k_2 ∧
        ∀ j, j < N → Enc keys (enc1 i j) (ss1 i j) := by
  obtain ⟨r, st1, hl, h1, h2, h3⟩ := forLoop_inv_P
    (fun i (s : (Nat → Nat → Nat) × (Nat → Nat → Nat)) => do
      let row ← random_split N (input i) (s.2 i) keys
      let ss1 := Function.update s.2 i row
      let enc1 ← forLoop (fun j (e : Nat → Nat → Nat) => do
          let c ← prs_encrypt keys (ss1 i j) 512
          pure (set2 e i j c))
        N 0 s.1
      pure (enc1, ss1))
    (fun i s sa => sa.stream = st.stream ∧ sa.pos = st.pos + share_reads N input i ∧
      ∀ i1, i1 < i → (∑ j in Finset.range N, s.2 i1 j) % keys.k_2 = input i1 % keys.k_2 ∧
        ∀ j, j < N → Enc keys (s.1 i1 j) (s.2 i1 j))
    3 0 (enc, ss) st ⟨rfl, rfl, fun i1 h => by omega⟩
    (by
      intro i s sa _ hi3 hP
      obtain ⟨hs, hpos, hrows⟩ := hP
      obtain ⟨row, sb, hrs, hsb, hpb, _, hsum⟩ :=
        random_split_spec N (input i) (s.2 i) keys sa hN (hin i (by omega)) hv.k_2_pos
      obtain ⟨e1, sc, hl2, hc1, hc2, hc3, hc4⟩ := forLoop_inv_P
        (fun j (e : Nat → Nat → Nat) => do
          let c ← prs_encrypt keys (Function.update s.2 i row i j) 512
          pure (set2 e i j c))
        (fun j e sc => sc.stream = st.stream ∧ sc.pos = sb.pos + j ∧
          (∀ j1, j1 < j → Enc keys (e i j1) (row j1)) ∧ ∀ i1, i1 ≠ i → e i1 = s.1 i1)
        N 0 s.1 sb ⟨by rw [hsb, hs], rfl, fun j1 h => by omega, fun _ _ => rfl⟩
        (by
          intro j e sc _ hjN hQ
          obtain ⟨hq1, hq2, hq3, hq4⟩ := hQ
          have hxj : sc.stream sc.pos % 2 ^ 512 ≠ 0 := by
            rw [hq1, hq2, hpb, hpos]
            have := hx i j (by omega) (by omega)
            rwa [Nat.add_assoc (st.pos + share_reads N input i)] at this ⊢
          obtain ⟨c, hc, hec⟩ := prs_encrypt_spec hv (row j) 512 sc (by decide) hk hxj
          refine ⟨set2 e i j c, { sc with pos := sc.pos + 1 }, ?_, hq1, ?_, ?_, ?_⟩
          · show (prs_encrypt keys (Function.update s.2 i row i j) 512 >>= _) sc = _
            rw [Function.update_same, Prog.bind_ok hc, Prog.pure_apply]
          · show sc.pos + 1 = sb.pos + (j + 1)
            omega
          · intro j1 hj1
            rw [set2_apply]
            by_cases hjj : j1 = j
            · subst hjj; simpa using hec
            · rw [if_neg (by simp [hjj])]
              exact hq3 j1 (by omega)
          · intro i1 hi1
            funext j1
            rw [set2_apply, if_neg (by simp [hi1])]
            rw [hq4 i1 hi1])
      simp only [Nat.zero_add] at hc2 hc3
      refine ⟨(e1, Function.update s.2 i row), sc, ?_, hc1, ?_, ?_⟩
      · show (random_split N (input i) (s.2 i) keys >>= _) sa = _
        rw [Prog.bind_ok hrs, Prog.bind_ok hl2, Prog.pure_apply]
      · rw [hc2, hpb, hpos]
        show _ = st.pos + (share_reads N input i + (split_reads N (input i) + N))
        omega
      · intro i1 hi1
        by_cases hii : i1 = i
        · subst hii
          simp only [Function.update_same]
          exact ⟨hsum, hc3⟩
        · have := hrows i1 (by omega)
          simp only [Function.update_noteq hii]
          rw [hc4 i1 hii]
          exact this)
  refine ⟨r.1, r.2, st1, ?_, h1, by simpa using h2, by simpa using h3⟩
  unfold share
  exact hl

/-! ## `evaluate`: the copy loops -/

/-- The copy loops of `evaluate` overwrite every cell `[i][j]`, `i < 3`, `j < N`, of
`eval_parts`: column `index` with the ciphertexts, the other columns with the shares. -/
theorem evaluate_fill_spec (N : Nat) (ep : Nat → Nat → Nat) (idx : Nat)
    (ss enc : Nat → Nat → Nat) (hidx : idx < N) :
    evaluate_fill N ep idx ss enc = Except.ok (fun i j =>
      if i < 3 ∧ j < N then (if j = idx then enc i idx else ss i j) else ep i j) := by
  obtain ⟨ep1, hl1, hP1⟩ := forLoop_inv_E
    (fun i ep =>
      forLoop (fun j (ep : Nat → Nat → Nat) =>
        (pure (if j ≠ idx then set2 ep i j (ss i j) else ep) : Except Fault _)) N 0 ep)
    (fun i ep1 => ∀ i1 j1, ep1 i1 j1 =
      if i1 < i ∧ j1 < N ∧ j1 ≠ idx then ss i1 j1 else ep i1 j1)
    3 0 ep (fun i1 j1 => by simp)
    (by
      intro i epa _ _ hP
      obtain ⟨epb, hl, hQ⟩ := forLoop_inv_E
        (fun j (ep : Nat → Nat → Nat) =>
          (pure (if j ≠ idx then set2 ep i j (ss i j) else ep) : Except Fault _))
        (fun j epb => ∀ i1 j1, epb i1 j1 =
          if (i1 < i ∧ j1 < N ∨ i1 = i ∧ j1 < j) ∧ j1 ≠ idx then ss i1 j1 else ep i1 j1)
        N 0 epa
        (fun i1 j1 => by
          rw [hP i1 j1]
          by_cases h : i1 < i ∧ j1 < N ∧ j1 ≠ idx
          · rw [if_pos h, if_pos ⟨Or.inl ⟨h.1, h.2.1⟩, h.2.2⟩]
          · rw [if_neg h, if_neg (by omega)])
        (by
          intro j epc _ hj hQ
          refine ⟨_, rfl, ?_⟩
          intro i1 j1
          by_cases hji : j = idx
          · rw [if_neg (by simp [hji]), hQ i1 j1]
            by_cases h : (i1 < i ∧ j1 < N ∨ i1 = i ∧ j1 < j) ∧ j1 ≠ idx
            · rw [if_pos h, if_pos (by omega)]
            · rw [if_neg h, if_neg (by omega)]
          · rw [if_pos hji, set2_apply]
            by_cases hc : i1 = i ∧ j1 = j
            · rw [if_pos hc, if_pos (by omega), hc.1, hc.2]
            · rw [if_neg hc, hQ i1 j1]
              by_cases h : (i1 < i ∧ j1 < N ∨ i1 = i ∧ j1 < j) ∧ j1 ≠ idx
              · rw [if_pos h, if_pos (by omega)]
              · rw [if_neg h, if_neg (by omega)])
      refine ⟨epb, hl, ?_⟩
      intro i1 j1
      rw [hQ i1 j1]
      by_cases h : (i1 < i ∧ j1 < N ∨ i1 = i ∧ j1 < 0 + N) ∧ j1 ≠ idx
      · rw [if_pos h, if_pos (by omega)]
      · rw [if_neg h, if_neg (by omega)])
  obtain ⟨ep2, hl2, hP2⟩ := forLoop_inv_E
    (fun i (ep : Nat → Nat → Nat) =>
      (pure (set2 ep i idx (enc i idx)) : Except Fault _))
    (fun i ep2 => ∀ i1 j1, ep2 i1 j1 =
      if i1 < i ∧ j1 = idx then enc i1 idx else ep1 i1 j1)
    3 0 ep1 (fun i1 j1 => by simp)
    (by
      intro i epa _ _ hP
      refine ⟨_, rfl, ?_⟩
      intro i1 j1
      rw [set2_apply]
      by_cases hc : i1 = i ∧ j1 = idx
      · rw [if_pos hc, if_pos (by omega), hc.1]
      · rw [if_neg hc, hP i1 j1]
        by_cases h : i1 < i ∧ j1 = idx
        · rw [if_pos h, if_pos (by omega)]
        · rw [if_neg h, if_neg (by omega)])
  unfold evaluate_fill
  simp only [hl1, Except.bind_ok_eq, if_pos hidx, hl2]
  congr 1
  funext i1 j1
  rw [hP2 i1 j1, hP1 i1 j1]
  by_cases h1 : i1 < 3 ∧ j1 < N
  · rw [if_pos h1]
    by_cases h2 : j1 = idx
    · rw [if_pos h2, if_pos (by omega)]
    · rw [if_neg h2, if_neg (by omega), if_pos (by omega)]
  · rw [if_neg h1, if_neg (by omega), if_neg (by omega)]

/-! ## `evaluate`: the folds -/

section folds

variable {keys : prs_keys}

theorem EncZ_one (keys : prs_keys) : EncZ keys 1 0 := ⟨0, Enc_one keys, by simp⟩

theorem EncZ_mul (hv : ValidKeys keys) {c1 c2 : Nat} {z1 z2 : ZMod (2 ^ keys.k)}
    (h1 : EncZ keys c1 z1) (h2 : EncZ keys c2 z2) :
    EncZ keys (c1 * c2 % keys.n) (z1 + z2) := by
  obtain ⟨M1, e1, rfl⟩ := h1
  obtain ⟨M2, e2, rfl⟩ := h2
  exact ⟨M1 + M2, Enc_mul hv e1 e2, by push_cast; rfl⟩

theorem Adds_pure (σ : Nat → Nat) (p0 : Nat) :
    Adds keys σ p0 (fun s => pure s) 0 := by
  intro s st z h1 h2 h3
  exact ⟨s, st, rfl, h1, h2, by simpa using h3⟩

theorem Adds_bind {σ : Nat → Nat} {p0 : Nat} {m1 m2 : Nat → Prog Nat}
    {v1 v2 : ZMod (2 ^ keys.k)} (h1 : Adds keys σ p0 m1 v1) (h2 : Adds keys σ p0 m2 v2) :
    Adds keys σ p0 (fun s => m1 s >>= m2) (v1 + v2) := by
  intro s st z hs hp hz
  obtain ⟨s1, st1, e1, hs1, hp1, hz1⟩ := h1 s st z hs hp hz
  obtain ⟨s2, st2, e2, hs2, hp2, hz2⟩ := h2 s1 st1 _ hs1 hp1 hz1
  refine ⟨s2, st2, ?_, hs2, hp2, ?_⟩
  · show (m1 s >>= m2) st = _
    rw [Prog.bind_ok e1, e2]
  · rwa [add_assoc] at hz2

theorem Adds_congr {σ : Nat → Nat} {p0 : Nat} {m : Nat → Prog Nat}
    {v1 v2 : ZMod (2 ^ keys.k)} (h : Adds keys σ p0 m v1) (e : v1 = v2) :
    Adds keys σ p0 m v2 := e ▸ h

/-- A loop of adding steps adds the sum of what its rounds add. -/
theorem Adds_forLoop {σ : Nat → Nat} {p0 : Nat} (body : Nat → Nat → Prog Nat)
    (f : Nat → ZMod (2 ^ keys.k)) :
    ∀ (n lo : Nat), (∀ i, lo ≤ i → i < lo + n → Adds keys σ p0 (body i) (f i)) →
      Adds keys σ p0 (forLoop body n lo) (∑ x in Finset.range n, f (lo + x)) := by
  intro n
  induction n with
  | zero =>
    intro lo _
    simpa using Adds_pure σ p0
  | succ n ih =>
    intro lo h
    have h1 := h lo (le_refl _) (by omega)
    have h2 := ih (lo + 1) (fun i hi hi2 => h i (by omega) (by omega))
    have h3 := Adds_bind h1 h2
    refine Adds_congr h3 ?_
    rw [Finset.sum_range_succ']
    simp only [Nat.add_zero]
    rw [add_comm]
    congr 1
    apply Finset.sum_congr rfl
    intro x _
    congr 1
    omega

theorem Adds_plain_eval (hv : ValidKeys keys) (hk : 512 ≤ keys.k) {σ : Nat → Nat} {p0 : Nat}
    (hσ : ∀ t, p0 ≤ t → σ t % 2 ^ 512 ≠ 0) (a b e : Nat) :
    Adds keys σ p0 (fun s => plain_eval a b e s keys)
      ((a : ZMod (2 ^ keys.k)) * (b : ZMod (2 ^ keys.k)) * (e : ZMod (2 ^ keys.k))) := by
  intro s st z hs hp hz
  obtain ⟨r, hr, rfl⟩ := hz
  obtain ⟨s1, e1, he1⟩ := plain_eval_spec hv hk a b e s r st hr
    (by rw [hs]; exact hσ _ hp)
  refine ⟨s1, _, e1, hs, ?_, _, he1, ?_⟩
  · show p0 ≤ st.pos + 1
    omega
  · rw [hv.k_2_eq, Nat.cast_add, ZMod.natCast_mod, Nat.cast_mul, ZMod.natCast_mod,
      Nat.cast_mul]

theorem Adds_sub_eval (hv : ValidKeys keys) (σ : Nat → Nat) (p0 : Nat) (a b e m : Nat)
    (he : Enc keys e m) :
    Adds keys σ p0 (fun s => liftE (sub_eval a b e s keys))
      ((a : ZMod (2 ^ keys.k)) * (b : ZMod (2 ^ keys.k)) * (m : ZMod (2 ^ keys.k))) := by
  intro s st z hs hp hz
  obtain ⟨r, hr, rfl⟩ := hz
  obtain ⟨s1, e1, he1⟩ := sub_eval_spec hv a b e s r m hr he
  refine ⟨s1, st, ?_, hs, hp, _, he1, ?_⟩
  · show liftE (sub_eval a b e s keys) st = _
    rw [e1]; rfl
  · rw [hv.k_2_eq, Nat.cast_add, Nat.cast_mul, ZMod.natCast_mod, Nat.cast_mul]

/-- What the call sequence of server 0 adds, given what each call adds. -/
theorem Adds_evaluate_calls_zero {σ : Nat → Nat} {p0 : Nat} (N : Nat)
    (S : Nat → Nat → ZMod (2 ^ keys.k))
    (plain sub : Nat × Nat → Nat × Nat → Nat × Nat → Nat → Prog Nat)
    (hP : ∀ e1 e2 e3 : Nat × Nat, e1.1 < 3 → e2.1 < 3 → e3.1 < 3 →
      e1.2 < N → e2.2 < N → e3.2 < N → e1.2 ≠ 0 → e2.2 ≠ 0 → e3.2 ≠ 0 →
      Adds keys σ p0 (plain e1 e2 e3) (S e1.1 e1.2 * S e2.1 e2.2 * S e3.1 e3.2))
    (hS : ∀ e1 e2 e3 : Nat × Nat, e1.1 < 3 → e2.1 < 3 → e3.1 < 3 →
      e1.2 < N → e2.2 < N → e3.2 < N → e1.2 ≠ 0 → e2.2 ≠ 0 → e3.2 = 0 →
      Adds keys σ p0 (sub e1 e2 e3) (S e1.1 e1.2 * S e2.1 e2.2 * S e3.1 e3.2)) :
    Adds keys σ p0 (evaluate_calls N 0 plain sub) (server0_sum N S) := by
  have hA := Adds_forLoop (fun i s =>
      forLoop (fun j s =>
        forLoop (fun k s => plain (0, i) (1, j) (2, k) s) (N - 1) 1 s) (N - 1) 1 s)
    (fun i => ∑ j in Finset.range (N - 1), ∑ k in Finset.range (N - 1),
      S 0 i * S 1 (1 + j) * S 2 (1 + k)) (N - 1) 1
    (fun i hi1 hi2 => Adds_forLoop _
      (fun j => ∑ k in Finset.range (N - 1), S 0 i * S 1 j * S 2 (1 + k)) (N - 1) 1
      (fun j hj1 hj2 => Adds_forLoop _ (fun k => S 0 i * S 1 j * S 2 k) (N - 1) 1
        (fun k hk1 hk2 => hP (0, i) (1, j) (2, k) (by simp) (by simp) (by simp)
          (by simp only; omega) (by simp only; omega) (by simp only; omega)
          (by simp only; omega) (by simp only; omega) (by simp only; omega))))
  have hB := Adds_forLoop (fun i s =>
      forLoop (fun j s =>
        forLoop (fun k s => sub ((i + 1) % 3, j) ((i + 2) % 3, k) (i, 0) s) (N - 1) 1 s)
        (N - 1) 1 s)
    (fun i => ∑ j in Finset.range (N - 1), ∑ k in Finset.range (N - 1),
      S ((i + 1) % 3) (1 + j) * S ((i + 2) % 3) (1 + k) * S i 0) 3 0
    (fun i hi1 hi2 => Adds_forLoop _
      (fun j => ∑ k in Finset.range (N - 1),
        S ((i + 1) % 3) j * S ((i + 2) % 3) (1 + k) * S i 0) (N - 1) 1
      (fun j hj1 hj2 => Adds_forLoop _
        (fun k => S ((i + 1) % 3) j * S ((i + 2) % 3) k * S i 0) (N - 1) 1
        (fun k hk1 hk2 => hS ((i + 1) % 3, j) ((i + 2) % 3, k) (i, 0)
          (Nat.mod_lt _ (by simp)) (Nat.mod_lt _ (by simp)) (by simp only; omega)
          (by simp only; omega) (by simp only; omega) (by simp only; omega)
          (by simp only; omega) (by simp only; omega) rfl)))
  have hC := Adds_bind hA (Adds_bind hB (Adds_pure σ p0))
  intro s st z hs hp hz
  obtain ⟨s1, st1, e1, r1, r2, r3⟩ := hC s st z hs hp hz
  refine ⟨s1, st1, ?_, r1, r2, ?_⟩
  · rw [← e1]
    rfl
  · unfold server0_sum
    simpa only [add_zero, Nat.zero_add] using r3

/-- What the call sequence of server 1 adds, given what each call adds. -/
theorem Adds_evaluate_calls_one {σ : Nat → Nat} {p0 : Nat} (N : Nat) (hN : 2 ≤ N)
    (S : Nat → Nat → ZMod (2 ^ keys.k))
    (plain sub : Nat × Nat → Nat × Nat → Nat × Nat → Nat → Prog Nat)
    (hP : ∀ e1 e2 e3 : Nat × Nat, e1.1 < 3 → e2.1 < 3 → e3.1 < 3 →
      e1.2 < N → e2.2 < N → e3.2 < N → e1.2 ≠ 1 → e2.2 ≠ 1 → e3.2 ≠ 1 →
      Adds keys σ p0 (plain e1 e2 e3) (S e1.1 e1.2 * S e2.1 e2.2 * S e3.1 e3.2))
    (hS : ∀ e1 e2 e3 : Nat × Nat, e1.1 < 3 → e2.1 < 3 → e3.1 < 3 →
      e1.2 < N → e2.2 < N → e3.2 < N → e1.2 ≠ 1 → e2.2 ≠ 1 → e3.2 = 1 →
      Adds keys σ p0 (sub e1 e2 e3) (S e1.1 e1.2 * S e2.1 e2.2 * S e3.1 e3.2)) :
    Adds keys σ p0 (evaluate_calls N 1 plain sub) (server1_sum N S) := by
  have hA := hP (0, 0) (1, 0) (2, 0) (by simp) (by simp) (by simp)
    (by simp only; omega) (by simp only; omega) (by simp only; omega)
    (by simp) (by simp) (by simp)
  have hB := Adds_forLoop (fun i s =>
      sub ((i + 1) % 3, 0) ((i + 2) % 3, 0) (i, 1) s >>= fun s =>
        forLoop (fun j s => plain ((i + 1) % 3, 0) ((i + 2) % 3, 0) (i, j) s) (N - 2) 2 s)
    (fun i => S ((i + 1) % 3) 0 * S ((i + 2) % 3) 0 * S i 1 +
      ∑ j in Finset.range (N - 2), S ((i + 1) % 3) 0 * S ((i + 2) % 3) 0 * S i (2 + j)) 3 0
    (fun i hi1 hi2 => Adds_bind
      (hS ((i + 1) % 3, 0) ((i + 2) % 3, 0) (i, 1)
        (Nat.mod_lt _ (by simp)) (Nat.mod_lt _ (by simp)) (by simp only; omega)
        (by simp only; omega) (by simp only; omega) (by simp only; omega)
        (by simp) (by simp) rfl)
      (Adds_forLoop _ (fun j => S ((i + 1) % 3) 0 * S ((i + 2) % 3) 0 * S i j) (N - 2) 2
        (fun j hj1 hj2 => hP ((i + 1) % 3, 0) ((i + 2) % 3, 0) (i, j)
          (Nat.mod_lt _ (by simp)) (Nat.mod_lt _ (by simp)) (by simp only; omega)
          (by simp only; omega) (by simp only; omega) (by simp only; omega)
          (by simp) (by simp) (by simp only; omega))))
  have hC := Adds_bind (Adds_pure σ p0) (Adds_bind hA hB)
  intro s st z hs hp hz
  obtain ⟨s1, st1, e1, r1, r2, r3⟩ := hC s st z hs hp hz
  refine ⟨s1, st1, ?_, r1, r2, ?_⟩
  · rw [← e1]
    rfl
  · unfold server1_sum
    simpa only [zero_add, Nat.zero_add] using r3

/-- A server of index 2 or more makes no call. -/
theorem evaluate_calls_idle (N idx : Nat) (hidx : 2 ≤ idx)
    (plain sub : Nat × Nat → Nat × Nat → Nat × Nat → Nat → Prog Nat) (s : Nat)
    (st : gmp_randstate) :
    evaluate_calls N idx plain sub s st = (Except.ok s, st) := by
  unfold evaluate_calls
  rw [if_neg (by omega), Prog.bind_ok (Prog.pure_apply s st)]
  show (if idx = 1 then _ else (pure s : Prog Nat)) st = _
  rw [if_neg (by omega)]
  rfl

end folds

/-! ## The partition identity -/

/-- The terms folded by server 0 and by server 1 add up to the product of the three
row sums: every cross-term `S 0 a · S 1 b · S 2 c` is counted once. -/
theorem server_sums_total {R : Type} [CommSemiring R] (N : Nat) (hN : 2 ≤ N)
    (S : Nat → Nat → R) :
    server0_sum N S + server1_sum N S =
      (∑ j in Finset.range N, S 0 j) * (∑ j in Finset.range N, S 1 j) *
        (∑ j in Finset.range N, S 2 j) := by
  obtain ⟨M, rfl⟩ : ∃ M, N = M + 2 := ⟨N - 2, by omega⟩
  have h1 : M + 2 - 1 = M + 1 := by omega
  have h2 : M + 2 - 2 = M := by omega
  have hsplit0 : ∀ r, ∑ j in Finset.range (M + 2), S r j
      = S r 0 + ∑ x in Finset.range (M + 1), S r (1 + x) := by
    intro r
    rw [Finset.sum_range_succ', add_comm]
    congr 1
    apply Finset.sum_congr rfl
    intro x _
    rw [add_comm]
  have hsplit1 : ∀ r, ∑ x in Finset.range (M + 1), S r (1 + x)
      = S r 1 + ∑ x in Finset.range M, S r (2 + x) := by
    intro r
    rw [Finset.sum_range_succ', add_comm]
    congr 1
    apply Finset.sum_congr rfl
    intro x _
    congr 1
    omega
  have h3 : ∀ f : Nat → R, ∑ i in Finset.range 3, f i = f 0 + f 1 + f 2 := by
    intro f
    simp [Finset.sum_range_succ]
  unfold server0_sum server1_sum
  rw [h1, h2, h3, h3]
  simp only [← Finset.mul_sum, ← Finset.sum_mul, hsplit0, hsplit1]
  norm_num
  ring

/-! ## `evaluate` and `main_run` -/

section protocol

variable {keys : prs_keys}

/-- One `evaluate` call. With ciphertexts that carry the shares and non-zero draws of `x`,
server `idx` multiplies into its partial result a ciphertext of exactly the terms assigned
to it. -/
theorem evaluate_spec (hv : ValidKeys keys) (hk : 512 ≤ keys.k) (N : Nat)
    {σ : Nat → Nat} {p0 : Nat} (hσ : ∀ t, p0 ≤ t → σ t % 2 ^ 512 ≠ 0)
    (ss enc : Nat → Nat → Nat) (henc : ∀ i j, i < 3 → j < N → Enc keys (enc i j) (ss i j))
    (idx : Nat) (hidx : idx < N) (ep : Nat → Nat → Nat) (s : Nat) (z : ZMod (2 ^ keys.k))
    (st : gmp_randstate) (hs : st.stream = σ) (hp : p0 ≤ st.pos) (hz : EncZ keys s z) :
    ∃ ep1 s1 st1, evaluate N ep s keys idx ss enc st = (Except.ok (ep1, s1), st1) ∧
      st1.stream = σ ∧ p0 ≤ st1.pos ∧
      EncZ keys s1 (z + server_term N (fun i j => (ss i j : ZMod (2 ^ keys.k))) idx) := by
  have hF : ∀ i j, i < 3 → j < N →
      (fun i j => if i < 3 ∧ j < N then (if j = idx then enc i idx else ss i j) else ep i j) i j
        = if j = idx then enc i idx else ss i j := by
    intro i j hi hj
    simp only [hi, hj, and_self, if_true]
  have hP : ∀ e1 e2 e3 : Nat × Nat, e1.1 < 3 → e2.1 < 3 → e3.1 < 3 →
      e1.2 < N → e2.2 < N → e3.2 < N → e1.2 ≠ idx → e2.2 ≠ idx → e3.2 ≠ idx →
      Adds keys σ p0 (fun s => plain_eval
          ((fun i j => if i < 3 ∧ j < N then (if j = idx then enc i idx else ss i j)
            else ep i j) e1.1 e1.2)
          ((fun i j => if i < 3 ∧ j < N then (if j = idx then enc i idx else ss i j)
            else ep i j) e2.1 e2.2)
          ((fun i j => if i < 3 ∧ j < N then (if j = idx then enc i idx else ss i j)
            else ep i j) e3.1 e3.2) s keys)
        ((fun i j => (ss i j : ZMod (2 ^ keys.k))) e1.1 e1.2 *
          (fun i j => (ss i j : ZMod (2 ^ keys.k))) e2.1 e2.2 *
          (fun i j => (ss i j : ZMod (2 ^ keys.k))) e3.1 e3.2) := by
    intro e1 e2 e3 a1 a2 a3 b1 b2 b3 c1 c2 c3
    rw [hF _ _ a1 b1, hF _ _ a2 b2, hF _ _ a3 b3, if_neg c1, if_neg c2, if_neg c3]
    exact Adds_plain_eval hv hk hσ _ _ _
  have hS : ∀ e1 e2 e3 : Nat × Nat, e1.1 < 3 → e2.1 < 3 → e3.1 < 3 →
      e1.2 < N → e2.2 < N → e3.2 < N → e1.2 ≠ idx → e2.2 ≠ idx → e3.2 = idx →
      Adds keys σ p0 (fun s => liftE (sub_eval
          ((fun i j => if i < 3 ∧ j < N then (if j = idx then enc i idx else ss i j)
            else ep i j) e1.1 e1.2)
          ((fun i j => if i < 3 ∧ j < N then (if j = idx then enc i idx else ss i j)
            else ep i j) e2.1 e2.2)
          ((fun i j => if i < 3 ∧ j < N then (if j = idx then enc i idx else ss i j)
            else ep i j) e3.1 e3.2) s keys))
        ((fun i j => (ss i j : ZMod (2 ^ keys.k))) e1.1 e1.2 *
          (fun i j => (ss i j : ZMod (2 ^ keys.k))) e2.1 e2.2 *
          (fun i j => (ss i j : ZMod (2 ^ keys.k))) e3.1 e3.2) := by
    intro e1 e2 e3 a1 a2 a3 b1 b2 b3 c1 c2 c3
    rw [hF _ _ a1 b1, hF _ _ a2 b2, hF _ _ a3 b3, if_neg c1, if_neg c2, if_pos c3]
    have he : Enc keys (enc e3.1 idx) (ss e3.1 e3.2) := by
      rw [c3]
      exact henc e3.1 idx a3 hidx
    exact Adds_sub_eval hv σ p0 _ _ _ _ he
  have hcalls : ∃ s1 st1, evaluate_calls N idx
      (fun e1 e2 e3 s => plain_eval
          ((fun i j => if i < 3 ∧ j < N then (if j = idx then enc i idx else ss i j)
            else ep i j) e1.1 e1.2)
          ((fun i j => if i < 3 ∧ j < N then (if j = idx then enc i idx else ss i j)
            else ep i j) e2.1 e2.2)
          ((fun i j => if i < 3 ∧ j < N then (if j = idx then enc i idx else ss i j)
            else ep i j) e3.1 e3.2) s keys)
      (fun e1 e2 e3 s => liftE (sub_eval
          ((fun i j => if i < 3 ∧ j < N then (if j = idx then enc i idx else ss i j)
            else ep i j) e1.1 e1.2)
          ((fun i j => if i < 3 ∧ j < N then (if j = idx then enc i idx else ss i j)
            else ep i j) e2.1 e2.2)
          ((fun i j => if i < 3 ∧ j < N then (if j = idx then enc i idx else ss i j)
            else ep i j) e3.1 e3.2) s keys))
      s st = (Except.ok s1, st1) ∧ st1.stream = σ ∧ p0 ≤ st1.pos ∧
      EncZ keys s1 (z + server_term N (fun i j => (ss i j : ZMod (2 ^ keys.k))) idx) := by
    rcases Nat.lt_or_ge idx 2 with hlt | hge
    · rcases Nat.lt_or_ge idx 1 with h0 | h1
      · have e0 : idx = 0 := by omega
        subst e0
        have := Adds_evaluate_calls_zero N (fun i j => (ss i j : ZMod (2 ^ keys.k))) _ _ hP hS
          s st z hs hp hz
        simpa [server_term] using this
      · have e1 : idx = 1 := by omega
        subst e1
        have := Adds_evaluate_calls_one N (by omega)
          (fun i j => (ss i j : ZMod (2 ^ keys.k))) _ _ hP hS s st z hs hp hz
        simpa [server_term] using this
    · refine ⟨s, st, evaluate_calls_idle N idx hge _ _ s st, hs, hp, ?_⟩
      have e : server_term N (fun i j => (ss i j : ZMod (2 ^ keys.k))) idx = 0 := by
        unfold server_term
        rw [if_neg (by omega), if_neg (by omega)]
      rw [e, add_zero]
      exact hz
  obtain ⟨s1, st1, e1, r1, r2, r3⟩ := hcalls
  refine ⟨fun i j => if i < 3 ∧ j < N then (if j = idx then enc i idx else ss i j)
    else ep i j, s1, st1, ?_, r1, r2, r3⟩
  unfold evaluate
  rw [evaluate_fill_spec N ep idx ss enc hidx, Prog.bind_ok (liftE_apply _ _),
    Prog.bind_ok e1, Prog.pure_apply]

theorem get_outcome_spec (hv : ValidKeys keys) (input : Nat → Nat) :
    get_outcome input keys = Except.ok (input 0 * input 1 * input 2 % 2 ^ keys.k) := by
  have hK : 0 < 2 ^ keys.k := Nat.two_pow_pos _
  unfold get_outcome
  rw [hv.k_2_eq]
  simp only [mpz_mod_pos _ hK, Except.bind_ok_eq]
  rw [Nat.mul_mod (input 0 * input 1 % 2 ^ keys.k), Nat.mod_mod, ← Nat.mul_mod]

/-- `decode` on partial results that carry `term j`: the product carries the sum, and
decryption returns a number congruent to it. -/
theorem decode_spec (hv : ValidKeys keys) (N : Nat) (s : Nat → Nat)
    (term : Nat → ZMod (2 ^ keys.k)) (hs : ∀ j, j < N → EncZ keys (s j) (term j))
    (m : Nat) (hm : (m : ZMod (2 ^ keys.k)) = ∑ j in Finset.range N, term j) :
    decode N s keys = Except.ok (m % 2 ^ keys.k) := by
  obtain ⟨res, hl, hres⟩ := forLoop_inv_E (fun i res => mpz_mod (res * s i) keys.n)
    (fun i res => EncZ keys res (∑ j in Finset.range i, term j))
    N 0 1 (by simpa using EncZ_one keys)
    (by
      intro i res _ hi hP
      refine ⟨res * s i % keys.n, mpz_mod_pos _ hv.n_pos, ?_⟩
      show EncZ keys _ (∑ j in Finset.range (i + 1), term j)
      rw [Finset.sum_range_succ]
      exact EncZ_mul hv hP (hs i (by omega)))
  rw [Nat.zero_add, ← hm] at hres
  obtain ⟨M, hM, hMz⟩ := hres
  unfold decode
  simp only [hl, Except.bind_ok_eq]
  rw [prs_decrypt_of_Enc hv res M hM]
  congr 1
  exact (ZMod.natCast_eq_natCast_iff' _ _ _).mp hMz

/-- The run of `main` from the drawn inputs on. For a valid key pair with `k ≥ 512`,
`N ≥ 2` servers, three non-zero inputs, and draws in which every `x` drawn by
`prs_encrypt` is non-zero, both the direct computation and the decoded result are
`m0·m1·m2 mod 2^k`, and the final assertion of `main` holds. -/
theorem main_run_spec (hv : ValidKeys keys) (hk : 512 ≤ keys.k) (N : Nat) (hN : 2 ≤ N)
    (input : Nat → Nat) (hin : ∀ i, i < 3 → 0 < input i)
    (eval_parts enc_share ss : Nat → Nat → Nat) (st : gmp_randstate)
    (hx : EncDrawsNonzero N input st) :
    ∃ st1, main_run N keys input eval_parts enc_share ss st =
      (Except.ok (input 0 * input 1 * input 2 % 2 ^ keys.k,
        input 0 * input 1 * input 2 % 2 ^ keys.k), st1) := by
  obtain ⟨enc1, ss1, sa, hsh, ha1, ha2, hrows⟩ :=
    share_spec hv hk N (by omega) input hin enc_share ss st hx.1
  have hσ : ∀ t, sa.pos ≤ t → st.stream t % 2 ^ 512 ≠ 0 := by
    intro t ht
    exact hx.2 t (by omega)
  have henc : ∀ i j, i < 3 → j < N → Enc keys (enc1 i j) (ss1 i j) :=
    fun i j hi hj => (hrows i hi).2 j hj
  obtain ⟨r, sb, hl, hb1, hb2, hb3, hb4⟩ := forLoop_inv_P
    (fun i (r : (Nat → Nat → Nat) × (Nat → Nat)) => do
      let e ← evaluate N r.1 (r.2 i) keys i ss1 enc1
      pure (e.1, Function.update r.2 i e.2))
    (fun i r sb => sb.stream = st.stream ∧ sa.pos ≤ sb.pos ∧
      (∀ j, j < i → EncZ keys (r.2 j)
        (server_term N (fun i j => (ss1 i j : ZMod (2 ^ keys.k))) j)) ∧
      ∀ j, i ≤ j → r.2 j = 1)
    N 0 (eval_parts, fun _ => 1) sa ⟨ha1, le_refl _, fun j hj => by omega, fun _ _ => rfl⟩
    (by
      intro i r sb _ hi hP
      obtain ⟨h1, h2, h3, h4⟩ := hP
      have hz : EncZ keys (r.2 i) 0 := by
        rw [h4 i (le_refl _)]
        exact EncZ_one keys
      obtain ⟨ep1, s1, sc, he, hc1, hc2, hc3⟩ := evaluate_spec hv hk N hσ ss1 enc1 henc i
        (by omega) r.1 (r.2 i) 0 sb h1 h2 hz
      refine ⟨(ep1, Function.update r.2 i s1), sc, ?_, hc1, hc2, ?_, ?_⟩
      · show (evaluate N r.1 (r.2 i) keys i ss1 enc1 >>= _) sb = _
        rw [Prog.bind_ok he, Prog.pure_apply]
      · intro j hj
        by_cases hji : j = i
        · subst hji
          simpa using hc3
        · simp only [Function.update_noteq hji]
          exact h3 j (by omega)
      · intro j hj
        have hji : j ≠ i := by omega
        simp only [Function.update_noteq hji]
        exact h4 j (by omega))
  rw [Nat.zero_add] at hb3
  have hsum : ((input 0 * input 1 * input 2 : Nat) : ZMod (2 ^ keys.k))
      = ∑ j in Finset.range N,
        server_term N (fun i j => (ss1 i j : ZMod (2 ^ keys.k))) j := by
    obtain ⟨M, rfl⟩ : ∃ M, N = M + 2 := ⟨N - 2, by omega⟩
    rw [Finset.sum_range_succ', Finset.sum_range_succ']
    have hz : ∑ x in Finset.range M,
        server_term (M + 2) (fun i j => (ss1 i j : ZMod (2 ^ keys.k))) (x + 1 + 1) = 0 := by
      apply Finset.sum_eq_zero
      intro x _
      unfold server_term
      rw [if_neg (by omega), if_neg (by omega)]
    rw [hz, zero_add]
    have e0 : server_term (M + 2) (fun i j => (ss1 i j : ZMod (2 ^ keys.k))) (0 + 1)
        = server1_sum (M + 2) (fun i j => (ss1 i j : ZMod (2 ^ keys.k))) := by
      unfold server_term
      rw [if_neg (by omega), if_pos rfl]
    have e1 : server_term (M + 2) (fun i j => (ss1 i j : ZMod (2 ^ keys.k))) 0
        = server0_sum (M + 2) (fun i j => (ss1 i j : ZMod (2 ^ keys.k))) := by
      unfold server_term
      rw [if_pos rfl]
    rw [e0, e1, add_comm, server_sums_total (M + 2) (by omega)]
    have hrow : ∀ i, i < 3 → ∑ j in Finset.range (M + 2), (ss1 i j : ZMod (2 ^ keys.k))
        = (input i : ZMod (2 ^ keys.k)) := by
      intro i hi
      have h := (hrows i hi).1
      rw [hv.k_2_eq] at h
      have := (ZMod.natCast_eq_natCast_iff' _ _ _).mpr h
      rw [← this]
      push_cast
      rfl
    rw [hrow 0 (by decide), hrow 1 (by decide), hrow 2 (by decide)]
    push_cast
    rfl
  have hdec := decode_spec hv N r.2 _ hb3 _ hsum
  refine ⟨sb, ?_⟩
  unfold main_run
  rw [get_outcome_spec hv, Prog.bind_ok (liftE_apply _ _), Prog.bind_ok hsh,
    Prog.bind_ok hl, hdec, Prog.bind_ok (liftE_apply _ _),
    Prog.bind_ok (c_assert_true rfl _), Prog.pure_apply]

end protocol

/-! ## The key pair `K512` -/

set_option exponentiation.threshold 600

theorem sq_iter_eq : ∀ (n x p : Nat), sq_iter n x p = x ^ 2 ^ n % p := by
  intro n
  induction n with
  | zero => intro x p; simp [sq_iter]
  | succ n ih =>
    intro x p
    rw [sq_iter, ih, ← Nat.pow_mod, ← Nat.pow_two, ← pow_mul, ← pow_succ']

theorem sq_iter_534_125 : sq_iter 534 125 (3 * 2 ^ 534 + 1) = 1 := by
  set_option maxRecDepth 100000 in
  decide

theorem sq_iter_533_125 : sq_iter 533 125 (3 * 2 ^ 534 + 1) ≠ 1 := by
  set_option maxRecDepth 100000 in
  decide

theorem sq_iter_534_5 : sq_iter 534 5 (3 * 2 ^ 534 + 1) ≠ 1 := by
  set_option maxRecDepth 100000 in
  decide

theorem natCast_pow_eq_one_iff (p a e : Nat) (hp : 1 < p) :
    (a : ZMod p) ^ e = 1 ↔ a ^ e % p = 1 := by
  have h := ZMod.natCast_eq_natCast_iff' (a ^ e) 1 p
  rw [Nat.one_mod_eq_one.mpr (by omega)] at h
  rw [← h]
  push_cast
  rfl

/-- Lucas test with the base 5: `3·2^534 + 1` is prime. -/
theorem K512_p_prime : Nat.Prime (3 * 2 ^ 534 + 1) := by
  have hp1 : 1 < 3 * 2 ^ 534 + 1 := by
    have : 0 < 2 ^ 534 := Nat.two_pow_pos _
    omega
  have hsub : 3 * 2 ^ 534 + 1 - 1 = 3 * 2 ^ 534 := by rw [Nat.add_sub_cancel]
  apply lucas_primality _ ((5 : Nat) : ZMod (3 * 2 ^ 534 + 1))
  · rw [hsub, natCast_pow_eq_one_iff _ _ _ hp1, pow_mul, ← sq_iter_eq]
    exact sq_iter_534_125
  · intro q hq hdvd
    rw [hsub] at hdvd ⊢
    rw [Ne, natCast_pow_eq_one_iff _ _ _ hp1]
    rcases (Nat.Prime.dvd_mul hq).mp hdvd with h3 | h2
    · have e : q = 3 := (Nat.prime_dvd_prime_iff_eq hq Nat.prime_three).mp h3
      subst e
      rw [Nat.mul_div_cancel_left _ (by decide : 0 < 3), ← sq_iter_eq]
      exact sq_iter_534_5
    · have h2' := hq.dvd_of_dvd_pow h2
      have e : q = 2 := (Nat.prime_dvd_prime_iff_eq hq Nat.prime_two).mp h2'
      subst e
      have e2 : 3 * 2 ^ 534 / 2 = 3 * 2 ^ 533 := by
        rw [pow_succ, ← Nat.mul_assoc, Nat.mul_div_cancel _ (by decide : 0 < 2)]
      rw [e2, pow_mul, ← sq_iter_eq]
      exact sq_iter_533_125

theorem mpz_invert_total (a m : Nat) (hm : m ≠ 0) :
    mpz_invert a m = Except.ok (invert_value a m) := by
  unfold invert_value
  unfold mpz_invert
  rw [if_neg hm]
  split <;> rfl

theorem with_ladder_ok (keys : prs_keys) (hp : keys.p ≠ 0) (hk : 1 ≤ keys.k) :
    LadderOK (with_ladder keys) := by
  refine ⟨?_, invert_value (keys.y ^ prs_exp keys % keys.p) keys.p,
    mpz_invert_total _ _ hp, ?_⟩
  · show (ladder_values _ _ keys.k).length + 1 = keys.k
    unfold ladder_values
    rw [List.length_map, List.length_range]
    omega
  · intro i hi
    have hi' : i < keys.k - 1 := by
      have : (with_ladder keys).k = keys.k := rfl
      omega
    show (ladder_values _ _ keys.k)[i]? = _
    unfold ladder_values
    rw [List.getElem?_map, List.getElem?_range hi']
    rfl

theorem K512_valid : ValidKeys K512 where
  k_pos := by decide
  p_prime := K512_p_prime
  p_mod := by
    show (3 * 2 ^ 534 + 1) % 2 ^ 512 = 1
    norm_num
  n_eq := rfl
  k_2_eq := rfl
  jac_p := by
    show mpz_jacobi 10 (3 * 2 ^ 534 + 1) = -1
    unfold mpz_jacobi
    norm_num
  jac_q := by
    show mpz_jacobi 10 (2 ^ 535 + 83) = -1
    unfold mpz_jacobi
    norm_num
  ladder := with_ladder_ok _ (Nat.succ_ne_zero _) (by decide)

/-! ## C1: end-to-end correctness -/

/-- C1 fails as stated. (1) For the valid key pair `K1` (`k = 2`) and the inputs 1, 1, 1,
the first `prs_encrypt` call of `share` stops on `assert(base_size <= keys->k)`, since
`base_size` is the literal 512. (2) For the valid key pair `K512` (`k = 512`) and the
inputs 0, 1, 1, `random_split` divides by zero. Neither run returns a result. -/
theorem main_run_counterexample :
    (ValidKeys K1 ∧ (∀ i, i < 3 → (fun _ => 1 : Nat → Nat) i < 2 ^ K1.k) ∧
        (main_run 10 K1 (fun _ => 1) zeros2 zeros2 zeros2 st_ones).1
          = Except.error Fault.assertion) ∧
      (ValidKeys K512 ∧ (∀ i, i < 3 → input_with_zero i < 2 ^ K512.k) ∧
        (main_run 10 K512 input_with_zero zeros2 zeros2 zeros2 st_ones).1
          = Except.error Fault.div_by_zero) := by
  refine ⟨⟨K1_valid, fun i _ => (by decide : (1 : Nat) < 2 ^ 2), rfl⟩, K512_valid,
    fun i _ => ?_, rfl⟩
  unfold input_with_zero
  have h : (1 : Nat) < 2 ^ K512.k := Nat.one_lt_two_pow (by decide)
  split <;> omega

/-- C1, amended. For every valid key pair with `k ≥ 512`, every `N ≥ 2`, every three
non-zero inputs and every outcome of the draws in which each `x` drawn by `prs_encrypt` is
non-zero, the run share, evaluate for every server index `0..N-1` on partial results
initialised to 1, decode returns `m0·m1·m2 mod 2^k` (second component), which is also the
value of `get_outcome` (first component), so the assertion `main` makes holds. -/
theorem main_run_correct (keys : prs_keys) (hv : ValidKeys keys) (hk : 512 ≤ keys.k)
    (N : Nat) (hN : 2 ≤ N) (input : Nat → Nat) (hin : ∀ i, i < 3 → 0 < input i)
    (eval_parts enc_share ss : Nat → Nat → Nat) (st : gmp_randstate)
    (hx : EncDrawsNonzero N input st) :
    ∃ st1, main_run N keys input eval_parts enc_share ss st =
      (Except.ok (input 0 * input 1 * input 2 % 2 ^ keys.k,
        input 0 * input 1 * input 2 % 2 ^ keys.k), st1) :=
  main_run_spec hv hk N hN input hin eval_parts enc_share ss st hx

theorem main_run_correct_witness :
    (ValidKeys K512 ∧ 512 ≤ K512.k ∧ 2 ≤ 10 ∧ (∀ i, i < 3 → 0 < scenario_input i) ∧
        EncDrawsNonzero 10 scenario_input st_ones) ∧
      ∃ st1, main_run 10 K512 scenario_input zeros2 zeros2 zeros2 st_ones =
        (Except.ok (scenario_input 0 * scenario_input 1 * scenario_input 2 % 2 ^ K512.k,
          scenario_input 0 * scenario_input 1 * scenario_input 2 % 2 ^ K512.k), st1) :=
  have hin : ∀ i, i < 3 → 0 < scenario_input i := fun i _ => by
    unfold scenario_input
    split
    · decide
    · split <;> decide
  have hx : EncDrawsNonzero 10 scenario_input st_ones :=
    ⟨fun _ _ _ _ => (by decide : 1 % 2 ^ 512 ≠ 0), fun _ _ => (by decide : 1 % 2 ^ 512 ≠ 0)⟩
  ⟨⟨K512_valid, by decide, by decide, hin, hx⟩,
    main_run_correct K512 K512_valid (by decide) 10 (by decide) scenario_input hin
      zeros2 zeros2 zeros2 st_ones hx⟩

/-! ## C9: the `base_size` passed by `share` and `plain_eval` -/

theorem Total_pure {σ : Type} : Total (fun s : σ => (pure s : Prog σ)) :=
  fun s st => ⟨s, st, rfl⟩

theorem Total_bind {σ : Type} {m1 m2 : σ → Prog σ} (h1 : Total m1) (h2 : Total m2) :
    Total (fun s => m1 s >>= m2) := by
  intro s st
  obtain ⟨s1, st1, e1⟩ := h1 s st
  obtain ⟨s2, st2, e2⟩ := h2 s1 st1
  exact ⟨s2, st2, by show (m1 s >>= m2) st = _; rw [Prog.bind_ok e1, e2]⟩

theorem Total_forLoop {σ : Type} (body : Nat → σ → Prog σ) (h : ∀ i, Total (body i)) :
    ∀ n lo, Total (forLoop body n lo) := by
  intro n
  induction n with
  | zero => intro lo; exact Total_pure
  | succ n ih => intro lo; exact Total_bind (h lo) (ih (lo + 1))

theorem Total_evaluate_calls (N idx : Nat)
    (plain sub : Nat × Nat → Nat × Nat → Nat × Nat → Nat → Prog Nat)
    (hP : ∀ e1 e2 e3, Total (plain e1 e2 e3)) (hS : ∀ e1 e2 e3, Total (sub e1 e2 e3)) :
    Total (evaluate_calls N idx plain sub) := by
  rcases Nat.lt_or_ge idx 2 with hlt | hge
  · rcases Nat.lt_or_ge idx 1 with h0 | h1
    · have e0 : idx = 0 := by omega
      subst e0
      have hA := Total_forLoop (fun i s =>
          forLoop (fun j s =>
            forLoop (fun k s => plain (0, i) (1, j) (2, k) s) (N - 1) 1 s) (N - 1) 1 s)
        (fun i => Total_forLoop _ (fun j => Total_forLoop _ (fun k => hP _ _ _) _ _) _ _)
        (N - 1) 1
      have hB := Total_forLoop (fun i s =>
          forLoop (fun j s =>
            forLoop (fun k s => sub ((i + 1) % 3, j) ((i + 2) % 3, k) (i, 0) s) (N - 1) 1 s)
            (N - 1) 1 s)
        (fun i => Total_forLoop _ (fun j => Total_forLoop _ (fun k => hS _ _ _) _ _) _ _)
        3 0
      intro s st
      obtain ⟨s1, st1, e1⟩ := Total_bind hA (Total_bind hB Total_pure) s st
      exact ⟨s1, st1, by rw [← e1]; rfl⟩
    · have e1 : idx = 1 := by omega
      subst e1
      have hB := Total_forLoop (fun i s =>
          sub ((i + 1) % 3, 0) ((i + 2) % 3, 0) (i, 1) s >>= fun s =>
            forLoop (fun j s => plain ((i + 1) % 3, 0) ((i + 2) % 3, 0) (i, j) s) (N - 2) 2 s)
        (fun i => Total_bind (hS _ _ _) (Total_forLoop _ (fun j => hP _ _ _) _ _)) 3 0
      intro s st
      obtain ⟨s1, st1, e1⟩ := Total_bind Total_pure (Total_bind (hP (0, 0) (1, 0) (2, 0)) hB) s st
      exact ⟨s1, st1, by rw [← e1]; rfl⟩
  · intro s st
    exact ⟨s, st, evaluate_calls_idle N idx hge plain sub s st⟩

theorem plain_eval_ok (keys : prs_keys) (hk : 512 ≤ keys.k) (hn : 0 < keys.n)
    (hk2 : 0 < keys.k_2) (a b e s : Nat) (st : gmp_randstate) :
    plain_eval a b e s keys st =
      (Except.ok (s * (((st.stream st.pos % 2 ^ 512) ^ keys.k_2 % keys.n *
          (keys.y ^ (a * b % keys.k_2 * e % keys.k_2) % keys.n)) % keys.n) % keys.n),
        { st with pos := st.pos + 1 }) := by
  unfold plain_eval
  rw [mpz_mod_pos _ hk2, Prog.bind_ok (liftE_apply _ _), mpz_mod_pos _ hk2,
    Prog.bind_ok (liftE_apply _ _),
    Prog.bind_ok (prs_encrypt_ok keys _ 512 st (by decide) hk hn), mpz_mod_pos _ hn,
    liftE_apply]

theorem plain_eval_total (keys : prs_keys) (hk : 512 ≤ keys.k) (hn : 0 < keys.n)
    (hk2 : 0 < keys.k_2) (a b e : Nat) : Total (fun s => plain_eval a b e s keys) :=
  fun s st => ⟨_, _, plain_eval_ok keys hk hn hk2 a b e s st⟩

theorem sub_eval_ok (keys : prs_keys) (hn : 0 < keys.n) (hk2 : 0 < keys.k_2)
    (a b e s : Nat) :
    sub_eval a b e s keys = Except.ok (s * (e ^ (a * b % keys.k_2) % keys.n) % keys.n) := by
  unfold sub_eval
  simp only [mpz_mod_pos _ hk2, Except.bind_ok_eq, mpz_powm_pos _ _ hn, mpz_mod_pos _ hn]

theorem sub_eval_total (keys : prs_keys) (hn : 0 < keys.n) (hk2 : 0 < keys.k_2)
    (a b e : Nat) : Total (fun s => liftE (sub_eval a b e s keys)) :=
  fun s st => ⟨_, st, by
    show liftE (sub_eval a b e s keys) st = _
    rw [sub_eval_ok keys hn hk2]; rfl⟩

theorem evaluate_total (keys : prs_keys) (hk : 512 ≤ keys.k) (hn : 0 < keys.n)
    (hk2 : 0 < keys.k_2) (N idx : Nat) (hidx : idx < N) (ep ss enc : Nat → Nat → Nat)
    (s : Nat) (st : gmp_randstate) :
    ∃ r st1, evaluate N ep s keys idx ss enc st = (Except.ok r, st1) := by
  obtain ⟨s1, st1, e1⟩ := Total_evaluate_calls N idx
    (fun e1 e2 e3 s => plain_eval
      ((fun i j => if i < 3 ∧ j < N then (if j = idx then enc i idx else ss i j)
        else ep i j) e1.1 e1.2)
      ((fun i j => if i < 3 ∧ j < N then (if j = idx then enc i idx else ss i j)
        else ep i j) e2.1 e2.2)
      ((fun i j => if i < 3 ∧ j < N then (if j = idx then enc i idx else ss i j)
        else ep i j) e3.1 e3.2) s keys)
    (fun e1 e2 e3 s => liftE (sub_eval
      ((fun i j => if i < 3 ∧ j < N then (if j = idx then enc i idx else ss i j)
        else ep i j) e1.1 e1.2)
      ((fun i j => if i < 3 ∧ j < N then (if j = idx then enc i idx else ss i j)
        else ep i j) e2.1 e2.2)
      ((fun i j => if i < 3 ∧ j < N then (if j = idx then enc i idx else ss i j)
        else ep i j) e3.1 e3.2) s keys))
    (fun _ _ _ => plain_eval_total keys hk hn hk2 _ _ _)
    (fun _ _ _ => sub_eval_total keys hn hk2 _ _ _) s st
  refine ⟨(fun i j => if i < 3 ∧ j < N then (if j = idx then enc i idx else ss i j)
    else ep i j, s1), st1, ?_⟩
  unfold evaluate
  rw [evaluate_fill_spec N ep idx ss enc hidx, Prog.bind_ok (liftE_apply _ _),
    Prog.bind_ok e1, Prog.pure_apply]

theorem share_total (keys : prs_keys) (hk : 512 ≤ keys.k) (hn : 0 < keys.n)
    (hk2 : 0 < keys.k_2) (N : Nat) (hN : 1 ≤ N) (input : Nat → Nat)
    (hin : ∀ i, i < 3 → 0 < input i) (enc ss : Nat → Nat → Nat) (st : gmp_randstate) :
    ∃ r st1, share N input keys enc ss st = (Except.ok r, st1) := by
  obtain ⟨r, st1, hl, _⟩ := forLoop_inv_P
    (fun i (s : (Nat → Nat → Nat) × (Nat → Nat → Nat)) => do
      let row ← random_split N (input i) (s.2 i) keys
      let ss1 := Function.update s.2 i row
      let enc1 ← forLoop (fun j (e : Nat → Nat → Nat) => do
          let c ← prs_encrypt keys (ss1 i j) 512
          pure (set2 e i j c))
        N 0 s.1
      pure (enc1, ss1))
    (fun _ _ _ => True) 3 0 (enc, ss) st trivial
    (by
      intro i s sa _ hi3 _
      obtain ⟨row, sb, hrs, _⟩ :=
        random_split_spec N (input i) (s.2 i) keys sa hN (hin i (by omega)) hk2
      obtain ⟨e1, sc, hl2⟩ := Total_forLoop
        (fun j (e : Nat → Nat → Nat) => do
          let c ← prs_encrypt keys (Function.update s.2 i row i j) 512
          pure (set2 e i j c))
        (fun j e sd => ⟨set2 e i j _, { sd with pos := sd.pos + 1 }, by
          show (prs_encrypt keys (Function.update s.2 i row i j) 512 >>= _) sd = _
          rw [Prog.bind_ok (prs_encrypt_ok keys _ 512 sd (by decide) hk hn),
            Prog.pure_apply]⟩)
        N 0 s.1 sb
      refine ⟨(e1, Function.update s.2 i row), sc, ?_, trivial⟩
      show (random_split N (input i) (s.2 i) keys >>= _) sa = _
      rw [Prog.bind_ok hrs, Prog.bind_ok hl2, Prog.pure_apply])
  exact ⟨r, st1, hl⟩

/-- C9 fails as stated. For a key pair of the spec's scenario (`k = 16`, `n_bits = 512`):
`plain_eval` stops on `assert(base_size <= keys->k)` before it reads the generator, and so
does the run on the inputs 12345, 54321, 1111, at the first `prs_encrypt` call of `share`;
the scenario does not decode to anything. -/
theorem scenario_k16_counterexample :
    (1 ≤ K16.k ∧ K16.k < K16.n_bits / 2) ∧
      plain_eval 12345 54321 1111 1 K16 st_ones = (Except.error Fault.assertion, st_ones) ∧
      (share 10 scenario_input K16 zeros2 zeros2 st_ones).1 = Except.error Fault.assertion ∧
      (main_run 10 K16 scenario_input zeros2 zeros2 zeros2 st_ones).1
        = Except.error Fault.assertion :=
  ⟨by decide, rfl, rfl, rfl⟩

/-- C9, amended. `share` and `plain_eval` pass the literal `base_size = 512`. For every
key pair with `k ≥ 512` (positive `n` and `k_2`), every such call satisfies
`0 < base_size ≤ k`, so `plain_eval` returns, `share` returns on non-zero inputs, and
`evaluate` returns for every server index below `N`; for `k < 512` every `prs_encrypt`
call with `base_size = 512` stops on the assertion. -/
theorem base_size_512_ok (keys : prs_keys) (hk : 512 ≤ keys.k) (hn : 0 < keys.n)
    (hk2 : 0 < keys.k_2) :
    (0 < 512 ∧ 512 ≤ keys.k) ∧
      (∀ a b e res st, ∃ c st1, plain_eval a b e res keys st = (Except.ok c, st1)) ∧
      (∀ N input enc ss st, 1 ≤ N → (∀ i, i < 3 → 0 < input i) →
        ∃ r st1, share N input keys enc ss st = (Except.ok r, st1)) ∧
      (∀ N idx ep s ss enc st, idx < N →
        ∃ r st1, evaluate N ep s keys idx ss enc st = (Except.ok r, st1)) ∧
      ∀ (small : prs_keys) m st, small.k < 512 →
        prs_encrypt small m 512 st = (Except.error Fault.assertion, st) :=
  ⟨⟨by decide, hk⟩,
    fun a b e res st => plain_eval_total keys hk hn hk2 a b e res st,
    fun N input enc ss st hN hin => share_total keys hk hn hk2 N hN input hin enc ss st,
    fun N idx ep s ss enc st hidx => evaluate_total keys hk hn hk2 N idx hidx ep ss enc s st,
    fun small m st h => prs_encrypt_reject small m 512 st (Or.inr h)⟩

theorem base_size_512_ok_witness :
    (512 ≤ K512.k ∧ 0 < K512.n ∧ 0 < K512.k_2) ∧
      ((0 < 512 ∧ 512 ≤ K512.k) ∧
        (∀ a b e res st, ∃ c st1, plain_eval a b e res K512 st = (Except.ok c, st1)) ∧
        (∀ N input enc ss st, 1 ≤ N → (∀ i, i < 3 → 0 < input i) →
          ∃ r st1, share N input K512 enc ss st = (Except.ok r, st1)) ∧
        (∀ N idx ep s ss enc st, idx < N →
          ∃ r st1, evaluate N ep s K512 idx ss enc st = (Except.ok r, st1)) ∧
        ∀ (small : prs_keys) m st, small.k < 512 →
          prs_encrypt small m 512 st = (Except.error Fault.assertion, st)) :=
  ⟨⟨by decide, K512_valid.n_pos, K512_valid.k_2_pos⟩,
    base_size_512_ok K512 (by decide) K512_valid.n_pos K512_valid.k_2_pos⟩

/-! ## C8: a run that returns -/

theorem evaluate_ignores_own_share_witness :
    (∀ i j, j ≠ 0 → (fun (a b : Nat) => if b = 0 then 1 else a + b) i j
        = (fun (a b : Nat) => if b = 0 then 2 else a + b) i j) ∧
      evaluate 10 zeros2 1 K512 0 (fun a b => if b = 0 then 1 else a + b)
          (fun a b => a * b + 2) st_ones
        = evaluate 10 zeros2 1 K512 0 (fun a b => if b = 0 then 2 else a + b)
          (fun a b => a * b + 2) st_ones ∧
      ∃ r st1,
        evaluate 10 zeros2 1 K512 0 (fun a b => if b = 0 then 1 else a + b)
            (fun a b => a * b + 2) st_ones = (Except.ok r, st1) ∧
          evaluate 10 zeros2 1 K512 0 (fun a b => if b = 0 then 2 else a + b)
            (fun a b => a * b + 2) st_ones = (Except.ok r, st1) := by
  have hd : ∀ i j, j ≠ 0 → (fun (a b : Nat) => if b = 0 then 1 else a + b) i j
      = (fun (a b : Nat) => if b = 0 then 2 else a + b) i j := fun i j hj => by simp [hj]
  have he := evaluate_ignores_own_share 10 zeros2 1 K512 0
    (fun a b => if b = 0 then 1 else a + b) (fun a b => if b = 0 then 2 else a + b)
    (fun a b => a * b + 2) st_ones hd
  obtain ⟨r, st1, h⟩ := evaluate_total K512 (by decide) K512_valid.n_pos K512_valid.k_2_pos
    10 0 (by decide) zeros2 (fun a b => if b = 0 then 1 else a + b) (fun a b => a * b + 2)
    1 st_ones
  exact ⟨hd, he, r, st1, h, he ▸ h⟩

/-! ## C5: the partition of the index triples -/

theorem weight_append (w : Option (Nat × Nat × Nat) → Nat) (l1 l2 : List (Option (Nat × Nat × Nat))) :
    weight w (l1 ++ l2) = weight w l1 + weight w l2 := by
  simp [weight]

theorem count_eq_weight (t : Option (Nat × Nat × Nat)) (l : List (Option (Nat × Nat × Nat))) :
    List.count t l = weight (fun x => if x = t then 1 else 0) l := by
  induction l with
  | nil => rfl
  | cons x l ih =>
    rw [List.count_cons, ih]
    simp only [weight, List.map_cons, List.sum_cons, beq_iff_eq]
    omega

theorem length_eq_weight (l : List (Option (Nat × Nat × Nat))) : l.length = weight (fun _ => 1) l := by
  simp [weight]

theorem AddsW_pure (w : Option (Nat × Nat × Nat) → Nat) : AddsW w (fun s => pure s) 0 :=
  fun _ => rfl

theorem AddsW_bind {w : Option (Nat × Nat × Nat) → Nat}
    {m1 m2 : List (Option (Nat × Nat × Nat)) → Id (List (Option (Nat × Nat × Nat)))} {c1 c2 : Nat}
    (h1 : AddsW w m1 c1) (h2 : AddsW w m2 c2) : AddsW w (fun s => m1 s >>= m2) (c1 + c2) := by
  intro s
  show weight w (m2 (m1 s)) = _
  rw [h2, h1, Nat.add_assoc]

theorem AddsW_forLoop {w : Option (Nat × Nat × Nat) → Nat}
    (body : Nat → List (Option (Nat × Nat × Nat)) → Id (List (Option (Nat × Nat × Nat)))) (f : Nat → Nat) :
    ∀ (n lo : Nat), (∀ i, lo ≤ i → i < lo + n → AddsW w (body i) (f i)) →
      AddsW w (forLoop body n lo) (∑ x in Finset.range n, f (lo + x)) := by
  intro n
  induction n with
  | zero => intro lo _; simpa using AddsW_pure w
  | succ n ih =>
    intro lo h
    have h1 := h lo (le_refl _) (by omega)
    have h2 := ih (lo + 1) (fun i hi hi2 => h i (by omega) (by omega))
    have h3 := AddsW_bind h1 h2
    intro s
    have h4 := h3 s
    have e : ∑ x in Finset.range (n + 1), f (lo + x)
        = f lo + ∑ x in Finset.range n, f (lo + 1 + x) := by
      rw [Finset.sum_range_succ', Nat.add_comm]
      congr 1
      apply Finset.sum_congr rfl
      intro x _
      congr 1
      omega
    rw [e]
    exact h4

theorem AddsW_log_call (w : Option (Nat × Nat × Nat) → Nat) (e1 e2 e3 : Nat × Nat) :
    AddsW w (log_call e1 e2 e3) (w (triple_of e1 e2 e3)) := by
  intro s
  show weight w (s ++ [triple_of e1 e2 e3]) = _
  rw [weight_append]
  simp [weight]

/-- The weight added by the calls of server 0 and of server 1, when the weight of a call
on rows in cyclic order is a product over its three operands. -/
theorem AddsW_folded (w : Option (Nat × Nat × Nat) → Nat) (S : Nat → Nat → Nat)
    (L1 : ∀ x y z, w (triple_of (0, x) (1, y) (2, z)) = S 0 x * S 1 y * S 2 z)
    (L2 : ∀ i, i < 3 → ∀ x y z, w (triple_of ((i + 1) % 3, x) ((i + 2) % 3, y) (i, z))
      = S ((i + 1) % 3) x * S ((i + 2) % 3) y * S i z) (N : Nat) :
    weight w (folded_triples N 0) = server0_sum N S ∧
      weight w (folded_triples N 1) = server1_sum N S := by
  constructor
  · have hA := AddsW_forLoop (fun i s =>
        forLoop (fun j s =>
          forLoop (fun k s => log_call (0, i) (1, j) (2, k) s) (N - 1) 1 s) (N - 1) 1 s)
      (fun i => ∑ j in Finset.range (N - 1), ∑ k in Finset.range (N - 1),
        S 0 i * S 1 (1 + j) * S 2 (1 + k)) (N - 1) 1
      (fun i _ _ => AddsW_forLoop _
        (fun j => ∑ k in Finset.range (N - 1), S 0 i * S 1 j * S 2 (1 + k)) (N - 1) 1
        (fun j _ _ => AddsW_forLoop _ (fun k => S 0 i * S 1 j * S 2 k) (N - 1) 1
          (fun k _ _ => by
            have := AddsW_log_call w (0, i) (1, j) (2, k)
            rwa [L1] at this)))
    have hB := AddsW_forLoop (fun i s =>
        forLoop (fun j s =>
          forLoop (fun k s => log_call ((i + 1) % 3, j) ((i + 2) % 3, k) (i, 0) s) (N - 1) 1 s)
          (N - 1) 1 s)
      (fun i => ∑ j in Finset.range (N - 1), ∑ k in Finset.range (N - 1),
        S ((i + 1) % 3) (1 + j) * S ((i + 2) % 3) (1 + k) * S i 0) 3 0
      (fun i _ hi => AddsW_forLoop _
        (fun j => ∑ k in Finset.range (N - 1),
          S ((i + 1) % 3) j * S ((i + 2) % 3) (1 + k) * S i 0) (N - 1) 1
        (fun j _ _ => AddsW_forLoop _
          (fun k => S ((i + 1) % 3) j * S ((i + 2) % 3) k * S i 0) (N - 1) 1
          (fun k _ _ => by
            have := AddsW_log_call w ((i + 1) % 3, j) ((i + 2) % 3, k) (i, 0)
            rwa [L2 i (by omega)] at this)))
    have hC := AddsW_bind hA (AddsW_bind hB (AddsW_pure w)) []
    refine Eq.trans hC ?_
    unfold server0_sum
    simp [weight]
  · have hA := AddsW_log_call w (0, 0) (1, 0) (2, 0)
    rw [L1] at hA
    have hB := AddsW_forLoop (fun i s =>
        log_call ((i + 1) % 3, 0) ((i + 2) % 3, 0) (i, 1) s >>= fun s =>
          forLoop (fun j s => log_call ((i + 1) % 3, 0) ((i + 2) % 3, 0) (i, j) s) (N - 2) 2 s)
      (fun i => S ((i + 1) % 3) 0 * S ((i + 2) % 3) 0 * S i 1 +
        ∑ j in Finset.range (N - 2), S ((i + 1) % 3) 0 * S ((i + 2) % 3) 0 * S i (2 + j)) 3 0
      (fun i _ hi => AddsW_bind
        (by
          have := AddsW_log_call w ((i + 1) % 3, 0) ((i + 2) % 3, 0) (i, 1)
          rwa [L2 i (by omega)] at this)
        (AddsW_forLoop _ (fun j => S ((i + 1) % 3) 0 * S ((i + 2) % 3) 0 * S i j) (N - 2) 2
          (fun j _ _ => by
            have := AddsW_log_call w ((i + 1) % 3, 0) ((i + 2) % 3, 0) (i, j)
            rwa [L2 i (by omega)] at this)))
    have hC := AddsW_bind (AddsW_pure w) (AddsW_bind hA hB) []
    refine Eq.trans hC ?_
    unfold server1_sum
    simp [weight]

theorem folded_triples_idle (N idx : Nat) (hidx : 2 ≤ idx) : folded_triples N idx = [] := by
  unfold folded_triples evaluate_calls
  rw [if_neg (by omega)]
  show Id.run (if idx = 1 then _ else (pure [] : Id (List (Option (Nat × Nat × Nat))))) = []
  rw [if_neg (by omega)]
  rfl

theorem triple_of_rows (x y z : Nat) :
    triple_of (0, x) (1, y) (2, z) = some (x, y, z) := rfl

theorem triple_of_cyclic (i : Nat) (hi : i < 3) (x y z : Nat) :
    triple_of ((i + 1) % 3, x) ((i + 2) % 3, y) (i, z)
      = some (if i = 0 then (z, x, y) else if i = 1 then (y, z, x) else (x, y, z)) := by
  interval_cases i <;> rfl

theorem indicator_L1 (t : Nat × Nat × Nat) (x y z : Nat) :
    (fun u => if u = some t then 1 else 0) (triple_of (0, x) (1, y) (2, z))
      = indicator t 0 x * indicator t 1 y * indicator t 2 z := by
  obtain ⟨a, b, c⟩ := t
  simp only [triple_of_rows, indicator, Option.some.injEq, Prod.mk.injEq]
  by_cases h1 : x = a <;> by_cases h2 : y = b <;> by_cases h3 : z = c <;> simp [h1, h2, h3]

theorem indicator_L2 (t : Nat × Nat × Nat) (i : Nat) (hi : i < 3) (x y z : Nat) :
    (fun u => if u = some t then 1 else 0)
        (triple_of ((i + 1) % 3, x) ((i + 2) % 3, y) (i, z))
      = indicator t ((i + 1) % 3) x * indicator t ((i + 2) % 3) y * indicator t i z := by
  obtain ⟨a, b, c⟩ := t
  rw [triple_of_cyclic i hi]
  interval_cases i
  · simp only [indicator, Option.some.injEq, Prod.mk.injEq]
    by_cases h1 : x = b <;> by_cases h2 : y = c <;> by_cases h3 : z = a <;> simp [h1, h2, h3]
  · simp only [indicator, Option.some.injEq, Prod.mk.injEq]
    by_cases h1 : x = c <;> by_cases h2 : y = a <;> by_cases h3 : z = b <;> simp [h1, h2, h3]
  · simp only [indicator, Option.some.injEq, Prod.mk.injEq]
    by_cases h1 : x = a <;> by_cases h2 : y = b <;> by_cases h3 : z = c <;> simp [h1, h2, h3]

theorem sum_indicator (t : Nat × Nat × Nat) (r N : Nat) :
    ∑ j in Finset.range N, indicator t r j
      = if (if r = 0 then t.1 else if r = 1 then t.2.1 else t.2.2) < N then 1 else 0 := by
  unfold indicator
  rw [Finset.sum_ite_eq']
  simp

/-- No call of `evaluate` is on operands other than one entry from each of the rows 0, 1
and 2 of `eval_parts`. -/
theorem folded_none (N : Nat) :
    List.count none (folded_triples N 0) = 0 ∧ List.count none (folded_triples N 1) = 0 := by
  obtain ⟨h0, h1⟩ := AddsW_folded (fun u => if u = none then 1 else 0) (fun _ _ => 0)
    (fun x y z => by rw [triple_of_rows]; rfl)
    (fun i hi x y z => by rw [triple_of_cyclic i hi]; rfl) N
  rw [count_eq_weight, count_eq_weight, h0, h1]
  unfold server0_sum server1_sum
  simp

/-- C5. For every server count `N ≥ 2`, the calls of `plain_eval` and `sub_eval` made by
`evaluate` over the server indices `0..N-1` are each on one entry of row 0, one of row 1
and one of row 2 of `eval_parts` (no call is logged as `none`), and the triples
`(a, b, c)` of the entries `[0][a]`, `[1][b]`, `[2][c]` they are on contain every triple
of `[0, N)^3` exactly once and nothing else; server 0 folds `(N-1)^3 + 3(N-1)^2` of them,
server 1 folds `1 + 3 + 3(N-2)`, and a server of index 2 or more folds none. -/
theorem partition_exhaustive (N : Nat) (hN : 2 ≤ N) :
    (∀ a b c, List.count (some (a, b, c)) ((List.range N).flatMap (folded_triples N))
        = if a < N ∧ b < N ∧ c < N then 1 else 0) ∧
      List.count none ((List.range N).flatMap (folded_triples N)) = 0 ∧
      (folded_triples N 0).length = (N - 1) ^ 3 + 3 * (N - 1) ^ 2 ∧
      (folded_triples N 1).length = 1 + 3 + 3 * (N - 2) ∧
      ∀ idx, 2 ≤ idx → folded_triples N idx = [] := by
  have hsplit : (List.range N).flatMap (folded_triples N)
      = folded_triples N 0 ++ folded_triples N 1 := by
    obtain ⟨M, rfl⟩ : ∃ M, N = M + 2 := ⟨N - 2, by omega⟩
    have htail : (List.map Nat.succ (List.map Nat.succ (List.range M))).flatMap
        (folded_triples (M + 2)) = [] := by
      rw [List.flatMap_eq_nil_iff]
      intro x hx
      apply folded_triples_idle
      simp only [List.mem_map, List.mem_range] at hx
      obtain ⟨y, ⟨z, _, rfl⟩, rfl⟩ := hx
      omega
    rw [List.range_succ_eq_map, List.flatMap_cons, List.range_succ_eq_map, List.map_cons,
      List.flatMap_cons, htail, List.append_nil]
  refine ⟨?_, ?_, ?_, ?_, folded_triples_idle N⟩
  · intro a b c
    rw [hsplit, List.count_append, count_eq_weight, count_eq_weight]
    obtain ⟨h0, h1⟩ := AddsW_folded (fun u => if u = some (a, b, c) then 1 else 0)
      (indicator (a, b, c)) (indicator_L1 (a, b, c)) (indicator_L2 (a, b, c)) N
    rw [h0, h1, server_sums_total N hN, sum_indicator, sum_indicator, sum_indicator]
    by_cases ha : a < N <;> by_cases hb : b < N <;> by_cases hc : c < N <;>
      simp [ha, hb, hc]
  · rw [hsplit, List.count_append, (folded_none N).1, (folded_none N).2]
  · obtain ⟨h0, _⟩ := AddsW_folded (fun _ => 1) (fun _ _ => 1) (fun _ _ _ => rfl)
      (fun _ _ _ _ _ => rfl) N
    rw [length_eq_weight, h0]
    unfold server0_sum
    simp only [Finset.sum_const, Finset.card_range, smul_eq_mul, mul_one]
    ring
  · obtain ⟨_, h1⟩ := AddsW_folded (fun _ => 1) (fun _ _ => 1) (fun _ _ _ => rfl)
      (fun _ _ _ _ _ => rfl) N
    rw [length_eq_weight, h1]
    unfold server1_sum
    simp only [Finset.sum_const, Finset.card_range, smul_eq_mul, mul_one]
    ring

theorem partition_exhaustive_witness :
    2 ≤ 10 ∧
      ((∀ a b c, List.count (some (a, b, c)) ((List.range 10).flatMap (folded_triples 10))
          = if a < 10 ∧ b < 10 ∧ c < 10 then 1 else 0) ∧
        List.count none ((List.range 10).flatMap (folded_triples 10)) = 0 ∧
        (folded_triples 10 0).length = (10 - 1) ^ 3 + 3 * (10 - 1) ^ 2 ∧
        (folded_triples 10 1).length = 1 + 3 + 3 * (10 - 2) ∧
        ∀ idx, 2 ≤ idx → folded_triples 10 idx = []) :=
  ⟨by decide, partition_exhaustive 10 (by decide)⟩

/-! ## The ladder built by `prs_generate_keys` -/

theorem uint_sub_one (k : Nat) (hk1 : 1 ≤ k) (hk32 : k < 2 ^ 32) : uint_sub k 1 = k - 1 := by
  unfold uint_sub
  have e : (1 : Nat) % 2 ^ 32 = 1 := by decide
  rw [e]
  have h : k + (2 ^ 32 - 1) = (k - 1) + 2 ^ 32 := by omega
  rw [h, Nat.add_mod_right, Nat.mod_eq_of_lt (by omega)]

theorem invert_value_lt (a m : Nat) (ha : a < m) : invert_value a m < m := by
  unfold invert_value mpz_invert
  rw [if_neg (by omega)]
  split
  · rename_i D h
    split at h
    · rename_i x hx
      have hD : x = D := Except.ok.inj h
      rw [← hD]
      exact List.mem_range.mp (List.mem_of_find?_eq_some hx)
    · have hD : a = D := Except.ok.inj h
      rw [← hD]
      exact ha
  · omega

/-- The ladder `prs_generate_keys` allocates and fills, for `2 ≤ k < 2^32`: `k - 1`
entries, entry `i` being `D^(2^i) mod p`. For `k = 1` the write to `d[0]` is out of
bounds, so a returned ladder implies `k ≥ 2`. -/
theorem prs_ladder_spec (y p k : Nat) (d : List Nat) (hk1 : 1 ≤ k) (hk32 : k < 2 ^ 32)
    (h : prs_ladder y p k = Except.ok d) :
    2 ≤ k ∧ d.length + 1 = k ∧
      ∃ D, mpz_invert (y ^ ((p - 1) / 2 ^ k) % p) p = Except.ok D ∧
        ∀ i, i + 1 < k → d[i]? = some (D ^ 2 ^ i % p) := by
  by_cases hp : p = 0
  · have hpow : mpz_powm y ((p - 1) / 2 ^ k) p = Except.error Fault.div_by_zero := by
      unfold mpz_powm
      rw [if_pos hp]
    have hfail : prs_ladder y p k = Except.error Fault.div_by_zero := by
      unfold prs_ladder
      show (mpz_powm y ((p - 1) / 2 ^ k) p >>= _) = _
      rw [hpow, Except.bind_err_eq]
    rw [hfail] at h
    exact Except.noConfusion h
  · have hp0 : 0 < p := Nat.pos_of_ne_zero hp
    by_cases hk2 : k = 1
    · have hw : array_write (List.replicate (k - 1) 0) 0
          (invert_value (y ^ ((p - 1) / 2 ^ k) % p) p)
          = Except.error Fault.out_of_bounds := by
        unfold array_write
        rw [if_neg (by rw [List.length_replicate]; omega)]
      have hfail : prs_ladder y p k = Except.error Fault.out_of_bounds := by
        unfold prs_ladder
        show (mpz_powm y ((p - 1) / 2 ^ k) p >>= _) = _
        rw [uint_sub_one k hk1 hk32, mpz_powm_pos _ _ hp0, Except.bind_ok_eq,
          mpz_invert_total _ _ hp, Except.bind_ok_eq]
        show (array_write (List.replicate (k - 1) 0) 0 _ >>= _) = _
        rw [hw, Except.bind_err_eq]
      rw [hfail] at h
      exact Except.noConfusion h
    · have hk : 2 ≤ k := by omega
      have hw : array_write (List.replicate (k - 1) 0) 0
          (invert_value (y ^ ((p - 1) / 2 ^ k) % p) p)
          = Except.ok ((List.replicate (k - 1) 0).set 0
            (invert_value (y ^ ((p - 1) / 2 ^ k) % p) p)) := by
        unfold array_write
        rw [if_pos (by rw [List.length_replicate]; omega)]
      obtain ⟨arr, hl, hlen, hval⟩ := forLoop_inv_E
        (fun i arr => do
          let prev ← array_read arr (i - 1)
          let v ← mpz_powm prev 2 p
          array_write arr i v)
        (fun i arr => arr.length = k - 1 ∧ ∀ j, j < i →
          arr[j]? = some (invert_value (y ^ ((p - 1) / 2 ^ k) % p) p ^ 2 ^ j % p))
        (k - 1 - 1) 1
        ((List.replicate (k - 1) 0).set 0 (invert_value (y ^ ((p - 1) / 2 ^ k) % p) p))
        ⟨by simp, fun j hj => by
          have hj0 : j = 0 := by omega
          subst hj0
          rw [List.getElem?_set_self (by rw [List.length_replicate]; omega)]
          congr 1
          rw [pow_zero, pow_one, Nat.mod_eq_of_lt
            (invert_value_lt _ _ (Nat.mod_lt _ hp0))]⟩
        (by
          intro i arr hi1 hi2 hP
          obtain ⟨h1, h2⟩ := hP
          have hprev := h2 (i - 1) (by omega)
          refine ⟨arr.set i ((invert_value (y ^ ((p - 1) / 2 ^ k) % p) p
              ^ 2 ^ (i - 1) % p) ^ 2 % p), ?_, ?_, ?_⟩
          · show (array_read arr (i - 1) >>= _) = _
            rw [array_read_of_getElem? hprev]
            simp only [Except.bind_ok_eq, mpz_powm_pos _ _ hp0]
            unfold array_write
            rw [if_pos (by omega)]
          · rw [List.length_set]; exact h1
          · intro j hj
            by_cases hji : j = i
            · subst hji
              rw [List.getElem?_set_self (by omega)]
              congr 1
              rw [← Nat.pow_mod, ← pow_mul]
              congr 2
              obtain ⟨t, rfl⟩ : ∃ t, j = t + 1 := ⟨j - 1, by omega⟩
              rw [Nat.add_sub_cancel, pow_succ]
            · rw [List.getElem?_set_ne (by omega)]
              exact h2 j (by omega))
      have hfwd : prs_ladder y p k = Except.ok arr := by
        unfold prs_ladder
        show (mpz_powm y ((p - 1) / 2 ^ k) p >>= _) = _
        rw [uint_sub_one k hk1 hk32, mpz_powm_pos _ _ hp0, Except.bind_ok_eq,
          mpz_invert_total _ _ hp, Except.bind_ok_eq]
        show (array_write (List.replicate (k - 1) 0) 0 _ >>= _) = _
        rw [hw, Except.bind_ok_eq]
        exact hl
      rw [hfwd] at h
      have hd : arr = d := Except.ok.inj h
      subst hd
      exact ⟨hk, by omega, _, mpz_invert_total _ _ hp, fun i hi => hval i (by omega)⟩

/-- A key pair returned by `prs_generate_keys` for `1 ≤ k < 2^32` is a valid key pair as
soon as the `p` accepted by the primality test is prime. -/
theorem prs_generate_keys_ValidKeys (pp : Nat → Nat → Nat) (reps fuel k n_bits : Nat)
    (st st1 : gmp_randstate) (keys : prs_keys) (hk : 1 ≤ k) (hk32 : k < 2 ^ 32)
    (h : prs_generate_keys pp reps fuel k n_bits st = (Except.ok keys, st1))
    (hprime : Nat.Prime keys.p) : ValidKeys keys := by
  obtain ⟨sa, sb, sc, sd, hp, _, hy, hd, hn, hkk, hk2, _⟩ :=
    prs_generate_keys_inv pp reps fuel k n_bits st st1 keys h
  have h1 := gen_p_spec pp reps k (n_bits >>> 1) hk fuel sa sb keys.p hp
  have h2 := gen_y_spec n_bits keys.p keys.q (keys.p * keys.q) fuel sc sd keys.y hy
  have h3 := prs_ladder_spec keys.y keys.p k keys.d hk hk32 hd
  exact {
    k_pos := by rw [hkk]; exact hk
    p_prime := hprime
    p_mod := by rw [hkk]; exact h1.1
    n_eq := hn
    k_2_eq := by rw [hk2, hkk]
    jac_p := h2.1
    jac_q := h2.2
    ladder := by
      unfold LadderOK prs_exp
      rw [hkk]
      exact h3.2 }

/-! ## C13: `get_outcome` -/

/-- C13. For all inputs `m0, m1, m2 ≥ 0` and every `k`, on keys with `k_2 = 2^k`,
`get_outcome` returns exactly `(m0·m1·m2) mod 2^k`: the intermediate reduction of `m0·m1`
does not change the result. The result depends on the three inputs and `k` alone: two calls
on keys with the same `k` and inputs with the same three entries return the same value. -/
theorem get_outcome_exact (keys : prs_keys) (input : Nat → Nat)
    (hk2 : keys.k_2 = 2 ^ keys.k) :
    get_outcome input keys = Except.ok (input 0 * input 1 * input 2 % 2 ^ keys.k) ∧
      ∀ (keys1 : prs_keys) (input1 : Nat → Nat), keys1.k_2 = 2 ^ keys1.k →
        keys1.k = keys.k → input1 0 = input 0 → input1 1 = input 1 → input1 2 = input 2 →
        get_outcome input1 keys1 = get_outcome input keys := by
  have key : ∀ (K : prs_keys) (inp : Nat → Nat), K.k_2 = 2 ^ K.k →
      get_outcome inp K = Except.ok (inp 0 * inp 1 * inp 2 % 2 ^ K.k) := by
    intro K inp h
    have hK : 0 < 2 ^ K.k := Nat.two_pow_pos _
    unfold get_outcome
    rw [h]
    simp only [mpz_mod_pos _ hK, Except.bind_ok_eq]
    rw [Nat.mul_mod (inp 0 * inp 1 % 2 ^ K.k), Nat.mod_mod, ← Nat.mul_mod]
  refine ⟨key keys input hk2, ?_⟩
  intro keys1 input1 h1 hk e0 e1 e2
  rw [key keys1 input1 h1, key keys input hk2, hk, e0, e1, e2]

theorem get_outcome_exact_witness :
    K1.k_2 = 2 ^ K1.k ∧
      (get_outcome scenario_input K1
          = Except.ok (scenario_input 0 * scenario_input 1 * scenario_input 2 % 2 ^ K1.k) ∧
        ∀ (keys1 : prs_keys) (input1 : Nat → Nat), keys1.k_2 = 2 ^ keys1.k →
          keys1.k = K1.k → input1 0 = scenario_input 0 → input1 1 = scenario_input 1 →
          input1 2 = scenario_input 2 →
          get_outcome input1 keys1 = get_outcome scenario_input K1) :=
  ⟨by decide, get_outcome_exact K1 scenario_input (by decide)⟩

/-! ## C14: idle servers -/

/-- C14. For every server index `idx` with `2 ≤ idx < N`, whatever the keys, the shares, the
ciphertexts, the prior `eval_parts` and the generator state, `evaluate` returns the partial
result it was given and does not read the generator; a partial result 1 stays 1. -/
theorem evaluate_idle (N idx : Nat) (h2 : 2 ≤ idx) (hN : idx < N)
    (ep : Nat → Nat → Nat) (s : Nat) (keys : prs_keys) (ss enc : Nat → Nat → Nat)
    (st : gmp_randstate) :
    ∃ ep1, evaluate N ep s keys idx ss enc st = (Except.ok (ep1, s), st) := by
  refine ⟨fun i j => if i < 3 ∧ j < N then (if j = idx then enc i idx else ss i j)
    else ep i j, ?_⟩
  unfold evaluate
  rw [evaluate_fill_spec N ep idx ss enc hN, Prog.bind_ok (liftE_apply _ _),
    Prog.bind_ok (evaluate_calls_idle N idx h2 _ _ s st), Prog.pure_apply]

theorem evaluate_idle_witness :
    (2 ≤ 5 ∧ 5 < 10) ∧
      ∃ ep1, evaluate 10 zeros2 1 K1 5 (fun a b => a + b) (fun a b => a * b) st_ones
        = (Except.ok (ep1, 1), st_ones) :=
  ⟨by decide, evaluate_idle 10 5 (by decide) (by decide) zeros2 1 K1 _ _ st_ones⟩

/-! ## C19: the range of the shares -/

/-- C19. For every input `> 0`, every `N ≥ 1`, keys with `k_2 = 2^k` and every outcome of
the draws, `random_split` returns and every one of the `N` shares it writes lies in
`[0, 2^k)`, the last one included, although its value before `mpz_mod`, the input minus
the sum of the others, can be negative. -/
theorem random_split_range (N input : Nat) (parts : Nat → Nat) (keys : prs_keys)
    (st : gmp_randstate) (hN : 1 ≤ N) (hin : 0 < input) (hk2 : keys.k_2 = 2 ^ keys.k) :
    ∃ row st1, random_split N input parts keys st = (Except.ok row, st1) ∧
      ∀ j, j < N → row j < 2 ^ keys.k := by
  have hpos : 0 < keys.k_2 := by rw [hk2]; exact Nat.two_pow_pos _
  obtain ⟨row, st1, h, _, _, hr, _⟩ := random_split_spec N input parts keys st hN hin hpos
  exact ⟨row, st1, h, fun j hj => by rw [← hk2]; exact hr j hj⟩

theorem random_split_range_witness :
    (1 ≤ 10 ∧ 0 < 5 ∧ K1.k_2 = 2 ^ K1.k) ∧
      ∃ row st1, random_split 10 5 (fun _ => 0) K1 ⟨fun _ => 4, 0⟩ = (Except.ok row, st1) ∧
        ∀ j, j < 10 → row j < 2 ^ K1.k :=
  ⟨by decide, random_split_range 10 5 (fun _ => 0) K1 ⟨fun _ => 4, 0⟩ (by decide) (by decide)
    (by decide)⟩

/-! ## C20: the prior contents of `eval_parts` -/

theorem forLoop_congr {m : Type → Type} [Monad m] {σ : Type} (body body1 : Nat → σ → m σ) :
    ∀ (n lo : Nat) (s : σ), (∀ i, lo ≤ i → i < lo + n → ∀ s, body i s = body1 i s) →
      forLoop body n lo s = forLoop body1 n lo s := by
  intro n
  induction n with
  | zero => intro lo s _; rfl
  | succ n ih =>
    intro lo s h
    rw [forLoop_succ, forLoop_succ, h lo (le_refl _) (by omega)]
    congr 1
    funext s1
    exact ih (lo + 1) s1 (fun i hi hi2 => h i (by omega) (by omega))

/-- The call sequence only uses the primitives on cells `[r][c]` with `r < 3`, `c < N`. -/
theorem evaluate_calls_congr (N idx : Nat) (hidx : idx < N)
    (plain sub plain1 sub1 : Nat × Nat → Nat × Nat → Nat × Nat → Nat → Prog Nat)
    (hP : ∀ e1 e2 e3 : Nat × Nat, e1.1 < 3 → e2.1 < 3 → e3.1 < 3 →
      e1.2 < N → e2.2 < N → e3.2 < N → ∀ s, plain e1 e2 e3 s = plain1 e1 e2 e3 s)
    (hS : ∀ e1 e2 e3 : Nat × Nat, e1.1 < 3 → e2.1 < 3 → e3.1 < 3 →
      e1.2 < N → e2.2 < N → e3.2 < N → ∀ s, sub e1 e2 e3 s = sub1 e1 e2 e3 s)
    (s : Nat) (st : gmp_randstate) :
    evaluate_calls N idx plain sub s st = evaluate_calls N idx plain1 sub1 s st := by
  rcases Nat.lt_or_ge idx 2 with hlt | hge
  · rcases Nat.lt_or_ge idx 1 with h0 | h1
    · have e0 : idx = 0 := by omega
      subst e0
      have eA : ∀ s, forLoop (fun i s =>
            forLoop (fun j s =>
              forLoop (fun k s => plain (0, i) (1, j) (2, k) s) (N - 1) 1 s) (N - 1) 1 s)
            (N - 1) 1 s
          = forLoop (fun i s =>
            forLoop (fun j s =>
              forLoop (fun k s => plain1 (0, i) (1, j) (2, k) s) (N - 1) 1 s) (N - 1) 1 s)
            (N - 1) 1 s :=
        fun s => forLoop_congr _ _ _ _ _ (fun i _ _ s => forLoop_congr _ _ _ _ _
          (fun j _ _ s => forLoop_congr _ _ _ _ _ (fun k _ _ s =>
            hP (0, i) (1, j) (2, k) (by simp) (by simp) (by simp)
              (by simp only; omega) (by simp only; omega) (by simp only; omega) s)))
      have eB : ∀ s, forLoop (fun i s =>
            forLoop (fun j s =>
              forLoop (fun k s => sub ((i + 1) % 3, j) ((i + 2) % 3, k) (i, 0) s) (N - 1) 1 s)
              (N - 1) 1 s) 3 0 s
          = forLoop (fun i s =>
            forLoop (fun j s =>
              forLoop (fun k s => sub1 ((i + 1) % 3, j) ((i + 2) % 3, k) (i, 0) s) (N - 1) 1 s)
              (N - 1) 1 s) 3 0 s :=
        fun s => forLoop_congr _ _ _ _ _ (fun i _ _ s => forLoop_congr _ _ _ _ _
          (fun j _ _ s => forLoop_congr _ _ _ _ _ (fun k _ _ s =>
            hS ((i + 1) % 3, j) ((i + 2) % 3, k) (i, 0)
              (Nat.mod_lt _ (by simp)) (Nat.mod_lt _ (by simp)) (by simp only; omega)
              (by simp only; omega) (by simp only; omega) (by simp only; omega) s)))
      show ((forLoop (fun i s =>
            forLoop (fun j s =>
              forLoop (fun k s => plain (0, i) (1, j) (2, k) s) (N - 1) 1 s) (N - 1) 1 s)
            (N - 1) 1 s) >>= fun s => (forLoop (fun i s =>
            forLoop (fun j s =>
              forLoop (fun k s => sub ((i + 1) % 3, j) ((i + 2) % 3, k) (i, 0) s) (N - 1) 1 s)
              (N - 1) 1 s) 3 0 s) >>= fun y => pure y) st
        = ((forLoop (fun i s =>
            forLoop (fun j s =>
              forLoop (fun k s => plain1 (0, i) (1, j) (2, k) s) (N - 1) 1 s) (N - 1) 1 s)
            (N - 1) 1 s) >>= fun s => (forLoop (fun i s =>
            forLoop (fun j s =>
              forLoop (fun k s => sub1 ((i + 1) % 3, j) ((i + 2) % 3, k) (i, 0) s) (N - 1) 1 s)
              (N - 1) 1 s) 3 0 s) >>= fun y => pure y) st
      simp only [eA, eB]
    · have e1 : idx = 1 := by omega
      subst e1
      have eB : ∀ s, forLoop (fun i s =>
            sub ((i + 1) % 3, 0) ((i + 2) % 3, 0) (i, 1) s >>= fun s =>
              forLoop (fun j s => plain ((i + 1) % 3, 0) ((i + 2) % 3, 0) (i, j) s)
                (N - 2) 2 s) 3 0 s
          = forLoop (fun i s =>
            sub1 ((i + 1) % 3, 0) ((i + 2) % 3, 0) (i, 1) s >>= fun s =>
              forLoop (fun j s => plain1 ((i + 1) % 3, 0) ((i + 2) % 3, 0) (i, j) s)
                (N - 2) 2 s) 3 0 s :=
        fun s => forLoop_congr _ _ _ _ _ (fun i _ _ s => by
          show (sub ((i + 1) % 3, 0) ((i + 2) % 3, 0) (i, 1) s >>= _) = _
          rw [hS ((i + 1) % 3, 0) ((i + 2) % 3, 0) (i, 1)
            (Nat.mod_lt _ (by simp)) (Nat.mod_lt _ (by simp)) (by simp only; omega)
            (by simp only; omega) (by simp only; omega) (by simp only; omega) s]
          congr 1
          funext s1
          exact forLoop_congr _ _ _ _ _ (fun j _ _ s =>
            hP ((i + 1) % 3, 0) ((i + 2) % 3, 0) (i, j)
              (Nat.mod_lt _ (by simp)) (Nat.mod_lt _ (by simp)) (by simp only; omega)
              (by simp only; omega) (by simp only; omega) (by simp only; omega) s))
      show ((pure s : Prog Nat) >>= fun s => plain (0, 0) (1, 0) (2, 0) s >>= fun s =>
          forLoop (fun i s =>
            sub ((i + 1) % 3, 0) ((i + 2) % 3, 0) (i, 1) s >>= fun s =>
              forLoop (fun j s => plain ((i + 1) % 3, 0) ((i + 2) % 3, 0) (i, j) s)
                (N - 2) 2 s) 3 0 s) st
        = ((pure s : Prog Nat) >>= fun s => plain1 (0, 0) (1, 0) (2, 0) s >>= fun s =>
          forLoop (fun i s =>
            sub1 ((i + 1) % 3, 0) ((i + 2) % 3, 0) (i, 1) s >>= fun s =>
              forLoop (fun j s => plain1 ((i + 1) % 3, 0) ((i + 2) % 3, 0) (i, j) s)
                (N - 2) 2 s) 3 0 s) st
      have eP := hP (0, 0) (1, 0) (2, 0) (by simp) (by simp) (by simp) (by simp only; omega)
        (by simp only; omega) (by simp only; omega)
      simp only [eP, eB]
  · rw [evaluate_calls_idle N idx hge, evaluate_calls_idle N idx hge]

theorem forLoop_pure_ok {σ : Type} (body : Nat → σ → Except Fault σ)
    (h : ∀ i s, ∃ s1, body i s = Except.ok s1) (n lo : Nat) (s : σ) :
    ∃ s1, forLoop body n lo s = Except.ok s1 := by
  obtain ⟨s1, e, _⟩ := forLoop_inv_E body (fun _ _ => True) n lo s trivial
    (fun i s _ _ _ => by
      obtain ⟨s1, e⟩ := h i s
      exact ⟨s1, e, trivial⟩)
  exact ⟨s1, e⟩

/-- For `index ≥ N` the write to column `index` leaves the row, whatever `eval_parts` held. -/
theorem evaluate_fill_out_of_bounds (N : Nat) (ep : Nat → Nat → Nat) (idx : Nat)
    (ss enc : Nat → Nat → Nat) (hidx : ¬ idx < N) :
    evaluate_fill N ep idx ss enc = Except.error Fault.out_of_bounds := by
  obtain ⟨ep1, e⟩ := forLoop_pure_ok
    (fun i ep =>
      forLoop (fun j (ep : Nat → Nat → Nat) =>
        (pure (if j ≠ idx then set2 ep i j (ss i j) else ep) : Except Fault _)) N 0 ep)
    (fun i ep => forLoop_pure_ok _ (fun j ep => ⟨_, rfl⟩) N 0 ep) 3 0 ep
  unfold evaluate_fill
  simp only [e, Except.bind_ok_eq, if_neg hidx]

theorem Prog.bind_pure_pair {α β : Type} (m : Prog α) (b : β) (st : gmp_randstate) :
    ((m >>= fun a => (pure (b, a) : Prog (β × α))) st).1.map Prod.snd = (m st).1 ∧
      ((m >>= fun a => (pure (b, a) : Prog (β × α))) st).2 = (m st).2 := by
  rw [Prog.bind_apply]
  rcases m st with ⟨r, st1⟩
  cases r <;> exact ⟨rfl, rfl⟩

/-- What `evaluate` returns in terms of its call sequence on the filled `eval_parts`. -/
theorem evaluate_eq_calls (N idx : Nat) (hidx : idx < N) (ep : Nat → Nat → Nat) (s : Nat)
    (keys : prs_keys) (ss enc : Nat → Nat → Nat) (st : gmp_randstate) :
    (evaluate N ep s keys idx ss enc st).1.map Prod.snd
        = (evaluate_calls N idx
          (fun e1 e2 e3 s => plain_eval
            ((fun i j => if i < 3 ∧ j < N then (if j = idx then enc i idx else ss i j)
              else ep i j) e1.1 e1.2)
            ((fun i j => if i < 3 ∧ j < N then (if j = idx then enc i idx else ss i j)
              else ep i j) e2.1 e2.2)
            ((fun i j => if i < 3 ∧ j < N then (if j = idx then enc i idx else ss i j)
              else ep i j) e3.1 e3.2) s keys)
          (fun e1 e2 e3 s => liftE (sub_eval
            ((fun i j => if i < 3 ∧ j < N then (if j = idx then enc i idx else ss i j)
              else ep i j) e1.1 e1.2)
            ((fun i j => if i < 3 ∧ j < N then (if j = idx then enc i idx else ss i j)
              else ep i j) e2.1 e2.2)
            ((fun i j => if i < 3 ∧ j < N then (if j = idx then enc i idx else ss i j)
              else ep i j) e3.1 e3.2) s keys)) s st).1 ∧
      (evaluate N ep s keys idx ss enc st).2
        = (evaluate_calls N idx
          (fun e1 e2 e3 s => plain_eval
            ((fun i j => if i < 3 ∧ j < N then (if j = idx then enc i idx else ss i j)
              else ep i j) e1.1 e1.2)
            ((fun i j => if i < 3 ∧ j < N then (if j = idx then enc i idx else ss i j)
              else ep i j) e2.1 e2.2)
            ((fun i j => if i < 3 ∧ j < N then (if j = idx then enc i idx else ss i j)
              else ep i j) e3.1 e3.2) s keys)
          (fun e1 e2 e3 s => liftE (sub_eval
            ((fun i j => if i < 3 ∧ j < N then (if j = idx then enc i idx else ss i j)
              else ep i j) e1.1 e1.2)
            ((fun i j => if i < 3 ∧ j < N then (if j = idx then enc i idx else ss i j)
              else ep i j) e2.1 e2.2)
            ((fun i j => if i < 3 ∧ j < N then (if j = idx then enc i idx else ss i j)
              else ep i j) e3.1 e3.2) s keys)) s st).2 := by
  unfold evaluate
  rw [evaluate_fill_spec N ep idx ss enc hidx, Prog.bind_ok (liftE_apply _ _)]
  exact Prog.bind_pure_pair _ _ st

/-- C20. For every server index, the partial result `evaluate` produces (or the fault it
stops on) and the generator state it leaves do not depend on the prior contents of
`eval_parts`: two runs that differ only in the `eval_parts` they start from agree on both.
Every cell the calls read was overwritten by the copy loops. -/
theorem evaluate_eval_parts_independent (N idx : Nat) (ep ep1 : Nat → Nat → Nat) (s : Nat)
    (keys : prs_keys) (ss enc : Nat → Nat → Nat) (st : gmp_randstate) :
    (evaluate N ep s keys idx ss enc st).1.map Prod.snd
        = (evaluate N ep1 s keys idx ss enc st).1.map Prod.snd ∧
      (evaluate N ep s keys idx ss enc st).2 = (evaluate N ep1 s keys idx ss enc st).2 := by
  by_cases hidx : idx < N
  · have hF : ∀ i j, i < 3 → j < N →
        (fun i j => if i < 3 ∧ j < N then (if j = idx then enc i idx else ss i j)
          else ep i j) i j
        = (fun i j => if i < 3 ∧ j < N then (if j = idx then enc i idx else ss i j)
          else ep1 i j) i j := by
      intro i j hi hj
      simp only [hi, hj, and_self, if_true]
    obtain ⟨a1, a2⟩ := evaluate_eq_calls N idx hidx ep s keys ss enc st
    obtain ⟨b1, b2⟩ := evaluate_eq_calls N idx hidx ep1 s keys ss enc st
    have hc := evaluate_calls_congr N idx hidx
      (fun e1 e2 e3 s => plain_eval
        ((fun i j => if i < 3 ∧ j < N then (if j = idx then enc i idx else ss i j)
          else ep i j) e1.1 e1.2)
        ((fun i j => if i < 3 ∧ j < N then (if j = idx then enc i idx else ss i j)
          else ep i j) e2.1 e2.2)
        ((fun i j => if i < 3 ∧ j < N then (if j = idx then enc i idx else ss i j)
          else ep i j) e3.1 e3.2) s keys)
      (fun e1 e2 e3 s => liftE (sub_eval
        ((fun i j => if i < 3 ∧ j < N then (if j = idx then enc i idx else ss i j)
          else ep i j) e1.1 e1.2)
        ((fun i j => if i < 3 ∧ j < N then (if j = idx then enc i idx else ss i j)
          else ep i j) e2.1 e2.2)
        ((fun i j => if i < 3 ∧ j < N then (if j = idx then enc i idx else ss i j)
          else ep i j) e3.1 e3.2) s keys))
      (fun e1 e2 e3 s => plain_eval
        ((fun i j => if i < 3 ∧ j < N then (if j = idx then enc i idx else ss i j)
          else ep1 i j) e1.1 e1.2)
        ((fun i j => if i < 3 ∧ j < N then (if j = idx then enc i idx else ss i j)
          else ep1 i j) e2.1 e2.2)
        ((fun i j => if i < 3 ∧ j < N then (if j = idx then enc i idx else ss i j)
          else ep1 i j) e3.1 e3.2) s keys)
      (fun e1 e2 e3 s => liftE (sub_eval
        ((fun i j => if i < 3 ∧ j < N then (if j = idx then enc i idx else ss i j)
          else ep1 i j) e1.1 e1.2)
        ((fun i j => if i < 3 ∧ j < N then (if j = idx then enc i idx else ss i j)
          else ep1 i j) e2.1 e2.2)
        ((fun i j => if i < 3 ∧ j < N then (if j = idx then enc i idx else ss i j)
          else ep1 i j) e3.1 e3.2) s keys))
      (fun e1 e2 e3 h1 h2 h3 c1 c2 c3 s => by
        show plain_eval _ _ _ s keys = plain_eval _ _ _ s keys
        rw [hF _ _ h1 c1, hF _ _ h2 c2, hF _ _ h3 c3])
      (fun e1 e2 e3 h1 h2 h3 c1 c2 c3 s => by
        show liftE (sub_eval _ _ _ s keys) = liftE (sub_eval _ _ _ s keys)
        rw [hF _ _ h1 c1, hF _ _ h2 c2, hF _ _ h3 c3])
      s st
    exact ⟨by rw [a1, b1, hc], by rw [a2, b2, hc]⟩
  · have e : ∀ ep0 : Nat → Nat → Nat, evaluate N ep0 s keys idx ss enc st
        = (Except.error Fault.out_of_bounds, st) := by
      intro ep0
      unfold evaluate
      rw [evaluate_fill_out_of_bounds N ep0 idx ss enc hidx,
        Prog.bind_err (liftE_apply _ _)]
    rw [e ep, e ep1]
    exact ⟨rfl, rfl⟩

/-! ## C17: the accepted `y` is a unit -/

theorem mpz_jacobi_neg_one (y b : Nat) (h : mpz_jacobi y b = -1) :
    b ≠ 0 ∧ Nat.gcd y b = 1 := by
  unfold mpz_jacobi at h
  have hb : b ≠ 0 := by
    intro h0
    rw [h0, jacobiSym.zero_right] at h
    omega
  refine ⟨hb, ?_⟩
  haveI : NeZero b := ⟨hb⟩
  by_contra hg
  have h0 : jacobiSym (y : Int) b = 0 := by
    rw [jacobiSym.eq_zero_iff_not_coprime, Int.gcd_natCast_natCast]
    exact hg
  omega

theorem mpz_jacobi_mul (y p q : Nat) (hp : mpz_jacobi y p = -1) (hq : mpz_jacobi y q = -1) :
    Nat.gcd y (p * q) = 1 ∧ mpz_jacobi y (p * q) = 1 := by
  obtain ⟨hp0, hgp⟩ := mpz_jacobi_neg_one y p hp
  obtain ⟨hq0, hgq⟩ := mpz_jacobi_neg_one y q hq
  haveI : NeZero p := ⟨hp0⟩
  haveI : NeZero q := ⟨hq0⟩
  refine ⟨Nat.Coprime.mul_right hgp hgq, ?_⟩
  unfold mpz_jacobi at *
  rw [jacobiSym.mul_right, hp, hq]
  norm_num

/-- C17. Whatever candidates the generator supplies, the `y` that `prs_generate_keys`
stores satisfies `gcd(y, n) = 1` and has Jacobi symbol `+1` modulo `n = p·q`; and every
candidate `c` with `gcd(c, n) ≠ 1` makes the loop condition true, so it is not accepted.
(The `continue` after the gcd test only jumps to the loop condition; the rejection comes
from the Jacobi symbols, which are 0 for such a candidate.) -/
theorem prs_generate_keys_y_unit (pp : Nat → Nat → Nat) (reps fuel k n_bits : Nat)
    (st st1 : gmp_randstate) (keys : prs_keys)
    (h : prs_generate_keys pp reps fuel k n_bits st = (Except.ok keys, st1)) :
    Nat.gcd keys.y keys.n = 1 ∧ mpz_jacobi keys.y keys.n = 1 ∧
      ∀ c, Nat.gcd c keys.n ≠ 1 →
        mpz_jacobi c keys.p ≠ -1 ∨ mpz_jacobi c keys.q ≠ -1 := by
  obtain ⟨sa, sb, sc, sd, _, _, hy, _, hn, _⟩ :=
    prs_generate_keys_inv pp reps fuel k n_bits st st1 keys h
  have h2 := gen_y_spec n_bits keys.p keys.q (keys.p * keys.q) fuel sc sd keys.y hy
  have h3 := mpz_jacobi_mul keys.y keys.p keys.q h2.1 h2.2
  rw [hn]
  refine ⟨h3.1, h3.2, ?_⟩
  intro c hc
  by_contra hcon
  rw [not_or, not_not, not_not] at hcon
  exact hc (mpz_jacobi_mul c keys.p keys.q hcon.1 hcon.2).1

theorem prs_generate_keys_y_unit_witness :
    prs_generate_keys small_prime_test 0 1 2 6 st_keygen
        = (Except.ok K1, ⟨fun i => if i = 2 then 3 else 1, 3⟩) ∧
      (Nat.gcd K1.y K1.n = 1 ∧ mpz_jacobi K1.y K1.n = 1 ∧
        ∀ c, Nat.gcd c K1.n ≠ 1 → mpz_jacobi c K1.p ≠ -1 ∨ mpz_jacobi c K1.q ≠ -1) :=
  ⟨prs_generate_keys_K1,
    prs_generate_keys_y_unit small_prime_test 0 1 2 6 st_keygen _ K1 prs_generate_keys_K1⟩

/-! ## C16: the values of the ladder -/

theorem invert_exists (a p : Nat) (hp : 0 < p) (hc : Nat.gcd a p = 1) :
    ∃ x, x < p ∧ a * x % p = 1 % p := by
  rcases Nat.lt_or_ge 1 p with h1 | h1
  · obtain ⟨m, hm⟩ := Nat.exists_mul_emod_eq_one_of_coprime hc h1
    refine ⟨m % p, Nat.mod_lt _ hp, ?_⟩
    rw [Nat.mul_mod, Nat.mod_mod, ← Nat.mul_mod, hm, Nat.mod_eq_of_lt h1]
  · have e : p = 1 := by omega
    subst e
    exact ⟨0, by decide, by simp⟩

/-- C16. For every key pair `prs_generate_keys` returns with `2 ≤ k < 2^32`, with
`Y = y^((p-1)/2^k) mod p`: `d[0]` is the inverse of `Y` modulo `p`, `d[i] = d[i-1]^2 mod p`
for `i = 1..k-2`, and hence `d[i] · Y^(2^i) ≡ 1 (mod p)` for every `i` in `0..k-2`. -/
theorem prs_generate_keys_ladder_values (pp : Nat → Nat → Nat) (reps fuel k n_bits : Nat)
    (st st1 : gmp_randstate) (keys : prs_keys) (hk : 2 ≤ k) (hk32 : k < 2 ^ 32)
    (h : prs_generate_keys pp reps fuel k n_bits st = (Except.ok keys, st1)) :
    (∃ D, keys.d[0]? = some D ∧ D < keys.p ∧
        (keys.y ^ ((keys.p - 1) / 2 ^ k) % keys.p) * D % keys.p = 1 % keys.p) ∧
      (∀ i, 1 ≤ i → i + 1 < k →
        ∃ a, keys.d[i - 1]? = some a ∧ keys.d[i]? = some (a ^ 2 % keys.p)) ∧
      ∀ i, i + 1 < k → ∃ v, keys.d[i]? = some v ∧
        v * (keys.y ^ ((keys.p - 1) / 2 ^ k) % keys.p) ^ 2 ^ i % keys.p = 1 % keys.p := by
  obtain ⟨sa, sb, sc, sd, _, _, hy, hd, _⟩ :=
    prs_generate_keys_inv pp reps fuel k n_bits st st1 keys h
  have hj := gen_y_spec n_bits keys.p keys.q (keys.p * keys.q) fuel sc sd keys.y hy
  obtain ⟨hp0, hg⟩ := mpz_jacobi_neg_one keys.y keys.p hj.1
  have hp : 0 < keys.p := Nat.pos_of_ne_zero hp0
  obtain ⟨_, _, D, hD, hval⟩ := prs_ladder_spec keys.y keys.p k keys.d (by omega) hk32 hd
  have hDv : D = invert_value (keys.y ^ ((keys.p - 1) / 2 ^ k) % keys.p) keys.p := by
    have := mpz_invert_total (keys.y ^ ((keys.p - 1) / 2 ^ k) % keys.p) keys.p hp0
    rw [hD] at this
    exact Except.ok.inj this
  have hDlt : D < keys.p := by
    rw [hDv]
    exact invert_value_lt _ _ (Nat.mod_lt _ hp)
  have hcop : Nat.gcd (keys.y ^ ((keys.p - 1) / 2 ^ k) % keys.p) keys.p = 1 := by
    rw [← Nat.gcd_rec]
    exact (Nat.Coprime.pow_left _ hg).symm
  have hYD : (keys.y ^ ((keys.p - 1) / 2 ^ k) % keys.p) * D % keys.p = 1 % keys.p :=
    mpz_invert_spec (invert_exists _ _ hp hcop) hD
  refine ⟨⟨D, ?_, hDlt, hYD⟩, ?_, ?_⟩
  · rw [hval 0 (by omega), pow_zero, pow_one, Nat.mod_eq_of_lt hDlt]
  · intro i hi1 hi2
    refine ⟨_, hval (i - 1) (by omega), ?_⟩
    rw [hval i hi2, ← Nat.pow_mod, ← pow_mul]
    obtain ⟨t, rfl⟩ : ∃ t, i = t + 1 := ⟨i - 1, by omega⟩
    rw [Nat.add_sub_cancel, pow_succ]
  · intro i hi
    refine ⟨_, hval i hi, ?_⟩
    have hm : (D * (keys.y ^ ((keys.p - 1) / 2 ^ k) % keys.p)) ≡ 1 [MOD keys.p] := by
      unfold Nat.ModEq
      rw [Nat.mul_comm]
      exact hYD
    have h2 := hm.pow (2 ^ i)
    rw [one_pow, mul_pow] at h2
    unfold Nat.ModEq at h2
    rw [Nat.mul_mod, Nat.mod_mod, ← Nat.mul_mod]
    exact h2

theorem prs_generate_keys_ladder_values_witness :
    (2 ≤ 2 ∧ 2 < 2 ^ 32 ∧
        prs_generate_keys small_prime_test 0 1 2 6 st_keygen
          = (Except.ok K1, ⟨fun i => if i = 2 then 3 else 1, 3⟩)) ∧
      ((∃ D, K1.d[0]? = some D ∧ D < K1.p ∧
          (K1.y ^ ((K1.p - 1) / 2 ^ 2) % K1.p) * D % K1.p = 1 % K1.p) ∧
        (∀ i, 1 ≤ i → i + 1 < 2 →
          ∃ a, K1.d[i - 1]? = some a ∧ K1.d[i]? = some (a ^ 2 % K1.p)) ∧
        ∀ i, i + 1 < 2 → ∃ v, K1.d[i]? = some v ∧
          v * (K1.y ^ ((K1.p - 1) / 2 ^ 2) % K1.p) ^ 2 ^ i % K1.p = 1 % K1.p) :=
  ⟨⟨by decide, by decide, prs_generate_keys_K1⟩,
    prs_generate_keys_ladder_values small_prime_test 0 1 2 6 st_keygen _ K1 (by decide)
      (by decide) prs_generate_keys_K1⟩

/-! ## C15: the bounds of the ladder -/

/-- C15, at the failing input `k = 1`, `n_bits = 6`. The ladder is allocated with
`k - 1 = 0` entries and the unconditional write to `d[0]` is out of bounds: on the draws
2, 1, 3 the searches find `p = 5`, `q = 7`, `y = 3` and the run stops at that write; the
same happens for the ladder of any `y` and `p`, here `y = 3`, `p = 5`. -/
theorem ladder_write_out_of_bounds :
    (1 ≤ 1 ∧ 1 < 6 / 2) ∧
      prs_ladder 3 5 1 = Except.error Fault.out_of_bounds ∧
      prs_generate_keys small_prime_test 0 1 1 6 st_keygen1
        = (Except.error Fault.out_of_bounds,
          ⟨fun i => if i = 0 then 2 else if i = 2 then 3 else 1, 3⟩) := by
  refine ⟨by decide, rfl, ?_⟩
  have hp : gen_p small_prime_test 0 1 (6 >>> 1) 1 st_keygen1
      = (Except.ok 5, ⟨fun i => if i = 0 then 2 else if i = 2 then 3 else 1, 1⟩) := rfl
  have hq : gen_q small_prime_test 0 (6 >>> 1) (mpz_sizeinbase2 5) 1
      ⟨fun i => if i = 0 then 2 else if i = 2 then 3 else 1, 1⟩
      = (Except.ok 7, ⟨fun i => if i = 0 then 2 else if i = 2 then 3 else 1, 2⟩) := rfl
  have hy : gen_y 6 5 7 (5 * 7) 1 ⟨fun i => if i = 0 then 2 else if i = 2 then 3 else 1, 2⟩
      = (Except.ok 3, ⟨fun i => if i = 0 then 2 else if i = 2 then 3 else 1, 3⟩) := by
    unfold gen_y
    rw [Prog.bind_ok (mpz_urandomb_apply _ _)]
    show (if mpz_jacobi 3 5 ≠ -1 ∨ mpz_jacobi 3 7 ≠ -1 then gen_y 6 5 7 (5 * 7) 0 else pure 3)
        ⟨fun i => if i = 0 then 2 else if i = 2 then 3 else 1, 3⟩ = _
    rw [if_neg (by rw [mpz_jacobi_3_5, mpz_jacobi_3_7]; simp)]
    rfl
  have hl : prs_ladder 3 5 1 = Except.error Fault.out_of_bounds := rfl
  unfold prs_generate_keys
  rw [Prog.bind_ok (c_assert_true (by decide) _), Prog.bind_ok hp, Prog.bind_ok hq,
    Prog.bind_ok hy, hl, Prog.bind_err (liftE_apply _ _)]

/-! ## C11: what `prs_generate_keys` checks before it draws -/

/-- The ciphertext has the stated range and form, with `x` the value drawn. -/
theorem prs_encrypt_form (keys : prs_keys) (m b : Nat) (st : gmp_randstate)
    (hb0 : 0 < b) (hbk : b ≤ keys.k) (hn : 0 < keys.n) :
    ∃ x c, mpz_urandomb b st = (Except.ok x, { st with pos := st.pos + 1 }) ∧ x < 2 ^ b ∧
      prs_encrypt keys m b st = (Except.ok c, { st with pos := st.pos + 1 }) ∧
      c < keys.n ∧ c = keys.y ^ m * x ^ keys.k_2 % keys.n := by
  refine ⟨st.stream st.pos % 2 ^ b, _, mpz_urandomb_pos hb0 st, Nat.mod_lt _ (Nat.two_pow_pos b),
    prs_encrypt_ok keys m b st hb0 hbk hn, Nat.mod_lt _ hn, ?_⟩
  rw [← Nat.mul_mod, Nat.mul_comm]

/-- C12, at the failing input. For the valid key pair `K1` (`n = 35`) and `base_size = 2`
the generator can deliver the draw `x = 0`; `prs_encrypt` uses it as it is, the ciphertext
is `y^m · 0^(2^k) mod n = 0`, and `gcd(0, n) = 35`, so the `x` drawn is not a unit. -/
theorem ciphertext_zero_draw_not_unit :
    ValidKeys K1 ∧ (1 < 2 ^ K1.k ∧ 0 < 2 ∧ 2 ≤ K1.k) ∧
      mpz_urandomb 2 ⟨fun _ => 0, 0⟩ = (Except.ok 0, ⟨fun _ => 0, 1⟩) ∧
      prs_encrypt K1 1 2 ⟨fun _ => 0, 0⟩
        = (Except.ok (K1.y ^ 1 * 0 ^ K1.k_2 % K1.n), ⟨fun _ => 0, 1⟩) ∧
      Nat.gcd 0 K1.n = 35 :=
  ⟨K1_valid, by decide, rfl, rfl, rfl⟩

/-! ## C18: `prs_decrypt` is total -/

theorem prs_decrypt_step_total (keys : prs_keys) (hp : 0 < keys.p) (i : Nat)
    (s : Nat × Nat × Nat) (hi : i - 1 < keys.d.length) (hs : s.1 < s.2.2) :
    ∃ s1, prs_decrypt_step keys i s = Except.ok s1 ∧ s1.1 < s1.2.2 ∧ s1.2.2 = s.2.2 * 2 := by
  unfold prs_decrypt_step
  show ∃ s1, (mpz_powm s.2.1 (2 ^ (keys.k - i)) keys.p >>= _) = Except.ok s1 ∧ _
  rw [mpz_powm_pos _ _ hp, Except.bind_ok_eq]
  split_ifs with hz
  · rw [array_read_of_getElem? (List.getElem?_eq_getElem hi), Except.bind_ok_eq,
      mpz_mod_pos _ hp]
    exact ⟨_, rfl, by show s.1 + s.2.2 < s.2.2 * 2; omega, rfl⟩
  · exact ⟨_, rfl, by show s.1 < s.2.2 * 2; omega, rfl⟩

theorem prs_decrypt_loop_total (keys : prs_keys) (hp : 0 < keys.p) :
    ∀ (n i : Nat) (s : Nat × Nat × Nat), 1 ≤ i → i - 1 + n ≤ keys.d.length → s.1 < s.2.2 →
      ∃ s1, forLoop (prs_decrypt_step keys) n i s = Except.ok s1 ∧ s1.1 < s1.2.2 ∧
        s1.2.2 = s.2.2 * 2 ^ n := by
  intro n
  induction n with
  | zero => intro i s _ _ hs; exact ⟨s, rfl, hs, by simp⟩
  | succ n ih =>
    intro i s hi hl hs
    obtain ⟨s1, e1, h1, b1⟩ := prs_decrypt_step_total keys hp i s (by omega) hs
    obtain ⟨s2, e2, h2, b2⟩ := ih (i + 1) s1 (by omega) (by omega) h1
    refine ⟨s2, ?_, h2, ?_⟩
    · rw [forLoop_succ, e1]; exact e2
    · rw [b2, b1, pow_succ]; ring

theorem prs_decrypt_int_natCast (keys : prs_keys) (c : Nat) :
    prs_decrypt_int keys (c : Int) = prs_decrypt keys c := by
  have e : ∀ x m : Nat, mpz_powm_int (c : Int) x m = mpz_powm c x m := by
    intro x m
    unfold mpz_powm_int mpz_powm
    rw [← Nat.cast_pow, ← Int.natCast_mod, Int.toNat_ofNat]
  unfold prs_decrypt_int prs_decrypt
  show (mpz_powm_int (c : Int) ((keys.p - 1) / 2 ^ keys.k) keys.p >>= _)
    = (mpz_powm c ((keys.p - 1) / 2 ^ keys.k) keys.p >>= _)
  rw [e]

/-- C18. For every key struct with a modulus `p > 0` and a ladder of `k - 1` entries, and
every integer `c` in the ciphertext (zero, negative, or not a unit modulo `n` included),
`prs_decrypt` returns without a fault a value in `[0, 2^k)`; on a non-negative `c` this is
the run of `prs_decrypt` on the natural number `c`. -/
theorem prs_decrypt_total_bounded (keys : prs_keys) (c : Int) (hp : 0 < keys.p)
    (hd : keys.d.length + 1 = keys.k) :
    (∃ m, prs_decrypt_int keys c = Except.ok m ∧ m < 2 ^ keys.k) ∧
      ∀ ct : Nat, ∃ m, prs_decrypt keys ct = Except.ok m ∧ m < 2 ^ keys.k ∧
        prs_decrypt_int keys (ct : Int) = Except.ok m := by
  have key : ∀ z : Int, ∃ m, prs_decrypt_int keys z = Except.ok m ∧ m < 2 ^ keys.k := by
    intro z
    obtain ⟨s1, e1, h1, b1⟩ := prs_decrypt_loop_total keys hp (keys.k - 1) 1
      (0, (z ^ ((keys.p - 1) / 2 ^ keys.k) % (keys.p : Int)).toNat, 1) (le_refl _)
      (by omega) Nat.zero_lt_one
    have hb : s1.2.2 * 2 = 2 ^ keys.k := by
      rw [b1]
      show 1 * 2 ^ (keys.k - 1) * 2 = 2 ^ keys.k
      rw [one_mul, ← pow_succ]
      congr 1
      omega
    refine ⟨if s1.2.1 ≠ 1 then s1.1 + s1.2.2 else s1.1, ?_, ?_⟩
    · unfold prs_decrypt_int mpz_powm_int
      show ((if keys.p = 0 then Except.error Fault.div_by_zero
          else Except.ok (z ^ ((keys.p - 1) / 2 ^ keys.k) % (keys.p : Int)).toNat) >>= _) = _
      rw [if_neg (by omega), Except.bind_ok_eq, e1, Except.bind_ok_eq]
      rfl
    · split_ifs <;> omega
  refine ⟨key c, ?_⟩
  intro ct
  obtain ⟨m, e, hm⟩ := key (ct : Int)
  exact ⟨m, by rw [← prs_decrypt_int_natCast]; exact e, hm, e⟩

theorem prs_decrypt_total_bounded_witness :
    (0 < K1.p ∧ K1.d.length + 1 = K1.k) ∧
      ((∃ m, prs_decrypt_int K1 (-7) = Except.ok m ∧ m < 2 ^ K1.k) ∧
        ∀ ct : Nat, ∃ m, prs_decrypt K1 ct = Except.ok m ∧ m < 2 ^ K1.k ∧
          prs_decrypt_int K1 (ct : Int) = Except.ok m) :=
  ⟨by decide, prs_decrypt_total_bounded K1 (-7) (by decide) (by decide)⟩

end HSS
